import Mathlib

/-!
# A verification development for `hmalloc.c`

A shallow embedding of the allocator of `src/hmalloc.c` (free-list engine,
`hmalloc`, `hfree`) over an explicit byte-addressed memory, followed by the
theorems that settle the claims of the specification.

Modelling conventions

* Memory is a flat map from byte addresses to bytes.  A `size_t` or pointer
  field is eight consecutive bytes, little endian.  Page protection is not
  modelled: a store outside the mapped pages simply lands in the flat memory.
* `size_t` and `uintptr_t` arithmetic is arithmetic on `Nat` modulo `2 ^ 64`.
* The `long` statistics counters are integers.
* Every `while` loop of the source is a recursion on a fuel argument; running
  out of fuel is the outcome `out_of_fuel`, `exit(EXIT_FAILURE)` is the outcome
  `exit_failure`.
* The page provider (`mmap`) is an oracle: the address it hands out is an
  argument of `hmalloc`.  Its calls, and those of `munmap`, are logged.
-/

namespace HMalloc

/-! ## Machine words and memory -/

/-- The modulus of `size_t` and `uintptr_t` arithmetic. -/
def WORD : Nat := 2 ^ 64

/-- The constant `PAGE_SIZE` of the source. -/
def PAGE_SIZE : Nat := 4096

/-- The null pointer. -/
def NULL : Nat := 0

/-- The value `(void*) -1` that `mmap` returns on failure. -/
def MAP_FAILED : Nat := 2 ^ 64 - 1

/-- The value of `sizeof(size_t)`, the width of a block header. -/
def SIZEOF_SIZE_T : Nat := 8

/-- Byte-addressed memory. -/
abbrev Mem := Nat → Nat

/-- Little-endian value of the `k` bytes that start at address `a`. -/
def readBytes (m : Mem) (a : Nat) : Nat → Nat
  | 0 => 0
  | k + 1 => m a % 256 + 256 * readBytes m (a + 1) k

/-- Load of a 64-bit field at address `a`. -/
def read64 (m : Mem) (a : Nat) : Nat := readBytes m a 8

/-- Store of the 64-bit value `v` at address `a`. -/
def write64 (m : Mem) (a v : Nat) : Mem :=
  fun x => if a ≤ x ∧ x < a + 8 then v / 256 ^ (x - a) % 256 else m x

/-- Memory after the page provider has handed out `len` zero-filled bytes
at `loc`. -/
def zero_fill (m : Mem) (loc len : Nat) : Mem :=
  fun x => if loc ≤ x ∧ x < loc + len then 0 else m x

/-- Address of the `size` field of the node at `p` (offset 0 of `struct node_t`). -/
def size_at (p : Nat) : Nat := p

/-- Address of the `next` field of the node at `p` (offset 8 of `struct node_t`). -/
def next_at (p : Nat) : Nat := p + 8

/-! ## Allocator state -/

/-- The counters of `struct hm_stats`. -/
structure hm_stats where
  pages_mapped : Int
  pages_unmapped : Int
  chunks_allocated : Int
  chunks_freed : Int
  free_length : Int
deriving DecidableEq, Repr

/-- A call made to the page provider. -/
inductive SysCall where
  | mmap (len : Nat) (ret : Nat)
  | munmap (addr : Nat) (len : Nat)
deriving DecidableEq, Repr

/-- The global state of the allocator: the managed memory, the static
variables `head` and `stats`, and the log of page-provider calls (most recent
first). -/
structure State where
  mem : Mem
  head : Nat
  stats : hm_stats
  calls : List SysCall

/-- Ways in which a call does not return. -/
inductive Fail where
  | exit_failure
  | out_of_fuel
deriving DecidableEq, Repr

/-- The allocator before its first call: `head = NULL`, all counters zero. -/
def empty (m : Mem) : State :=
  { mem := m, head := NULL, stats := ⟨0, 0, 0, 0, 0⟩, calls := [] }

/-! ## The functions of `hmalloc.c` -/

/-- The loop of `free_list_length`. -/
def free_list_length_loop (m : Mem) : Nat → Nat → Int → Except Fail Int
  | 0, _, _ => .error .out_of_fuel
  | fuel + 1, nn, len =>
    if nn = NULL then .ok len
    else free_list_length_loop m fuel (read64 m (next_at nn)) (len + 1)

/-- The function `free_list_length`. -/
def free_list_length (fuel : Nat) (s : State) : Except Fail Int :=
  free_list_length_loop s.mem fuel s.head 0

/-- The function `div_up`. -/
def div_up (xx yy : Nat) : Nat :=
  let zz := xx / yy
  if zz * yy % WORD = xx then zz else (zz + 1) % WORD

/-- The function `coalesce`, on the memory that holds the three nodes. -/
def coalesce (m : Mem) (prev new next : Nat) : Mem :=
  if (prev = NULL ∨ (prev + read64 m (size_at prev)) % WORD ≠ new)
      ∧ next ≠ NULL
      ∧ (new + read64 m (size_at new)) % WORD = next then
    -- only coalesce forwards
    let m1 := write64 m (size_at new)
      ((read64 m (size_at new) + read64 m (size_at next)) % WORD)
    write64 m1 (next_at new) (read64 m1 (next_at next))
  else if (next = NULL ∨ (new + read64 m (size_at new)) % WORD ≠ next)
      ∧ prev ≠ NULL
      ∧ (prev + read64 m (size_at prev)) % WORD = new then
    -- only coalesce backwards
    let m1 := write64 m (size_at prev)
      ((read64 m (size_at prev) + read64 m (size_at new)) % WORD)
    write64 m1 (next_at prev) next
  else if next ≠ NULL ∧ prev ≠ NULL
      ∧ (prev + read64 m (size_at prev)) % WORD = new
      ∧ (new + read64 m (size_at new)) % WORD = next then
    -- all three coalesce
    let m1 := write64 m (size_at prev)
      ((read64 m (size_at prev) + read64 m (size_at new)) % WORD)
    let m2 := write64 m1 (size_at prev)
      ((read64 m1 (size_at prev) + read64 m1 (size_at next)) % WORD)
    write64 m2 (next_at prev) (read64 m2 (next_at next))
  else m

/-- The body of the `if (location < (void*)nn)` branch of `free_block_insert`:
the new node is spliced in before `nn` and `coalesce` is called.  Returns the
memory and the value of `head`. -/
def free_block_insert_splice (m : Mem) (head location nn last : Nat) : Mem × Nat :=
  let m1 := write64 m (next_at location) nn
  if last = NULL then
    (coalesce m1 last location nn, location)
  else
    let m2 := write64 m1 (next_at last) location
    (coalesce m2 last location nn, head)

/-- The code of `free_block_insert` after its loop: the new node is appended
behind `last` and `coalesce` is called. -/
def free_block_insert_tail (m : Mem) (head location nn last : Nat) : Mem × Nat :=
  let m1 := write64 m (next_at last) location
  let m2 := write64 m1 (next_at location) nn
  (coalesce m2 last location NULL, head)

/-- The `while` loop of `free_block_insert` together with the code after it;
`m` already holds `new->size = size`. -/
def free_block_insert_loop (location : Nat) :
    Nat → Mem → Nat → Nat → Nat → Except Fail (Mem × Nat)
  | 0, _, _, _, _ => .error .out_of_fuel
  | fuel + 1, m, head, nn, last =>
    if nn ≠ NULL then
      if location < nn then
        .ok (free_block_insert_splice m head location nn last)
      else
        free_block_insert_loop location fuel m head (read64 m (next_at nn)) nn
    else
      .ok (free_block_insert_tail m head location nn last)

/-- The function `free_block_insert`. -/
def free_block_insert (fuel : Nat) (s : State) (location size : Nat) :
    Except Fail State :=
  if s.head = NULL then
    let m1 := write64 s.mem (size_at location) size
    let m2 := write64 m1 (next_at location) NULL
    .ok { s with mem := m2, head := location }
  else
    let m1 := write64 s.mem (size_at location) size
    match free_block_insert_loop location fuel m1 s.head s.head NULL with
    | .ok (m2, h) => .ok { s with mem := m2, head := h }
    | .error e => .error e

/-- The first three statements of the `if ((uintptr_t)nn == (uintptr_t)old_loc)`
branch of `free_block_update`: the node at `nn` is copied to `updated` and its
size is reduced. -/
def free_block_update_copy (m : Mem) (nn old_loc size : Nat) : Mem :=
  let updated := (old_loc + size) % WORD
  -- if (nn->next) updated->next = nn->next;
  let m1 := if read64 m (next_at nn) ≠ NULL
    then write64 m (next_at updated) (read64 m (next_at nn)) else m
  -- updated->size = nn->size;
  let m2 := write64 m1 (size_at updated) (read64 m1 (size_at nn))
  -- updated->size -= size;
  write64 m2 (size_at updated) ((read64 m2 (size_at updated) + (WORD - size)) % WORD)

/-- The body of the `if ((uintptr_t)nn == (uintptr_t)old_loc)` branch of
`free_block_update`: the node at `nn` is replaced by the node `updated`.
Returns the memory and the value of `head`. -/
def free_block_update_found (m : Mem) (head nn prev old_loc size : Nat) : Mem × Nat :=
  let updated := (old_loc + size) % WORD
  let m3 := free_block_update_copy m nn old_loc size
  if prev ≠ NULL ∧ read64 m3 (size_at updated) ≠ 0 then
    (write64 m3 (next_at prev) updated, head)
  else if prev ≠ NULL then
    (write64 m3 (next_at prev) (read64 m3 (next_at updated)), head)
  else if read64 m3 (size_at updated) ≠ 0 then
    (m3, updated)
  else
    (m3, read64 m3 (next_at nn))

/-- The `while` loop of `free_block_update` together with the fatal exit
after it. -/
def free_block_update_loop (old_loc size : Nat) :
    Nat → Mem → Nat → Nat → Nat → Except Fail (Mem × Nat)
  | 0, _, _, _, _ => .error .out_of_fuel
  | fuel + 1, m, head, nn, prev =>
    if nn ≠ NULL then
      if nn = old_loc then
        .ok (free_block_update_found m head nn prev old_loc size)
      else
        free_block_update_loop old_loc size fuel m head (read64 m (next_at nn)) nn
    else
      .error .exit_failure

/-- The function `free_block_update`. -/
def free_block_update (fuel : Nat) (s : State) (old_loc size : Nat) :
    Except Fail State :=
  match free_block_update_loop old_loc size fuel s.mem s.head s.head NULL with
  | .ok (m, h) => .ok { s with mem := m, head := h }
  | .error e => .error e

/-- The call `mmap(NULL, ss, ...)` answered with `loc`: the call is logged and
the region is zero-filled (the provider hands out fresh zero-filled memory). -/
def mmap (s : State) (ss loc : Nat) : State :=
  { s with mem := zero_fill s.mem loc ss, calls := SysCall.mmap ss loc :: s.calls }

/-- The call `munmap(item, ss)`: the call is logged. -/
def munmap (s : State) (item ss : Nat) : State :=
  { s with calls := SysCall.munmap item ss :: s.calls }

/-- The part of `hmalloc` after the search loop found no fitting node;
`size` already includes the header, `loc` is the answer of `mmap`. -/
def hmalloc_fresh (fuel : Nat) (s : State) (size loc : Nat) :
    Except Fail (Nat × State) :=
  let num_pages := div_up size PAGE_SIZE
  let ss := num_pages * PAGE_SIZE % WORD
  let s1 := { s with stats := { s.stats with
    pages_mapped := s.stats.pages_mapped + num_pages } }
  let s2 := mmap s1 ss loc
  if loc = MAP_FAILED then .error .exit_failure
  else
    let s3 := { s2 with mem := write64 s2.mem loc size }
    if num_pages = 1 then
      match free_block_insert fuel s3 ((loc + size) % WORD) ((ss + (WORD - size)) % WORD) with
      | .ok s4 => .ok ((loc + SIZEOF_SIZE_T) % WORD, s4)
      | .error e => .error e
    else .ok ((loc + SIZEOF_SIZE_T) % WORD, s3)

/-- The search loop of `hmalloc` and everything after it. -/
def hmalloc_loop (fuel0 : Nat) (size loc : Nat) :
    Nat → State → Nat → Except Fail (Nat × State)
  | 0, _, _ => .error .out_of_fuel
  | fuel + 1, s, nn =>
    if nn ≠ NULL then
      if size ≤ read64 s.mem (size_at nn) then
        match free_block_update fuel0 s nn size with
        | .ok s1 =>
          .ok ((nn + SIZEOF_SIZE_T) % WORD, { s1 with mem := write64 s1.mem nn size })
        | .error e => .error e
      else
        hmalloc_loop fuel0 size loc fuel s (read64 s.mem (next_at nn))
    else
      hmalloc_fresh fuel0 s size loc

/-- The function `hmalloc`.  `size` is the request (a `size_t`), `loc` the
address the page provider returns should `mmap` be called. -/
def hmalloc (fuel : Nat) (s : State) (size loc : Nat) : Except Fail (Nat × State) :=
  let s1 := { s with stats := { s.stats with
    chunks_allocated := s.stats.chunks_allocated + 1 } }
  hmalloc_loop fuel ((size + SIZEOF_SIZE_T) % WORD) loc fuel s1 s1.head

/-- The function `hfree`. -/
def hfree (fuel : Nat) (s : State) (item : Nat) : Except Fail State :=
  match free_list_length fuel s with
  | .error e => .error e
  | .ok len =>
    let s1 := { s with stats := { s.stats with
      free_length := len, chunks_freed := s.stats.chunks_freed + 1 } }
    let item1 := (item + (WORD - SIZEOF_SIZE_T)) % WORD
    let ss := read64 s1.mem item1
    let num_pages := div_up ss PAGE_SIZE
    if num_pages > 1 then
      let s2 := { s1 with stats := { s1.stats with
        pages_unmapped := s1.stats.pages_unmapped + num_pages } }
      .ok (munmap s2 item1 ss)
    else
      free_block_insert fuel s1 item1 ss

/-! ## Sequences of calls -/

/-- A call of the public interface.  `malloc n loc` is `hmalloc(n)` in a run
where the page provider would answer `loc`; `free p` is `hfree(p)`. -/
inductive Op where
  | malloc (n loc : Nat)
  | free (p : Nat)
deriving DecidableEq, Repr

/-- A run in progress: the allocator state, the pointers returned by `hmalloc`
and not yet released, and every pointer returned so far (most recent first). -/
structure Run where
  st : State
  live : List Nat
  rets : List Nat

/-- One call of a run. -/
def step (fuel : Nat) (r : Run) : Op → Except Fail Run
  | .malloc n loc =>
    match hmalloc fuel r.st n loc with
    | .ok (p, s) => .ok ⟨s, p :: r.live, p :: r.rets⟩
    | .error e => .error e
  | .free p =>
    match hfree fuel r.st p with
    | .ok s => .ok ⟨s, r.live.erase p, r.rets⟩
    | .error e => .error e

/-- A sequence of calls, in order. -/
def run (fuel : Nat) : List Op → Run → Except Fail Run
  | [], r => .ok r
  | op :: ops, r =>
    match step fuel r op with
    | .ok r1 => run fuel ops r1
    | .error e => .error e

/-- The run that starts from the empty allocator over memory `m`. -/
def run_empty (fuel : Nat) (ops : List Op) (m : Mem) : Except Fail Run :=
  run fuel ops ⟨empty m, [], []⟩

/-- Every `free p` of the sequence releases a pointer that an earlier `malloc`
returned and that has not been released since (the precondition of `hfree`). -/
def valid_use (fuel : Nat) : List Op → Run → Bool
  | [], _ => true
  | op :: ops, r =>
    (match op with
      | .malloc _ _ => true
      | .free p => decide (p ∈ r.live))
    && (match step fuel r op with
      | .ok r1 => valid_use fuel ops r1
      | .error _ => true)

/-- The page provider behaved: every logged `mmap` answer is page aligned, not
null, and the regions handed out are pairwise disjoint. -/
def provider_ok : List SysCall → Bool
  | [] => true
  | .munmap _ _ :: cs => provider_ok cs
  | .mmap len ret :: cs =>
    decide (ret % PAGE_SIZE = 0) && decide (ret ≠ NULL) && decide (ret + len ≤ WORD)
    && cs.all (fun c => match c with
      | .mmap len1 ret1 => decide (ret + len ≤ ret1 ∨ ret1 + len1 ≤ ret)
      | .munmap _ _ => true)
    && provider_ok cs

/-! ## The free list as a sequence of nodes -/

/-- The nodes met when following `next` from `p` for at most `fuel` steps:
address and `size` field of each. -/
def walk (m : Mem) : Nat → Nat → List (Nat × Nat)
  | 0, _ => []
  | fuel + 1, p =>
    if p = NULL then [] else (p, read64 m (size_at p)) :: walk m fuel (read64 m (next_at p))

/-- The chain of free nodes `L` (address and size of each, in list order)
leads in memory `m` from pointer `p` to pointer `q`. -/
def lseg (m : Mem) : List (Nat × Nat) → Nat → Nat → Prop
  | [], p, q => p = q
  | x :: L, p, q =>
    p = x.1 ∧ p ≠ NULL ∧ read64 m (size_at p) = x.2 ∧ lseg m L (read64 m (next_at p)) q

instance lseg_decidable (m : Mem) :
    (L : List (Nat × Nat)) → (p q : Nat) → Decidable (lseg m L p q)
  | [], p, q => inferInstanceAs (Decidable (p = q))
  | x :: L, p, q =>
    have := lseg_decidable m L (read64 m (next_at p)) q
    inferInstanceAs (Decidable (p = x.1 ∧ p ≠ NULL ∧ read64 m (size_at p) = x.2
      ∧ lseg m L (read64 m (next_at p)) q))

/-- The free list of state `s` is the finite sequence of nodes `L`. -/
def free_list (s : State) (L : List (Nat × Nat)) : Prop := lseg s.mem L s.head NULL

/-- Address of the last node of `L`, or `d` when `L` is empty: the value of
the trailing pointer (`prev`, `last`) after a loop has walked over `L`. -/
def last_addr (d : Nat) (L : List (Nat × Nat)) : Nat := L.foldl (fun _ x => x.1) d

/-- Strictly ascending by address: each node starts above the one before. -/
def ascending (L : List (Nat × Nat)) : Prop := L.Chain' (fun x y => x.1 < y.1)

/-- No node ends exactly where the node that follows it starts. -/
def untouching (L : List (Nat × Nat)) : Prop := L.Chain' (fun x y => x.1 + x.2 ≠ y.1)

/-- A well-formed free list: every node ends strictly below the start of each
later node (address order, no overlap, no touching), every node is large
enough to hold its own two fields, and no block wraps around the address
space. -/
def well_formed (L : List (Nat × Nat)) : Prop :=
  L.Pairwise (fun x y => x.1 + x.2 < y.1) ∧ ∀ x ∈ L, 16 ≤ x.2 ∧ x.1 + x.2 < WORD

/-- The chain of node addresses `A` leads in memory `m` from pointer `p` to
pointer `q` (the `next` fields only; the sizes are not looked at). -/
def aseg (m : Mem) : List Nat → Nat → Nat → Prop
  | [], p, q => p = q
  | a :: A, p, q => p = a ∧ p ≠ NULL ∧ aseg m A (read64 m (next_at p)) q

/-- The nodes that replace `L2`, the part of the free list above a new block
`[a, a + sz)`, when the block is spliced in front of it and `coalesce` merges
forwards: the new node absorbs the first node of `L2` when it touches it. -/
def insert_merge (a sz : Nat) : List (Nat × Nat) → List (Nat × Nat)
  | [] => [(a, sz)]
  | (b, sb) :: R => if a + sz = b then (a, sz + sb) :: R else (a, sz) :: (b, sb) :: R

/-! ## Concrete states and observations of runs -/

/-- The memory that is zero everywhere. -/
def zero_mem : Mem := fun _ => 0

/-- A state with two free nodes, `(0x10000, 32)` and `(0x20000, 4096)`. -/
def two_node_state : State :=
  { mem := write64 (write64 (write64 zero_mem 0x10000 32) 0x10008 0x20000) 0x20000 4096,
    head := 0x10000, stats := ⟨2, 0, 0, 0, 0⟩, calls := [] }

/-- The first `k` nodes of the free list a run ends with. -/
def final_walk (k : Nat) (r : Except Fail Run) : Option (List (Nat × Nat)) :=
  match r with
  | .ok r => some (walk r.st.mem k r.st.head)
  | .error _ => none

/-- The pointers a run returned, most recent first. -/
def final_rets (r : Except Fail Run) : Option (List Nat) :=
  match r with
  | .ok r => some r.rets
  | .error _ => none

/-- The counters a run ends with. -/
def final_stats (r : Except Fail Run) : Option hm_stats :=
  match r with
  | .ok r => some r.st.stats
  | .error _ => none

/-- The page-provider calls of a run, most recent first. -/
def final_calls (r : Except Fail Run) : Option (List SysCall) :=
  match r with
  | .ok r => some r.st.calls
  | .error _ => none

/-- The 64-bit word at address `a` in the memory a run ends with. -/
def final_read (a : Nat) (r : Except Fail Run) : Option Nat :=
  match r with
  | .ok r => some (read64 r.st.mem a)
  | .error _ => none

instance free_list_decidable (s : State) (L : List (Nat × Nat)) : Decidable (free_list s L) :=
  lseg_decidable s.mem L s.head NULL

/-- The run returned and the state it ends with satisfies `P`. -/
def final_ok (P : State → Prop) (r : Except Fail Run) : Prop :=
  match r with
  | .ok r => P r.st
  | .error _ => False

instance final_ok_decidable (P : State → Prop) [DecidablePred P] (r : Except Fail Run) :
    Decidable (final_ok P r) :=
  match r with
  | .ok r => inferInstanceAs (Decidable (P r.st))
  | .error _ => inferInstanceAs (Decidable False)

/-- The byte ranges of two nodes (or blocks) overlap. -/
def overlap (x y : Nat × Nat) : Prop := x.1 < y.1 + y.2 ∧ y.1 < x.1 + x.2

/-- Three allocations of 24 bytes from one page at `0x10000`, released in
address order, then allocated again. -/
def stale_next_ops : List Op :=
  [.malloc 24 0x10000, .malloc 24 0, .malloc 24 0,
   .free 0x10008, .free 0x10028, .free 0x10048,
   .malloc 24 0, .malloc 24 0, .malloc 24 0]

/-- The call returned and the state it returned satisfies `P`. -/
def result_ok (P : State → Prop) (r : Except Fail State) : Prop :=
  match r with
  | .ok s => P s
  | .error _ => False

instance result_ok_decidable (P : State → Prop) [DecidablePred P] (r : Except Fail State) :
    Decidable (result_ok P r) :=
  match r with
  | .ok s => inferInstanceAs (Decidable (P s))
  | .error _ => inferInstanceAs (Decidable False)

/-- The pointers that are live when a run ends. -/
def final_live (r : Except Fail Run) : Option (List Nat) :=
  match r with
  | .ok r => some r.live
  | .error _ => none

/-- Two adjacent pages: a block in the first, a block allocated in the second
and released, then a request of 5000 bytes and its release. -/
def cross_page_ops : List Op :=
  [.malloc 3000 0x1000, .malloc 2000 0x2000, .free 0x2008, .malloc 5000 0x5000, .free 0x1bc8]

/-! ## The reference definition of coalescing -/

/-- The three-case reference definition of coalescing, as the specification
words it.  `L` is "the predecessor is present and its end address is the
start of the new node", `R` is "the successor is present and the end address
of the new node is its start".  Forward only (`R` without `L`): the new node
grows by the size of the successor and takes its `next`.  Backward only (`L`
without `R`): the predecessor grows by the size of the new node and its `next`
becomes the successor.  Both: the predecessor grows by both sizes and takes
the `next` of the successor.  Neither: nothing changes.  All values are those
of the memory before the call and the arithmetic is that of the integers. -/
def coalesce_ref (m : Mem) (prev new next : Nat) : Mem :=
  if ¬ (prev ≠ NULL ∧ prev + read64 m (size_at prev) = new)
      ∧ (next ≠ NULL ∧ new + read64 m (size_at new) = next) then
    write64 (write64 m (size_at new) (read64 m (size_at new) + read64 m (size_at next)))
      (next_at new) (read64 m (next_at next))
  else if (prev ≠ NULL ∧ prev + read64 m (size_at prev) = new)
      ∧ ¬ (next ≠ NULL ∧ new + read64 m (size_at new) = next) then
    write64 (write64 m (size_at prev) (read64 m (size_at prev) + read64 m (size_at new)))
      (next_at prev) next
  else if (prev ≠ NULL ∧ prev + read64 m (size_at prev) = new)
      ∧ (next ≠ NULL ∧ new + read64 m (size_at new) = next) then
    write64 (write64 m (size_at prev)
        (read64 m (size_at prev) + read64 m (size_at new) + read64 m (size_at next)))
      (next_at prev) (read64 m (next_at next))
  else m


/-- The test of the first `if` of `coalesce`: only the successor lines up. -/
def coalesce_forwards (m : Mem) (prev new next : Nat) : Prop :=
  (prev = NULL ∨ (prev + read64 m (size_at prev)) % WORD ≠ new)
    ∧ next ≠ NULL
    ∧ (new + read64 m (size_at new)) % WORD = next

/-- The test of the second `if` of `coalesce`: only the predecessor lines up. -/
def coalesce_backwards (m : Mem) (prev new next : Nat) : Prop :=
  (next = NULL ∨ (new + read64 m (size_at new)) % WORD ≠ next)
    ∧ prev ≠ NULL
    ∧ (prev + read64 m (size_at prev)) % WORD = new

/-- The test of the third `if` of `coalesce`: both neighbours line up. -/
def coalesce_all_three (m : Mem) (prev new next : Nat) : Prop :=
  next ≠ NULL ∧ prev ≠ NULL
    ∧ (prev + read64 m (size_at prev)) % WORD = new
    ∧ (new + read64 m (size_at new)) % WORD = next

instance coalesce_forwards_decidable (m : Mem) (prev new next : Nat) :
    Decidable (coalesce_forwards m prev new next) := by
  unfold coalesce_forwards; infer_instance

instance coalesce_backwards_decidable (m : Mem) (prev new next : Nat) :
    Decidable (coalesce_backwards m prev new next) := by
  unfold coalesce_backwards; infer_instance

instance coalesce_all_three_decidable (m : Mem) (prev new next : Nat) :
    Decidable (coalesce_all_three m prev new next) := by
  unfold coalesce_all_three; infer_instance

/-! ## Coverage and total size of a list of nodes -/

/-- Byte `y` lies in one of the blocks of the list `L`. -/
def covered (L : List (Nat × Nat)) (y : Nat) : Prop := ∃ x ∈ L, x.1 ≤ y ∧ y < x.1 + x.2

instance covered_decidable (L : List (Nat × Nat)) (y : Nat) : Decidable (covered L y) :=
  inferInstanceAs (Decidable (∃ x ∈ L, x.1 ≤ y ∧ y < x.1 + x.2))

/-- Sum of the sizes of the nodes of `L`. -/
def total_size (L : List (Nat × Nat)) : Nat := (L.map Prod.snd).sum

/-! ## Memory lemmas -/

theorem WORD_eq : WORD = 18446744073709551616 := by norm_num [WORD]

theorem readBytes_lt (m : Mem) (a k : Nat) : readBytes m a k < 256 ^ k := by
  induction k generalizing a with
  | zero => simp [readBytes]
  | succ k ih =>
    have h1 := ih (a + 1)
    have h2 : m a % 256 < 256 := Nat.mod_lt _ (by norm_num)
    simp only [readBytes, pow_succ]
    omega

theorem read64_lt (m : Mem) (a : Nat) : read64 m a < WORD := by
  have := readBytes_lt m a 8
  simpa [read64, WORD] using this

theorem readBytes_congr (m m' : Mem) (a k : Nat)
    (h : ∀ x, a ≤ x → x < a + k → m' x = m x) : readBytes m' a k = readBytes m a k := by
  induction k generalizing a with
  | zero => rfl
  | succ k ih =>
    simp only [readBytes]
    rw [h a (le_refl _) (by omega), ih (a + 1) (fun x h1 h2 => h x (by omega) (by omega))]

theorem read64_congr (m m' : Mem) (a : Nat)
    (h : ∀ x, a ≤ x → x < a + 8 → m' x = m x) : read64 m' a = read64 m a :=
  readBytes_congr m m' a 8 h

theorem read64_write64_ne (m : Mem) (a b v : Nat) (h : b + 8 ≤ a ∨ a + 8 ≤ b) :
    read64 (write64 m b v) a = read64 m a := by
  apply read64_congr
  intro x h1 h2
  have : ¬ (b ≤ x ∧ x < b + 8) := by omega
  simp [write64, this]

theorem readBytes_write64 (m : Mem) (a v i k : Nat) (h : i + k ≤ 8) :
    readBytes (write64 m a v) (a + i) k = v / 256 ^ i % 256 ^ k := by
  induction k generalizing i with
  | zero => simp [readBytes, Nat.mod_one]
  | succ k ih =>
    have h1 : a ≤ a + i ∧ a + i < a + 8 := by omega
    have h2 := ih (i + 1) (by omega)
    simp only [readBytes]
    rw [show a + i + 1 = a + (i + 1) by omega, h2]
    simp only [write64, h1, and_self, if_true, Nat.add_sub_cancel_left]
    rw [Nat.mod_mod, pow_succ' 256 k, Nat.mod_mul, pow_succ, Nat.div_div_eq_div_mul]

theorem read64_write64_same (m : Mem) (a v : Nat) :
    read64 (write64 m a v) a = v % WORD := by
  have := readBytes_write64 m a v 0 8 (by omega)
  simpa [read64, WORD] using this

theorem read64_write64_same_lt (m : Mem) (a v : Nat) (h : v < WORD) :
    read64 (write64 m a v) a = v := by
  rw [read64_write64_same, Nat.mod_eq_of_lt h]

theorem read64_zero_fill_ne (m : Mem) (a loc len : Nat) (h : a + 8 ≤ loc ∨ loc + len ≤ a) :
    read64 (zero_fill m loc len) a = read64 m a := by
  apply read64_congr
  intro x h1 h2
  have : ¬ (loc ≤ x ∧ x < loc + len) := by omega
  simp [zero_fill, this]

/-! ## Chains of nodes and the loops that walk them -/

theorem lseg_append (m : Mem) (L1 L2 : List (Nat × Nat)) (p q : Nat) :
    lseg m (L1 ++ L2) p q ↔ ∃ r, lseg m L1 p r ∧ lseg m L2 r q := by
  induction L1 generalizing p with
  | nil => simp [lseg]
  | cons x L1 ih =>
    show (p = x.1 ∧ p ≠ NULL ∧ read64 m (size_at p) = x.2
      ∧ lseg m (L1 ++ L2) (read64 m (next_at p)) q) ↔ _
    rw [ih]
    constructor
    · rintro ⟨h1, h2, h3, r, h4, h5⟩
      exact ⟨r, ⟨h1, h2, h3, h4⟩, h5⟩
    · rintro ⟨r, ⟨h1, h2, h3, h4⟩, h5⟩
      exact ⟨h1, h2, h3, r, h4, h5⟩

theorem lseg_congr (m m' : Mem) (L : List (Nat × Nat)) (p q : Nat)
    (h : ∀ x ∈ L, ∀ y, x.1 ≤ y → y < x.1 + 16 → m' y = m y) :
    lseg m' L p q ↔ lseg m L p q := by
  induction L generalizing p with
  | nil => simp [lseg]
  | cons x L ih =>
    simp only [lseg]
    constructor
    · rintro ⟨h1, h2, h3, h4⟩
      have hx := h x (List.mem_cons_self _ _)
      have e1 : read64 m' (size_at p) = read64 m (size_at p) :=
        read64_congr m m' _ (fun y a b => hx y (by simp [size_at] at a; omega) (by simp [size_at] at b; omega))
      have e2 : read64 m' (next_at p) = read64 m (next_at p) :=
        read64_congr m m' _ (fun y a b => hx y (by simp [next_at] at a; omega) (by simp [next_at] at b; omega))
      rw [e1] at h3; rw [e2] at h4
      exact ⟨h1, h2, h3, (ih _ (fun z hz => h z (List.mem_cons_of_mem _ hz))).1 h4⟩
    · rintro ⟨h1, h2, h3, h4⟩
      have hx := h x (List.mem_cons_self _ _)
      have e1 : read64 m' (size_at p) = read64 m (size_at p) :=
        read64_congr m m' _ (fun y a b => hx y (by simp [size_at] at a; omega) (by simp [size_at] at b; omega))
      have e2 : read64 m' (next_at p) = read64 m (next_at p) :=
        read64_congr m m' _ (fun y a b => hx y (by simp [next_at] at a; omega) (by simp [next_at] at b; omega))
      rw [← e1] at h3; rw [← e2] at h4
      exact ⟨h1, h2, h3, (ih _ (fun z hz => h z (List.mem_cons_of_mem _ hz))).2 h4⟩

theorem lseg_write64 (m : Mem) (L : List (Nat × Nat)) (p q b v : Nat)
    (h : ∀ x ∈ L, x.1 + 16 ≤ b ∨ b + 8 ≤ x.1) :
    lseg (write64 m b v) L p q ↔ lseg m L p q := by
  apply lseg_congr
  intro x hx y h1 h2
  have := h x hx
  have : ¬ (b ≤ y ∧ y < b + 8) := by omega
  simp [write64, this]

theorem lseg_zero_fill (m : Mem) (L : List (Nat × Nat)) (p q loc len : Nat)
    (h : ∀ x ∈ L, x.1 + 16 ≤ loc ∨ loc + len ≤ x.1) :
    lseg (zero_fill m loc len) L p q ↔ lseg m L p q := by
  apply lseg_congr
  intro x hx y h1 h2
  have := h x hx
  have : ¬ (loc ≤ y ∧ y < loc + len) := by omega
  simp [zero_fill, this]

theorem hmalloc_loop_skip (fuel0 size loc : Nat) (s : State) (L : List (Nat × Nat))
    (p q k : Nat) (h : lseg s.mem L p q) (hs : ∀ x ∈ L, x.2 < size) :
    hmalloc_loop fuel0 size loc (L.length + k) s p = hmalloc_loop fuel0 size loc k s q := by
  induction L generalizing p with
  | nil => simp [lseg] at h; simp [h]
  | cons x L ih =>
    obtain ⟨h1, h2, h3, h4⟩ := h
    have hx := hs x (List.mem_cons_self _ _)
    have hlt : ¬ size ≤ read64 s.mem (size_at p) := by omega
    rw [show (x :: L).length + k = (L.length + k) + 1 by simp; omega]
    simp only [hmalloc_loop, h2, ne_eq, not_false_eq_true, if_true, hlt, if_false]
    exact ih _ h4 (fun z hz => hs z (List.mem_cons_of_mem _ hz))

theorem free_block_update_loop_skip (old_loc size : Nat) (m : Mem) (head : Nat)
    (L : List (Nat × Nat)) (p q k prev : Nat) (h : lseg m L p q)
    (hs : ∀ x ∈ L, x.1 ≠ old_loc) :
    free_block_update_loop old_loc size (L.length + k) m head p prev
      = free_block_update_loop old_loc size k m head q (last_addr prev L) := by
  induction L generalizing p prev with
  | nil => simp [lseg] at h; simp [h, last_addr]
  | cons x L ih =>
    obtain ⟨h1, h2, h3, h4⟩ := h
    have hx := hs x (List.mem_cons_self _ _)
    rw [show (x :: L).length + k = (L.length + k) + 1 by simp; omega]
    have hne : ¬ p = old_loc := by rw [h1]; exact hx
    simp only [free_block_update_loop, h2, ne_eq, not_false_eq_true, if_true, hne, if_false]
    rw [ih _ _ h4 (fun z hz => hs z (List.mem_cons_of_mem _ hz))]
    simp [last_addr, h1]

theorem free_block_insert_loop_skip (location : Nat) (m : Mem) (head : Nat)
    (L : List (Nat × Nat)) (p q k last : Nat) (h : lseg m L p q)
    (hs : ∀ x ∈ L, ¬ location < x.1) :
    free_block_insert_loop location (L.length + k) m head p last
      = free_block_insert_loop location k m head q (last_addr last L) := by
  induction L generalizing p last with
  | nil => simp [lseg] at h; simp [h, last_addr]
  | cons x L ih =>
    obtain ⟨h1, h2, h3, h4⟩ := h
    have hx := hs x (List.mem_cons_self _ _)
    rw [show (x :: L).length + k = (L.length + k) + 1 by simp; omega]
    have hne : ¬ location < p := by rw [h1]; exact hx
    simp only [free_block_insert_loop, h2, ne_eq, not_false_eq_true, if_true, hne, if_false]
    rw [ih _ _ h4 (fun z hz => hs z (List.mem_cons_of_mem _ hz))]
    simp [last_addr, h1]

theorem free_list_length_loop_skip (m : Mem) (L : List (Nat × Nat)) (p q k : Nat) (len : Int)
    (h : lseg m L p q) :
    free_list_length_loop m (L.length + k) p len
      = free_list_length_loop m k q (len + L.length) := by
  induction L generalizing p len with
  | nil => simp [lseg] at h; simp [h]
  | cons x L ih =>
    obtain ⟨h1, h2, h3, h4⟩ := h
    rw [show (x :: L).length + k = (L.length + k) + 1 by simp; omega]
    simp only [free_list_length_loop, h2, if_false]
    rw [ih _ _ h4]
    simp; ring_nf

/-! ## The first-fit path of `hmalloc` -/

theorem write64_apply_ne (m : Mem) (b v y : Nat) (h : y < b ∨ b + 8 ≤ y) :
    write64 m b v y = m y := by
  have : ¬ (b ≤ y ∧ y < b + 8) := by omega
  simp [write64, this]

/-- Frame of `free_block_update_copy`: only the sixteen bytes of the node
`updated` are written. -/
theorem free_block_update_copy_frame (m : Mem) (nn old_loc size y : Nat)
    (h1 : y < (old_loc + size) % WORD ∨ (old_loc + size) % WORD + 16 ≤ y) :
    free_block_update_copy m nn old_loc size y = m y := by
  unfold free_block_update_copy
  simp only [size_at, next_at]
  rw [write64_apply_ne _ _ _ _ (by omega), write64_apply_ne _ _ _ _ (by omega)]
  split_ifs
  · exact write64_apply_ne _ _ _ _ (by omega)
  · rfl

/-- Frame of `free_block_update_found`: only the sixteen bytes of the node
`updated` and the `next` field of `prev` are written. -/
theorem free_block_update_found_frame (m : Mem) (head nn prev old_loc size y : Nat)
    (h1 : y < (old_loc + size) % WORD ∨ (old_loc + size) % WORD + 16 ≤ y)
    (h2 : prev = NULL ∨ y < prev + 8 ∨ prev + 16 ≤ y) :
    (free_block_update_found m head nn prev old_loc size).1 y = m y := by
  have hc := free_block_update_copy_frame m nn old_loc size y h1
  unfold free_block_update_found
  simp only [next_at]
  split_ifs with c1 c2 c3
  · have : y < prev + 8 ∨ prev + 16 ≤ y := by
      rcases h2 with h | h
      · exact absurd h c1.1
      · exact h
    simp only
    rw [write64_apply_ne _ _ _ _ (by omega)]
    exact hc
  · have : y < prev + 8 ∨ prev + 16 ≤ y := by
      rcases h2 with h | h
      · exact absurd h c2
      · exact h
    simp only
    rw [write64_apply_ne _ _ _ _ (by omega)]
    exact hc
  · exact hc
  · exact hc

theorem free_block_update_found_head (m : Mem) (head nn prev old_loc size : Nat)
    (h : prev ≠ NULL) :
    (free_block_update_found m head nn prev old_loc size).2 = head := by
  unfold free_block_update_found
  simp only [size_at, next_at]
  split_ifs <;> simp_all

theorem last_addr_concat (d : Nat) (L : List (Nat × Nat)) (x : Nat × Nat) :
    last_addr d (L ++ [x]) = x.1 := by
  simp [last_addr, List.foldl_append]

theorem last_addr_nil (d : Nat) : last_addr d [] = d := rfl

theorem lseg_snoc (m : Mem) (L : List (Nat × Nat)) (x : Nat × Nat) (p q : Nat) :
    lseg m (L ++ [x]) p q ↔
      lseg m L p x.1 ∧ x.1 ≠ NULL ∧ read64 m (size_at x.1) = x.2
        ∧ read64 m (next_at x.1) = q := by
  rw [lseg_append]
  constructor
  · rintro ⟨r, h1, h2, h3, h4, h5⟩
    subst h2
    exact ⟨h1, h3, h4, h5⟩
  · rintro ⟨h1, h3, h4, h5⟩
    exact ⟨x.1, h1, rfl, h3, h4, h5⟩

/-- Unfolding of `hmalloc` on a free list whose first fitting node is `a`. -/
theorem hmalloc_found (s : State) (size loc fuel a S : Nat) (pre post : List (Nat × Nat))
    (hlist : free_list s (pre ++ (a, S) :: post))
    (hne : ∀ x ∈ pre, x.1 ≠ a)
    (hpre : ∀ x ∈ pre, x.2 < (size + SIZEOF_SIZE_T) % WORD)
    (hfit : (size + SIZEOF_SIZE_T) % WORD ≤ S)
    (hfuel : pre.length < fuel) :
    hmalloc fuel s size loc = .ok ((a + SIZEOF_SIZE_T) % WORD,
      { mem := write64 (free_block_update_found s.mem s.head a (last_addr NULL pre) a
                ((size + SIZEOF_SIZE_T) % WORD)).1 a ((size + SIZEOF_SIZE_T) % WORD),
        head := (free_block_update_found s.mem s.head a (last_addr NULL pre) a
                ((size + SIZEOF_SIZE_T) % WORD)).2,
        stats := { s.stats with chunks_allocated := s.stats.chunks_allocated + 1 },
        calls := s.calls }) := by
  obtain ⟨r, h1, h2, h3, h4, h5⟩ := (lseg_append _ _ _ _ _).1 hlist
  simp only at h2 h4
  subst h2
  obtain ⟨k, hk⟩ : ∃ k, fuel = pre.length + (k + 1) := ⟨fuel - pre.length - 1, by omega⟩
  unfold hmalloc
  simp only
  have h1s : lseg ({ s with stats := { s.stats with
      chunks_allocated := s.stats.chunks_allocated + 1 } } : State).mem pre s.head r := h1
  rw [hk, hmalloc_loop_skip _ _ _ _ pre _ _ _ h1s hpre]
  have hfit2 : (size + SIZEOF_SIZE_T) % WORD ≤ read64 s.mem (size_at r) := by rw [h4]; exact hfit
  simp only [hmalloc_loop, h3, ne_eq, not_false_eq_true, if_true, hfit2, free_block_update]
  rw [free_block_update_loop_skip _ _ _ _ pre _ _ _ _ h1 hne]
  simp only [free_block_update_loop, h3, ne_eq, not_false_eq_true, if_true]

theorem well_formed_mid (pre post : List (Nat × Nat)) (a S : Nat)
    (h : well_formed (pre ++ (a, S) :: post)) :
    (∀ x ∈ pre, 16 ≤ x.2 ∧ x.1 + x.2 < a) ∧ 16 ≤ S ∧ a + S < WORD
      ∧ (∀ x ∈ post, 16 ≤ x.2 ∧ a + S < x.1 ∧ x.1 + x.2 < WORD) := by
  obtain ⟨hp, hs⟩ := h
  rw [List.pairwise_append] at hp
  obtain ⟨_, hp2, hp3⟩ := hp
  rw [List.pairwise_cons] at hp2
  refine ⟨fun x hx => ⟨(hs x (by simp [hx])).1, hp3 x hx (a, S) (by simp)⟩,
    (hs (a, S) (by simp)).1, (hs (a, S) (by simp)).2, fun x hx => ?_⟩
  exact ⟨(hs x (by simp [hx])).1, hp2.1 x hx, (hs x (by simp [hx])).2⟩

theorem well_formed_prefix_pairwise (pre post : List (Nat × Nat))
    (h : well_formed (pre ++ post)) : well_formed pre := by
  obtain ⟨hp, hs⟩ := h
  rw [List.pairwise_append] at hp
  exact ⟨hp.1, fun x hx => hs x (by simp [hx])⟩

/-- C5. First fit: on a well-formed free list in which `(a, S)` is the first
node with `S ≥ n + 8`, `hmalloc(n)` returns `a + 8`, leaves `n + 8` stamped at
`a`, requests no page (`pages_mapped` and the provider log are unchanged), and
the nodes `pre` that precede the chosen one are still, with the same addresses
and sizes, the first nodes of the free list.  Nodes after `a`, whatever their
size, play no role. -/
theorem C5_first_fit (s : State) (n loc fuel a S : Nat) (pre post : List (Nat × Nat))
    (hlist : free_list s (pre ++ (a, S) :: post))
    (hwf : well_formed (pre ++ (a, S) :: post))
    (hpre : ∀ x ∈ pre, x.2 < n + 8)
    (hfit : n + 8 ≤ S)
    (hfuel : pre.length < fuel) :
    ∃ s1 q, hmalloc fuel s n loc = .ok (a + 8, s1)
      ∧ read64 s1.mem a = n + 8
      ∧ s1.stats.pages_mapped = s.stats.pages_mapped
      ∧ s1.calls = s.calls
      ∧ lseg s1.mem pre s1.head q := by
  obtain ⟨wpre, wS, waS, _⟩ := well_formed_mid pre post a S hwf
  have hW := WORD_eq
  have he : (n + SIZEOF_SIZE_T) % WORD = n + 8 := by
    simp only [SIZEOF_SIZE_T]; exact Nat.mod_eq_of_lt (by omega)
  have ha : (a + SIZEOF_SIZE_T) % WORD = a + 8 := by
    simp only [SIZEOF_SIZE_T]; exact Nat.mod_eq_of_lt (by omega)
  have hne : ∀ x ∈ pre, x.1 ≠ a := fun x hx => by have := wpre x hx; omega
  have hfound := hmalloc_found s n loc fuel a S pre post hlist hne
    (by rw [he]; exact hpre) (by rw [he]; exact hfit) hfuel
  rw [he, ha] at hfound
  have hu : (a + (n + 8)) % WORD = a + (n + 8) := Nat.mod_eq_of_lt (by omega)
  obtain ⟨r, h1, h2, h3, h4, h5⟩ := (lseg_append _ _ _ _ _).1 hlist
  simp only at h2 h4
  subst h2
  have hstamp : ∀ mm : Mem, read64 (write64 mm r (n + 8)) r = n + 8 :=
    fun mm => read64_write64_same_lt _ _ _ (by omega)
  rcases List.eq_nil_or_concat pre with hnil | ⟨L, x, hL⟩
  · subst hnil
    exact ⟨_, _, hfound, hstamp _, rfl, rfl, rfl⟩
  · rw [List.concat_eq_append] at hL
    subst hL
    rw [lseg_snoc] at h1
    obtain ⟨g1, g2, g3, g4⟩ := h1
    rw [last_addr_concat] at hfound
    have hx := wpre x (by simp)
    have hframe : ∀ y, y < x.1 + 8 →
        write64 (free_block_update_found s.mem s.head r x.1 r (n + 8)).1 r (n + 8) y
          = s.mem y := by
      intro y hy
      rw [write64_apply_ne _ _ _ _ (by omega)]
      exact free_block_update_found_frame _ _ _ _ _ _ _ (by rw [hu]; omega) (by omega)
    refine ⟨_, read64 (write64 (free_block_update_found s.mem s.head r x.1 r (n + 8)).1
      r (n + 8)) (next_at x.1), hfound, hstamp _, rfl, rfl, ?_⟩
    simp only
    rw [lseg_snoc]
    refine ⟨?_, g2, ?_, rfl⟩
    · rw [free_block_update_found_head _ _ _ _ _ _ g2]
      refine (lseg_congr _ _ _ _ _ ?_).2 g1
      intro z hz y hy1 hy2
      obtain ⟨hp, _⟩ := well_formed_prefix_pairwise _ _ hwf
      rw [List.pairwise_append] at hp
      have := hp.2.2 z hz x (by simp)
      have := wpre z (by simp [hz])
      exact hframe y (by omega)
    · rw [← g3]
      exact read64_congr _ _ _ (fun y hy1 hy2 => hframe y (by simp only [size_at] at hy2; omega))

/-! ## The page-provider path of `hmalloc` and multi-page blocks -/

theorem div_up_page (e : Nat) (h : e < WORD) : div_up e PAGE_SIZE = (e + 4095) / 4096 := by
  have hW := WORD_eq
  unfold div_up PAGE_SIZE
  simp only
  have h1 : e / 4096 * 4096 % WORD = e / 4096 * 4096 := Nat.mod_eq_of_lt (by omega)
  have h2 : (e / 4096 + 1) % WORD = e / 4096 + 1 := Nat.mod_eq_of_lt (by omega)
  rw [h1, h2]
  split_ifs <;> omega

/-- When no node of the free list fits, `hmalloc` falls through to the page
provider. -/
theorem hmalloc_nofit (s : State) (size loc fuel : Nat) (L : List (Nat × Nat))
    (hlist : free_list s L)
    (hnofit : ∀ x ∈ L, x.2 < (size + SIZEOF_SIZE_T) % WORD)
    (hfuel : L.length < fuel) :
    hmalloc fuel s size loc =
      hmalloc_fresh fuel { s with stats := { s.stats with
        chunks_allocated := s.stats.chunks_allocated + 1 } }
        ((size + SIZEOF_SIZE_T) % WORD) loc := by
  obtain ⟨k, hk⟩ : ∃ k, fuel = L.length + (k + 1) := ⟨fuel - L.length - 1, by omega⟩
  unfold hmalloc
  simp only
  have h1s : lseg ({ s with stats := { s.stats with
      chunks_allocated := s.stats.chunks_allocated + 1 } } : State).mem L s.head NULL := hlist
  conv_lhs => rw [hk]
  rw [hmalloc_loop_skip _ _ _ _ L _ _ _ h1s hnofit]
  simp [hmalloc_loop, hk]

theorem free_list_length_ok (s : State) (fuel : Nat) (L : List (Nat × Nat))
    (hlist : free_list s L) (hfuel : L.length < fuel) :
    free_list_length fuel s = .ok (L.length : Int) := by
  obtain ⟨k, hk⟩ : ∃ k, fuel = L.length + (k + 1) := ⟨fuel - L.length - 1, by omega⟩
  unfold free_list_length
  rw [hk, free_list_length_loop_skip _ L _ _ _ _ hlist]
  simp [free_list_length_loop]

/-- The state `hmalloc` leaves when it maps `k ≥ 2` fresh pages; `e` is the
effective size `size + sizeof(size_t)` as the code computes it. -/
theorem hmalloc_multi_page (s : State) (n e loc fuel : Nat) (L : List (Nat × Nat))
    (he : e = (n + 8) % WORD)
    (hlist : free_list s L)
    (hnofit : ∀ x ∈ L, x.2 < e)
    (hk : 2 ≤ (e + 4095) / 4096)
    (hloc : loc + 8 < WORD)
    (hfuel : L.length < fuel) :
    hmalloc fuel s n loc = .ok (loc + 8,
      { mem := write64 (zero_fill s.mem loc ((e + 4095) / 4096 * 4096 % WORD)) loc e,
        head := s.head,
        stats := { s.stats with
          chunks_allocated := s.stats.chunks_allocated + 1,
          pages_mapped := s.stats.pages_mapped + ((e + 4095) / 4096 : Nat) },
        calls := SysCall.mmap ((e + 4095) / 4096 * 4096 % WORD) loc :: s.calls }) := by
  have hW := WORD_eq
  have hn : e < WORD := by rw [he]; exact Nat.mod_lt _ (by omega)
  have he2 : (n + SIZEOF_SIZE_T) % WORD = e := by rw [he]; rfl
  have hl : (loc + SIZEOF_SIZE_T) % WORD = loc + 8 := by
    simp only [SIZEOF_SIZE_T]; exact Nat.mod_eq_of_lt hloc
  rw [hmalloc_nofit s n loc fuel L hlist (by rw [he2]; exact hnofit) hfuel, he2]
  have hmf : loc ≠ MAP_FAILED := by simp only [MAP_FAILED]; omega
  have hk1 : ¬ ((e + 4095) / 4096 = 1) := by omega
  simp only [hmalloc_fresh, div_up_page _ hn, hmf, if_false, hk1, hl, mmap]
  rfl

/-- The state `hfree` leaves when the header it reads spans more than one page. -/
theorem hfree_multi_page (s : State) (p fuel : Nat) (L : List (Nat × Nat))
    (hlist : free_list s L) (hfuel : L.length < fuel)
    (hp : 8 ≤ p) (hp2 : p < WORD)
    (hdiv : 1 < div_up (read64 s.mem (p - 8)) PAGE_SIZE) :
    hfree fuel s p = .ok
      { mem := s.mem, head := s.head,
        stats := { s.stats with
          free_length := L.length,
          chunks_freed := s.stats.chunks_freed + 1,
          pages_unmapped := s.stats.pages_unmapped
            + (div_up (read64 s.mem (p - 8)) PAGE_SIZE : Nat) },
        calls := SysCall.munmap (p - 8) (read64 s.mem (p - 8)) :: s.calls } := by
  have hW := WORD_eq
  have hi : (p + (WORD - SIZEOF_SIZE_T)) % WORD = p - 8 := by
    simp only [SIZEOF_SIZE_T]
    rw [show p + (WORD - 8) = (p - 8) + WORD by omega, Nat.add_mod_right]
    exact Nat.mod_eq_of_lt (by omega)
  unfold hfree
  rw [free_list_length_ok s fuel L hlist hfuel]
  simp only [hi, gt_iff_lt, hdiv, if_true, munmap]

/-- The free list survives the mapping of fresh pages that hold none of its
nodes. -/
theorem free_list_fresh (m : Mem) (L : List (Nat × Nat)) (p q loc len len1 v : Nat)
    (hlen : len1 ≤ len) (hlen8 : 8 ≤ len)
    (hfresh : ∀ x ∈ L, x.1 + 16 ≤ loc ∨ loc + len ≤ x.1) :
    lseg (write64 (zero_fill m loc len1) loc v) L p q ↔ lseg m L p q := by
  rw [lseg_write64 _ _ _ _ _ _ (fun x hx => by have := hfresh x hx; omega)]
  exact lseg_zero_fill _ _ _ _ _ _ (fun x hx => by have := hfresh x hx; omega)

/-- C7 (amended). Multi-page blocks bypass the free list.  Let `e` be the
effective size `(n + 8) mod 2^64` that `hmalloc(n)` computes and
`k = ceil(e / 4096) ≥ 2`.  In a state whose free list `L` has no node of size
`≥ e`, with the provider handing out `k` fresh pages at `loc` (a region that
holds no node of `L`), `hmalloc(n)` returns `loc + 8`, adds exactly `k` to
`pages_mapped` and leaves the free list as it was; the following
`hfree(loc + 8)` returns, adds exactly `k` to `pages_unmapped` and again
leaves the free list as it was. -/
theorem C7_multi_page_bypass (s : State) (n loc fuel : Nat) (L : List (Nat × Nat))
    (hlist : free_list s L)
    (hnofit : ∀ x ∈ L, x.2 < (n + 8) % WORD)
    (hk : 2 ≤ ((n + 8) % WORD + 4095) / 4096)
    (hloc : loc + ((n + 8) % WORD + 4095) / 4096 * 4096 ≤ WORD)
    (hfresh : ∀ x ∈ L,
      x.1 + 16 ≤ loc ∨ loc + ((n + 8) % WORD + 4095) / 4096 * 4096 ≤ x.1)
    (hfuel : L.length < fuel) :
    ∃ s1 s2, hmalloc fuel s n loc = .ok (loc + 8, s1)
      ∧ s1.stats.pages_mapped
          = s.stats.pages_mapped + ((((n + 8) % WORD + 4095) / 4096 : Nat) : Int)
      ∧ s1.head = s.head ∧ free_list s1 L
      ∧ hfree fuel s1 (loc + 8) = .ok s2
      ∧ s2.stats.pages_unmapped
          = s1.stats.pages_unmapped + ((((n + 8) % WORD + 4095) / 4096 : Nat) : Int)
      ∧ s2.head = s.head ∧ free_list s2 L := by
  have hW := WORD_eq
  have hlt : (n + 8) % WORD < WORD := Nat.mod_lt _ (by omega)
  have hm := hmalloc_multi_page s n _ loc fuel L rfl hlist hnofit hk (by omega) hfuel
  have hl1 : free_list
      { mem := write64 (zero_fill s.mem loc
          (((n + 8) % WORD + 4095) / 4096 * 4096 % WORD)) loc ((n + 8) % WORD),
        head := s.head,
        stats := { s.stats with
          chunks_allocated := s.stats.chunks_allocated + 1,
          pages_mapped := s.stats.pages_mapped + ((((n + 8) % WORD + 4095) / 4096 : Nat) : Int) },
        calls := SysCall.mmap (((n + 8) % WORD + 4095) / 4096 * 4096 % WORD) loc :: s.calls }
      L :=
    (free_list_fresh _ L _ _ loc _ _ _ (Nat.mod_le _ _) (by omega) hfresh).2 hlist
  have hrd : read64 (write64 (zero_fill s.mem loc
      (((n + 8) % WORD + 4095) / 4096 * 4096 % WORD)) loc ((n + 8) % WORD)) (loc + 8 - 8)
      = (n + 8) % WORD := by
    rw [Nat.add_sub_cancel]; exact read64_write64_same_lt _ _ _ hlt
  have hf := hfree_multi_page _ (loc + 8) fuel L hl1 hfuel (by omega) (by omega)
    (by simp only [hrd, div_up_page _ hlt]; omega)
  simp only [hrd, div_up_page _ hlt] at hf
  exact ⟨_, _, hm, rfl, rfl, hl1, hf, rfl, rfl, hl1⟩

/-- C10 (amended). The block that `hmalloc(n)` obtains by mapping `k ≥ 2`
fresh pages at `loc` (`e = (n + 8) mod 2^64` its effective size,
`k = ceil(e / 4096)`): `mmap` was asked for `k * 4096` bytes and the header at
`loc` holds `e`; in every later state `t` whose free list is finite and in
which that header still holds `e`, `hfree(loc + 8)` passes to `munmap` the
address `loc` that `mmap` returned and the byte count `e`, which lies in the
last of the `k` pages (`(k - 1) * 4096 < e ≤ k * 4096`). -/
theorem C10_unmap_arguments (s : State) (n loc fuel : Nat) (L : List (Nat × Nat))
    (hlist : free_list s L)
    (hnofit : ∀ x ∈ L, x.2 < (n + 8) % WORD)
    (hk : 2 ≤ ((n + 8) % WORD + 4095) / 4096)
    (hloc0 : loc ≠ NULL)
    (hloc : loc + ((n + 8) % WORD + 4095) / 4096 * 4096 ≤ WORD)
    (hfuel : L.length < fuel) :
    ∃ s1, hmalloc fuel s n loc = .ok (loc + 8, s1)
      ∧ s1.calls = SysCall.mmap (((n + 8) % WORD + 4095) / 4096 * 4096) loc :: s.calls
      ∧ read64 s1.mem loc = (n + 8) % WORD
      ∧ (((n + 8) % WORD + 4095) / 4096 - 1) * 4096 < (n + 8) % WORD
      ∧ (n + 8) % WORD ≤ ((n + 8) % WORD + 4095) / 4096 * 4096
      ∧ ∀ (t : State) (Lt : List (Nat × Nat)) (fuel1 : Nat),
          free_list t Lt → Lt.length < fuel1 → read64 t.mem loc = (n + 8) % WORD →
          ∃ t1, hfree fuel1 t (loc + 8) = .ok t1
            ∧ t1.calls = SysCall.munmap loc ((n + 8) % WORD) :: t.calls := by
  have hW := WORD_eq
  have hlt : (n + 8) % WORD < WORD := Nat.mod_lt _ (by omega)
  have hm := hmalloc_multi_page s n _ loc fuel L rfl hlist hnofit hk (by omega) hfuel
  have hNULL : NULL = 0 := rfl
  have hss : ((n + 8) % WORD + 4095) / 4096 * 4096 % WORD
      = ((n + 8) % WORD + 4095) / 4096 * 4096 := Nat.mod_eq_of_lt (by omega)
  rw [hss] at hm
  refine ⟨_, hm, rfl, read64_write64_same_lt _ _ _ hlt, by omega, by omega, ?_⟩
  intro t Lt fuel1 ht hf hrd
  have hrd2 : read64 t.mem (loc + 8 - 8) = (n + 8) % WORD := by
    rw [Nat.add_sub_cancel]; exact hrd
  have h := hfree_multi_page t (loc + 8) fuel1 Lt ht hf (by omega) (by omega)
    (by simp only [hrd2, div_up_page _ hlt]; omega)
  simp only [Nat.add_sub_cancel, hrd] at h
  exact ⟨_, h, rfl⟩

/-! ## Frame of `free_block_insert` -/

theorem lseg_aseg (m : Mem) (L : List (Nat × Nat)) (p q : Nat) (h : lseg m L p q) :
    aseg m (L.map Prod.fst) p q := by
  induction L generalizing p with
  | nil => exact h
  | cons x L ih => exact ⟨h.1, h.2.1, ih _ h.2.2.2⟩

theorem aseg_congr (m m' : Mem) (A : List Nat) (p q : Nat)
    (h : ∀ a ∈ A, ∀ y, a + 8 ≤ y → y < a + 16 → m' y = m y)
    (hs : aseg m A p q) : aseg m' A p q := by
  induction A generalizing p with
  | nil => exact hs
  | cons a A ih =>
    obtain ⟨h1, h2, h3⟩ := hs
    have e : read64 m' (next_at p) = read64 m (next_at p) :=
      read64_congr m m' _ (fun y c d => h a (List.mem_cons_self _ _) y
        (by simp only [next_at] at c; omega) (by simp only [next_at] at d; omega))
    refine ⟨h1, h2, ?_⟩
    rw [e]
    exact ih _ (fun b hb => h b (List.mem_cons_of_mem _ hb)) h3

theorem lseg_size (m : Mem) (L : List (Nat × Nat)) (p q : Nat) (h : lseg m L p q) :
    ∀ x ∈ L, x.1 ≠ NULL ∧ read64 m (size_at x.1) = x.2 := by
  induction L generalizing p with
  | nil => simp
  | cons x L ih =>
    obtain ⟨h1, h2, h3, h4⟩ := h
    intro z hz
    rcases List.mem_cons.1 hz with rfl | hz
    · subst h1; exact ⟨h2, h3⟩
    · exact ih _ h4 z hz

/-- Frame of `coalesce`: only the fields of `new` and of `prev` are written. -/
theorem coalesce_frame (m : Mem) (prev new next y : Nat)
    (h1 : y < new ∨ new + 16 ≤ y)
    (h2 : prev = NULL ∨ y < prev ∨ prev + 16 ≤ y) :
    coalesce m prev new next y = m y := by
  unfold coalesce
  simp only [size_at, next_at]
  split_ifs with c1 c2 c3
  · rw [write64_apply_ne _ _ _ _ (by omega), write64_apply_ne _ _ _ _ (by omega)]
  · have : y < prev ∨ prev + 16 ≤ y := by
      rcases h2 with h | h
      · exact absurd h c2.2.1
      · exact h
    rw [write64_apply_ne _ _ _ _ (by omega), write64_apply_ne _ _ _ _ (by omega)]
  · have : y < prev ∨ prev + 16 ≤ y := by
      rcases h2 with h | h
      · exact absurd h c3.2.1
      · exact h
    rw [write64_apply_ne _ _ _ _ (by omega), write64_apply_ne _ _ _ _ (by omega),
      write64_apply_ne _ _ _ _ (by omega)]
  · rfl

theorem free_block_insert_splice_frame (m : Mem) (head location nn last y : Nat)
    (h1 : y < location ∨ location + 16 ≤ y)
    (h2 : last = NULL ∨ y < last ∨ last + 16 ≤ y) :
    (free_block_insert_splice m head location nn last).1 y = m y := by
  unfold free_block_insert_splice
  simp only [next_at]
  split_ifs with c
  · simp only
    rw [coalesce_frame _ _ _ _ _ h1 h2, write64_apply_ne _ _ _ _ (by omega)]
  · simp only
    have : y < last ∨ last + 16 ≤ y := by
      rcases h2 with h | h
      · exact absurd h c
      · exact h
    rw [coalesce_frame _ _ _ _ _ h1 h2, write64_apply_ne _ _ _ _ (by omega),
      write64_apply_ne _ _ _ _ (by omega)]

theorem free_block_insert_tail_frame (m : Mem) (head location nn last y : Nat)
    (h1 : y < location ∨ location + 16 ≤ y)
    (h2 : y < last ∨ last + 16 ≤ y) :
    (free_block_insert_tail m head location nn last).1 y = m y := by
  unfold free_block_insert_tail
  simp only [next_at]
  rw [coalesce_frame _ _ _ _ _ h1 (Or.inr h2), write64_apply_ne _ _ _ _ (by omega),
    write64_apply_ne _ _ _ _ (by omega)]

/-- On a finite chain the loop of `free_block_insert` returns, and it writes
only the fields of the new node and of nodes of the chain (or of `last`). -/
theorem free_block_insert_loop_frame (location : Nat) (A : List Nat) :
    ∀ (m : Mem) (head nn last fuel : Nat), aseg m A nn NULL → A.length < fuel →
      (last ≠ NULL ∨ A ≠ []) →
      ∃ r, free_block_insert_loop location fuel m head nn last = .ok r ∧
        ∀ y, (y < location ∨ location + 16 ≤ y) → (∀ a ∈ A, y < a ∨ a + 16 ≤ y) →
          (last = NULL ∨ y < last ∨ last + 16 ≤ y) → r.1 y = m y := by
  induction A with
  | nil =>
    intro m head nn last fuel hs hf hl
    obtain ⟨k, rfl⟩ : ∃ k, fuel = k + 1 := ⟨fuel - 1, by simp at hf; omega⟩
    have hnn : nn = NULL := hs
    have hl2 : last ≠ NULL := by
      rcases hl with h | h
      · exact h
      · exact absurd rfl h
    refine ⟨free_block_insert_tail m head location NULL last,
      by simp [free_block_insert_loop, hnn], ?_⟩
    intro y h1 _ h3
    have : y < last ∨ last + 16 ≤ y := by
      rcases h3 with h | h
      · exact absurd h hl2
      · exact h
    exact free_block_insert_tail_frame _ _ _ _ _ _ h1 this
  | cons a A ih =>
    intro m head nn last fuel hs hf hl
    obtain ⟨k, rfl⟩ : ∃ k, fuel = k + 1 := ⟨fuel - 1, by simp at hf; omega⟩
    obtain ⟨h1, h2, h3⟩ := hs
    by_cases hlt : location < nn
    · refine ⟨free_block_insert_splice m head location nn last,
        by simp [free_block_insert_loop, h2, hlt], ?_⟩
      intro y g1 _ g3
      exact free_block_insert_splice_frame _ _ _ _ _ _ g1 g3
    · obtain ⟨r, hr, hframe⟩ := ih m head (read64 m (next_at nn)) nn k h3
        (by simp at hf; omega) (Or.inl h2)
      refine ⟨r, by simp [free_block_insert_loop, h2, hlt, hr], ?_⟩
      intro y g1 g2 _
      have ga := g2 a (List.mem_cons_self _ _)
      exact hframe y g1 (fun b hb => g2 b (List.mem_cons_of_mem _ hb))
        (Or.inr (by rw [h1]; exact ga))

/-- On a finite free list `free_block_insert` returns, and it writes only the
fields of the new node and of nodes of the list. -/
theorem free_block_insert_frame (s : State) (location size fuel : Nat)
    (L : List (Nat × Nat)) (hlist : free_list s L) (hfuel : L.length < fuel)
    (hnext : ∀ x ∈ L, x.1 + 16 ≤ location ∨ location ≤ x.1) :
    ∃ s1, free_block_insert fuel s location size = .ok s1
      ∧ s1.stats = s.stats ∧ s1.calls = s.calls
      ∧ ∀ y, (y < location ∨ location + 16 ≤ y) → (∀ x ∈ L, y < x.1 ∨ x.1 + 16 ≤ y) →
          s1.mem y = s.mem y := by
  unfold free_block_insert
  by_cases hh : s.head = NULL
  · refine ⟨⟨write64 (write64 s.mem (size_at location) size) (next_at location) NULL,
      location, s.stats, s.calls⟩, by simp only [hh, if_true], rfl, rfl, ?_⟩
    intro y h1 _
    simp only [size_at, next_at]
    rw [write64_apply_ne _ _ _ _ (by omega), write64_apply_ne _ _ _ _ (by omega)]
  · have hne : L ≠ [] := by
      rintro rfl
      exact hh hlist
    have ha : aseg (write64 s.mem (size_at location) size) (L.map Prod.fst) s.head NULL := by
      refine aseg_congr s.mem _ _ _ _ ?_ (lseg_aseg _ _ _ _ hlist)
      intro a ha y h1 h2
      obtain ⟨x, hx, rfl⟩ := List.mem_map.1 ha
      have := hnext x hx
      exact write64_apply_ne _ _ _ _ (by simp only [size_at]; omega)
    obtain ⟨r, hr, hframe⟩ := free_block_insert_loop_frame location (L.map Prod.fst)
      (write64 s.mem (size_at location) size) s.head s.head NULL fuel ha (by simpa using hfuel)
      (Or.inr (by simpa using hne))
    refine ⟨{ s with mem := r.1, head := r.2 }, by simp only [hh, if_false, hr], rfl, rfl, ?_⟩
    intro y h1 h2
    simp only
    rw [hframe y h1 (fun a ha => by
      obtain ⟨x, hx, rfl⟩ := List.mem_map.1 ha
      exact h2 x hx) (Or.inl rfl)]
    exact write64_apply_ne _ _ _ _ (by simp only [size_at]; omega)

/-! ## The header that `hmalloc` leaves -/

theorem first_fit_split (e : Nat) (L : List (Nat × Nat)) :
    (∀ x ∈ L, x.2 < e) ∨
    ∃ pre a S post, L = pre ++ (a, S) :: post ∧ (∀ x ∈ pre, x.2 < e) ∧ e ≤ S := by
  induction L with
  | nil => left; simp
  | cons x L ih =>
    by_cases hx : x.2 < e
    · rcases ih with h | ⟨pre, a, S, post, h1, h2, h3⟩
      · left
        intro z hz
        rcases List.mem_cons.1 hz with rfl | hz
        · exact hx
        · exact h z hz
      · right
        refine ⟨x :: pre, a, S, post, by rw [h1]; rfl, ?_, h3⟩
        intro z hz
        rcases List.mem_cons.1 hz with rfl | hz
        · exact hx
        · exact h2 z hz
    · right
      exact ⟨[], x.1, x.2, L, rfl, by simp, by omega⟩

/-- C4 (amended). For every request `n` with `n + 8 < 2^64`, in a state whose
free list is a finite chain `L` and with the page provider answering with a
fresh region at `loc` (no node of `L` has its fields in it), `hmalloc(n)`
returns a pointer `p` such that the header word at `p - 8` is `n + 8`, so the
block it describes holds `n` payload bytes. -/
theorem C4_header_stamp (s : State) (n loc fuel : Nat) (L : List (Nat × Nat))
    (hlist : free_list s L)
    (hnodes : ∀ x ∈ L, x.1 + 16 ≤ WORD)
    (hn : n + 8 < WORD)
    (hloc : loc + (n + 8 + 4095) / 4096 * 4096 < WORD)
    (hfresh : ∀ x ∈ L, x.1 + 16 ≤ loc ∨ loc + (n + 8 + 4095) / 4096 * 4096 ≤ x.1)
    (hfuel : L.length < fuel) :
    ∃ p s1, hmalloc fuel s n loc = .ok (p, s1) ∧ 8 ≤ p
      ∧ read64 s1.mem (p - 8) = n + 8
      ∧ n ≤ read64 s1.mem (p - 8) - 8 := by
  have hW := WORD_eq
  have he : (n + SIZEOF_SIZE_T) % WORD = n + 8 := by
    simp only [SIZEOF_SIZE_T]; exact Nat.mod_eq_of_lt hn
  suffices h : ∃ p s1, hmalloc fuel s n loc = .ok (p, s1) ∧ 8 ≤ p
      ∧ read64 s1.mem (p - 8) = n + 8 by
    obtain ⟨p, s1, h1, h2, h3⟩ := h
    exact ⟨p, s1, h1, h2, h3, by omega⟩
  rcases first_fit_split (n + 8) L with hno | ⟨pre, a, S, post, hL, hpre, hfit⟩
  · -- no node fits: the page provider is asked
    rw [hmalloc_nofit s n loc fuel L hlist (by rw [he]; exact hno) hfuel, he]
    have hl : (loc + SIZEOF_SIZE_T) % WORD = loc + 8 := by
      simp only [SIZEOF_SIZE_T]; exact Nat.mod_eq_of_lt (by omega)
    have hmf : loc ≠ MAP_FAILED := by simp only [MAP_FAILED]; omega
    have hss : (n + 8 + 4095) / 4096 * PAGE_SIZE % WORD = (n + 8 + 4095) / 4096 * 4096 :=
      Nat.mod_eq_of_lt (by simp only [PAGE_SIZE]; omega)
    simp only [hmalloc_fresh, div_up_page _ hn, hmf, if_false, hl, mmap, hss]
    by_cases hk1 : (n + 8 + 4095) / 4096 = 1
    · have hl1 : free_list
          { mem := write64 (zero_fill s.mem loc ((n + 8 + 4095) / 4096 * 4096)) loc (n + 8),
            head := s.head,
            stats := { s.stats with
              chunks_allocated := s.stats.chunks_allocated + 1,
              pages_mapped := s.stats.pages_mapped + (((n + 8 + 4095) / 4096 : Nat) : Int) },
            calls := SysCall.mmap ((n + 8 + 4095) / 4096 * 4096) loc :: s.calls }
          L :=
        (free_list_fresh _ L _ _ loc _ _ _ (le_refl _) (by omega) hfresh).2 hlist
      have hlocn : (loc + (n + 8)) % WORD = loc + (n + 8) := Nat.mod_eq_of_lt (by omega)
      obtain ⟨s4, h4, _, _, hframe⟩ := free_block_insert_frame _ ((loc + (n + 8)) % WORD)
        (((n + 8 + 4095) / 4096 * 4096 + (WORD - (n + 8))) % WORD) fuel L hl1 hfuel
        (fun x hx => by have := hfresh x hx; rw [hlocn]; omega)
      rw [if_pos hk1, h4]
      refine ⟨_, _, rfl, by omega, ?_⟩
      simp only [Nat.add_sub_cancel]
      rw [read64_congr _ _ loc (fun y h1 h2 => hframe y (by rw [hlocn]; omega)
        (fun x hx => by have := hfresh x hx; omega))]
      exact read64_write64_same_lt _ _ _ hn
    · rw [if_neg hk1]
      refine ⟨_, _, rfl, by omega, ?_⟩
      simp only [Nat.add_sub_cancel]
      exact read64_write64_same_lt _ _ _ hn
  · -- first fit at the node `a`
    subst hL
    have hsz := lseg_size _ _ _ _ hlist
    have ha := hsz (a, S) (by simp)
    have hne : ∀ x ∈ pre, x.1 ≠ a := by
      intro x hx hxa
      have h1 := (hsz x (by simp [hx])).2
      have h2 := hpre x hx
      rw [hxa, ha.2] at h1
      simp only at h1
      omega
    have hfound := hmalloc_found s n loc fuel a S pre post hlist hne
      (by rw [he]; exact hpre) (by rw [he]; exact hfit)
      (by simp at hfuel; omega)
    have ha16 := hnodes (a, S) (by simp)
    simp only at ha16
    have hap : (a + SIZEOF_SIZE_T) % WORD = a + 8 := by
      simp only [SIZEOF_SIZE_T]; exact Nat.mod_eq_of_lt (by omega)
    rw [he, hap] at hfound
    refine ⟨_, _, hfound, by omega, ?_⟩
    simp only [Nat.add_sub_cancel]
    exact read64_write64_same_lt _ _ _ hn

/-! ## What `free_block_insert` does to a well-formed list -/

theorem last_addr_mem (L : List (Nat × Nat)) (hne : L ≠ []) :
    ∃ x ∈ L, last_addr NULL L = x.1 := by
  rcases List.eq_nil_or_concat L with h | ⟨L1, x, h⟩
  · exact absurd h hne
  · rw [List.concat_eq_append] at h
    subst h
    exact ⟨x, by simp, last_addr_concat _ _ _⟩

/-- The chain after a node `a` has been linked behind the nodes `L1` and in
front of the nodes `L2`; `m1` is a memory that held the two chains, `mm` the
memory afterwards. -/
theorem splice_chain (m1 mm : Mem) (L1 L2 : List (Nat × Nat)) (head r a sz q : Nat)
    (h1 : lseg m1 L1 head r) (h2 : lseg m1 L2 q NULL)
    (ha : a ≠ NULL)
    (hL1 : ∀ x ∈ L1, x.1 + 16 ≤ a) (hL2 : ∀ y ∈ L2, a ≤ y.1)
    (hpw : L1.Pairwise (fun x y => x.1 + 16 ≤ y.1))
    (hframe : ∀ y, (∃ x ∈ L1 ++ L2, x.1 ≤ y ∧ y < x.1 + 16) →
      (L1 = [] ∨ y < last_addr NULL L1 + 8 ∨ last_addr NULL L1 + 16 ≤ y) → mm y = m1 y)
    (hsz : read64 mm a = sz)
    (hnext : read64 mm (a + 8) = q)
    (hlast : L1 ≠ [] → read64 mm (last_addr NULL L1 + 8) = a) :
    lseg mm (L1 ++ (a, sz) :: L2) (if L1 = [] then a else head) NULL := by
  have hlastle : L1 ≠ [] → ∃ x ∈ L1, last_addr NULL L1 = x.1 := last_addr_mem L1
  rw [lseg_append]
  refine ⟨a, ?_, rfl, ha, hsz, ?_⟩
  · rcases List.eq_nil_or_concat L1 with h | ⟨L, x, h⟩
    · subst h; simp [lseg]
    · rw [List.concat_eq_append] at h
      subst h
      have hne : L ++ [x] ≠ [] := by simp
      simp only [hne, if_false]
      rw [lseg_snoc] at h1 ⊢
      obtain ⟨g1, g2, g3, _⟩ := h1
      have hla := hlast hne
      rw [last_addr_concat] at hla
      rw [List.pairwise_append] at hpw
      refine ⟨?_, g2, ?_, hla⟩
      · refine (lseg_congr m1 mm L _ _ ?_).2 g1
        intro z hz y hy1 hy2
        have := hpw.2.2 z hz x (by simp)
        exact hframe y ⟨z, by simp [hz], hy1, hy2⟩
          (Or.inr (by rw [last_addr_concat]; omega))
      · rw [← g3]
        exact read64_congr _ _ _ (fun y hy1 hy2 => hframe y
          ⟨x, by simp, by simp only [size_at] at hy1; exact hy1,
            by simp only [size_at] at hy2; omega⟩
          (Or.inr (by rw [last_addr_concat]; simp only [size_at] at hy2; omega)))
  · simp only [next_at]
    rw [hnext]
    refine (lseg_congr m1 mm L2 _ _ ?_).2 h2
    intro z hz y hy1 hy2
    refine hframe y ⟨z, by simp [hz], hy1, hy2⟩ ?_
    by_cases hne : L1 = []
    · exact Or.inl hne
    · obtain ⟨x, hx, e⟩ := hlastle hne
      have := hL1 x hx
      have := hL2 z hz
      exact Or.inr (by rw [e]; omega)

/-- When the predecessor does not end at the new node, `coalesce` either
merges forwards or does nothing. -/
theorem coalesce_no_backward (m : Mem) (prev new next : Nat)
    (h : prev = NULL ∨ (prev + read64 m (size_at prev)) % WORD ≠ new) :
    coalesce m prev new next =
      if next ≠ NULL ∧ (new + read64 m (size_at new)) % WORD = next then
        write64 (write64 m (size_at new)
            ((read64 m (size_at new) + read64 m (size_at next)) % WORD))
          (next_at new)
          (read64 (write64 m (size_at new)
            ((read64 m (size_at new) + read64 m (size_at next)) % WORD)) (next_at next))
      else m := by
  unfold coalesce
  by_cases c : next ≠ NULL ∧ (new + read64 m (size_at new)) % WORD = next
  · rw [if_pos ⟨h, c⟩, if_pos c]
  · have c1 : ¬ ((prev = NULL ∨ (prev + read64 m (size_at prev)) % WORD ≠ new)
        ∧ next ≠ NULL ∧ (new + read64 m (size_at new)) % WORD = next) := fun hc => c hc.2
    have c2 : ¬ ((next = NULL ∨ (new + read64 m (size_at new)) % WORD ≠ next)
        ∧ prev ≠ NULL ∧ (prev + read64 m (size_at prev)) % WORD = new) := by
      rintro ⟨_, hp, he⟩
      rcases h with h | h
      · exact hp h
      · exact h he
    have c3 : ¬ (next ≠ NULL ∧ prev ≠ NULL
        ∧ (prev + read64 m (size_at prev)) % WORD = new
        ∧ (new + read64 m (size_at new)) % WORD = next) := fun hc => c ⟨hc.1, hc.2.2.2⟩
    rw [if_neg c1, if_neg c2, if_neg c3, if_neg c]

/-- The chain after `coalesce`, when no backward merge is possible. -/
theorem coalesce_chain (mm : Mem) (L1 L2 : List (Nat × Nat)) (head a sz q prev : Nat)
    (hc : lseg mm (L1 ++ (a, sz) :: L2) head NULL)
    (hq : lseg mm L2 q NULL)
    (hprev : prev = NULL ∨ (prev + read64 mm (size_at prev)) % WORD ≠ a)
    (hsz : 16 ≤ sz) (haw : a + sz < WORD)
    (hL1 : ∀ x ∈ L1, x.1 + 16 ≤ a)
    (hL2 : ∀ y ∈ L2, a + sz ≤ y.1 ∧ 16 ≤ y.2 ∧ y.1 + y.2 < WORD)
    (hpw2 : L2.Pairwise (fun x y => x.1 + 16 ≤ y.1)) :
    lseg (coalesce mm prev a q) (L1 ++ insert_merge a sz L2) head NULL := by
  have hW := WORD_eq
  rw [coalesce_no_backward _ _ _ _ hprev]
  obtain ⟨r, c1, c2, c3, c4, c5⟩ := (lseg_append _ _ _ _ _).1 hc
  simp only at c2 c4
  subst c2
  have hmod : (r + read64 mm (size_at r)) % WORD = r + sz := by
    rw [c4]; exact Nat.mod_eq_of_lt haw
  rw [hmod]
  cases L2 with
  | nil =>
    have hqn : q = NULL := hq
    simp only [hqn, ne_eq, not_true_eq_false, false_and, if_false, insert_merge]
    exact hc
  | cons b R =>
    obtain ⟨b, sb⟩ := b
    obtain ⟨q1, q2, q3, q4⟩ := hq
    simp only at q1 q3
    subst q1
    have hb := hL2 (q, sb) (by simp)
    simp only at hb
    simp only [insert_merge]
    by_cases hm : r + sz = q
    · simp only [q2, ne_eq, not_false_eq_true, hm, and_self, if_true]
      simp only [size_at, next_at] at c4 q3 q4 ⊢
      rw [c4, q3]
      have hsum : (sz + sb) % WORD = sz + sb := Nat.mod_eq_of_lt (by omega)
      rw [hsum, read64_write64_ne _ _ _ _ (by omega)]
      rw [lseg_append]
      refine ⟨r, ?_, rfl, c3, ?_, ?_⟩
      · rw [lseg_write64 _ _ _ _ _ _ (fun x hx => by have := hL1 x hx; omega),
          lseg_write64 _ _ _ _ _ _ (fun x hx => by have := hL1 x hx; omega)]
        exact c1
      · simp only [size_at]
        rw [read64_write64_ne _ _ _ _ (by omega)]
        exact read64_write64_same_lt _ _ _ (by omega)
      · simp only [next_at]
        rw [read64_write64_same_lt _ _ _ (read64_lt _ _)]
        rw [List.pairwise_cons] at hpw2
        rw [lseg_write64 _ _ _ _ _ _ (fun x hx => by
            have := hpw2.1 x hx; simp only at this; omega),
          lseg_write64 _ _ _ _ _ _ (fun x hx => by
            have := hpw2.1 x hx; simp only at this; omega)]
        exact q4
    · simp only [hm, and_false, if_false]
      exact hc

theorem well_formed_fields (L : List (Nat × Nat)) (h : well_formed L) :
    L.Pairwise (fun x y => x.1 + 16 ≤ y.1) := by
  obtain ⟨hp, hs⟩ := h
  refine List.Pairwise.imp_of_mem ?_ hp
  intro x y hx _ hxy
  have := (hs x hx).1
  omega

theorem well_formed_append (L1 L2 : List (Nat × Nat)) (h : well_formed (L1 ++ L2)) :
    well_formed L1 ∧ well_formed L2 := by
  obtain ⟨hp, hs⟩ := h
  rw [List.pairwise_append] at hp
  exact ⟨⟨hp.1, fun x hx => hs x (by simp [hx])⟩, ⟨hp.2.1, fun x hx => hs x (by simp [hx])⟩⟩

/-- What `free_block_insert` does to a well-formed free list when the new
block `[a, a + sz)` lies strictly above the nodes `L1` (touching none of them)
and below the nodes `L2`: the new node is linked between them and absorbs the
first node of `L2` when it touches it. -/
theorem free_block_insert_spec (s : State) (a sz fuel : Nat) (L1 L2 : List (Nat × Nat))
    (hlist : free_list s (L1 ++ L2))
    (hwf : well_formed (L1 ++ L2))
    (ha : a ≠ NULL) (hsz : 16 ≤ sz) (haw : a + sz < WORD)
    (hL1 : ∀ x ∈ L1, x.1 + x.2 < a)
    (hL2 : ∀ y ∈ L2, a + sz ≤ y.1)
    (hfuel : (L1 ++ L2).length < fuel) :
    ∃ s1, free_block_insert fuel s a sz = .ok s1
      ∧ s1.stats = s.stats ∧ s1.calls = s.calls
      ∧ free_list s1 (L1 ++ insert_merge a sz L2)
      ∧ ∀ y, (y < a ∨ a + 16 ≤ y) → (∀ x ∈ L1 ++ L2, y < x.1 ∨ x.1 + 16 ≤ y) →
          s1.mem y = s.mem y := by
  have hW := WORD_eq
  obtain ⟨w1, w2⟩ := well_formed_append _ _ hwf
  have hf1 : ∀ x ∈ L1, x.1 + 16 ≤ a := fun x hx => by
    have := hL1 x hx; have := (w1.2 x hx).1; omega
  have hf2 : ∀ y ∈ L2, a + 16 ≤ y.1 := fun y hy => by have := hL2 y hy; omega
  have hf2b : ∀ y ∈ L2, a + sz ≤ y.1 ∧ 16 ≤ y.2 ∧ y.1 + y.2 < WORD := fun y hy =>
    ⟨hL2 y hy, (w2.2 y hy).1, (w2.2 y hy).2⟩
  obtain ⟨s1, hs1, hst, hca, hframe⟩ := free_block_insert_frame s a sz fuel (L1 ++ L2)
    hlist hfuel (fun x hx => by
      rcases List.mem_append.1 hx with h | h
      · left; exact hf1 x h
      · right; have := hf2 x h; omega)
  refine ⟨s1, hs1, hst, hca, ?_, hframe⟩
  -- the chain in the memory that holds `new->size = size`
  have hm1 : lseg (write64 s.mem (size_at a) sz) (L1 ++ L2) s.head NULL := by
    refine (lseg_write64 _ _ _ _ _ _ ?_).2 hlist
    intro x hx
    simp only [size_at]
    rcases List.mem_append.1 hx with h | h
    · left; exact hf1 x h
    · right; have := hf2 x h; omega
  obtain ⟨q, h1, h2⟩ := (lseg_append _ _ _ _ _).1 hm1
  have hsza : read64 (write64 s.mem (size_at a) sz) a = sz :=
    read64_write64_same_lt _ _ _ (by omega)
  unfold free_block_insert at hs1
  by_cases hh : s.head = NULL
  · -- empty list
    have hnil : L1 ++ L2 = [] := by
      cases hL : L1 ++ L2 with
      | nil => rfl
      | cons x L =>
        rw [hL] at hlist
        exact absurd hh (by rw [hlist.1]; rw [← hlist.1]; exact hlist.2.1)
    obtain ⟨e1, e2⟩ := List.append_eq_nil.1 hnil
    subst e1 e2
    rw [if_pos hh] at hs1
    dsimp only at hs1
    have := Except.ok.inj hs1
    subst this
    simp only [List.nil_append, insert_merge, free_list, lseg, size_at, next_at, NULL]
    refine ⟨trivial, ha, ?_, ?_⟩
    · rw [read64_write64_ne _ _ _ _ (by omega)]; exact hsza
    · exact read64_write64_same_lt _ _ _ (by omega)
  · rw [if_neg hh] at hs1
    dsimp only at hs1
    obtain ⟨k, hk⟩ : ∃ k, fuel = L1.length + (k + 1) :=
      ⟨fuel - L1.length - 1, by simp at hfuel; omega⟩
    rw [hk, free_block_insert_loop_skip _ _ _ L1 _ _ _ _ h1
      (fun x hx => by have := hf1 x hx; omega)] at hs1
    have hpw1 := well_formed_fields _ w1
    have hpw2 := well_formed_fields _ w2
    -- no backward merge: the predecessor ends strictly below `a`
    have hprev : ∀ mm : Mem, (∀ x ∈ L1, read64 mm (size_at x.1) = x.2) →
        last_addr NULL L1 = NULL
          ∨ (last_addr NULL L1 + read64 mm (size_at (last_addr NULL L1))) % WORD ≠ a := by
      intro mm hrd
      by_cases hne : L1 = []
      · left; subst hne; rfl
      · right
        obtain ⟨x, hx, e⟩ := last_addr_mem L1 hne
        have := hL1 x hx
        rw [e, hrd x hx, Nat.mod_eq_of_lt (by omega)]
        omega
    have hfin : ∀ mm : Mem, ∀ hd : Nat,
        lseg mm (L1 ++ (a, sz) :: L2) hd NULL → lseg mm L2 q NULL →
        lseg (coalesce mm (last_addr NULL L1) a q) (L1 ++ insert_merge a sz L2) hd NULL := by
      intro mm hd hc hq
      refine coalesce_chain mm L1 L2 hd a sz q _ hc hq (hprev mm ?_) hsz haw hf1 hf2b hpw2
      intro x hx
      exact (lseg_size _ _ _ _ hc x (by simp [hx])).2
    have hq2 : ∀ mm : Mem, (∀ y, a + 16 ≤ y →
        (L1 = [] ∨ y < last_addr NULL L1 + 8 ∨ last_addr NULL L1 + 16 ≤ y) →
        mm y = write64 s.mem (size_at a) sz y) → lseg mm L2 q NULL := by
      intro mm hfr
      refine (lseg_congr _ mm L2 _ _ ?_).2 h2
      intro z hz y hy1 hy2
      have := hf2 z hz
      refine hfr y (by omega) ?_
      by_cases hne : L1 = []
      · exact Or.inl hne
      · obtain ⟨x, hx, e⟩ := last_addr_mem L1 hne
        have := hf1 x hx
        exact Or.inr (by rw [e]; omega)
    have hfld : ∀ y, (∃ x ∈ L1 ++ L2, x.1 ≤ y ∧ y < x.1 + 16) → (y < a ∨ a + 16 ≤ y) := by
      rintro y ⟨x, hx, g1, g2⟩
      rcases List.mem_append.1 hx with h | h
      · left; have := hf1 x h; omega
      · right; have := hf2 x h; omega
    have hf2c : ∀ y ∈ L2, a ≤ y.1 := fun y hy => by have := hf2 y hy; omega
    cases hL2 : L2 with
    | nil =>
      subst hL2
      have hqn : q = NULL := h2
      subst hqn
      have hne : L1 ≠ [] := by
        rintro rfl
        exact hh h1
      obtain ⟨x, hx, e⟩ := last_addr_mem L1 hne
      have hxa := hf1 x hx
      simp only [free_block_insert_loop, ne_eq, not_true_eq_false, if_false,
        free_block_insert_tail] at hs1
      have := Except.ok.inj hs1
      subst this
      simp only [free_list]
      have hfr : ∀ y, (y < a + 8 ∨ a + 16 ≤ y) →
          (L1 = [] ∨ y < last_addr NULL L1 + 8 ∨ last_addr NULL L1 + 16 ≤ y) →
          write64 (write64 (write64 s.mem (size_at a) sz) (next_at (last_addr NULL L1)) a)
            (next_at a) NULL y = write64 s.mem (size_at a) sz y := by
        intro y g1 g2
        have g3 : y < last_addr NULL L1 + 8 ∨ last_addr NULL L1 + 16 ≤ y := by
          rcases g2 with g | g
          · exact absurd g hne
          · exact g
        simp only [next_at]
        rw [write64_apply_ne _ _ _ _ (by omega), write64_apply_ne _ _ _ _ (by omega)]
      have hc := splice_chain _ _ L1 [] s.head NULL a sz NULL h1 h2 ha hf1 hf2c hpw1
        (fun y g1 g2 => hfr y (by have := hfld y g1; omega) g2)
        (Eq.trans (read64_congr _ _ _ (fun y g1 g2 => hfr y (by omega)
          (Or.inr (by rw [e]; omega)))) hsza)
        (by simp only [next_at]; exact read64_write64_same_lt _ _ _ (by simp [NULL, WORD]))
        (fun _ => by
          simp only [next_at]
          rw [read64_write64_ne _ _ _ _ (by rw [e]; omega)]
          exact read64_write64_same_lt _ _ _ (by omega))
      simp only [hne, if_false] at hc
      exact hfin _ _ hc (hq2 _ (fun y g1 g2 => hfr y (Or.inr g1) g2))
    | cons bb R =>
      obtain ⟨b, sb⟩ := bb
      subst hL2
      obtain ⟨q1, q2, q3, q4⟩ := h2
      simp only at q1
      subst q1
      have hb := hf2 (q, sb) (by simp)
      simp only at hb
      have hlt : a < q := by omega
      have h2' : lseg (write64 s.mem (size_at a) sz) ((q, sb) :: R) q NULL := ⟨rfl, q2, q3, q4⟩
      simp only [free_block_insert_loop, q2, ne_eq, not_false_eq_true, if_true, hlt,
        free_block_insert_splice] at hs1
      by_cases hne : L1 = []
      · subst hne
        have hl0 : last_addr NULL [] = NULL := rfl
        rw [hl0, if_pos rfl] at hs1
        have := Except.ok.inj hs1
        subst this
        simp only [free_list]
        have hfr : ∀ y, (y < a + 8 ∨ a + 16 ≤ y) →
            (([] : List (Nat × Nat)) = [] ∨ y < last_addr NULL [] + 8
              ∨ last_addr NULL [] + 16 ≤ y) →
            write64 (write64 s.mem (size_at a) sz) (next_at a) q y
              = write64 s.mem (size_at a) sz y := by
          intro y g1 _
          simp only [next_at]
          rw [write64_apply_ne _ _ _ _ (by omega)]
        have hc := splice_chain _ _ [] ((q, sb) :: R) s.head q a sz q h1 h2' ha hf1 hf2c
          hpw1 (fun y g1 g2 => hfr y (by have := hfld y g1; omega) g2)
          (Eq.trans (read64_congr _ _ _ (fun y g1 g2 => hfr y (by omega) (Or.inl rfl))) hsza)
          (by simp only [next_at]; exact read64_write64_same_lt _ _ _ (by
            have := read64_lt s.mem (next_at a); have := hf2b (q, sb) (by simp); simp only at this; omega))
          (fun h => absurd rfl h)
        simp only [if_true] at hc
        have := hfin _ _ hc (hq2 _ (fun y g1 g2 => hfr y (Or.inr g1) g2))
        rw [hl0] at this
        exact this
      · obtain ⟨x, hx, e⟩ := last_addr_mem L1 hne
        have hxa := hf1 x hx
        have hxn : last_addr NULL L1 ≠ NULL := by
          rw [e]; exact (lseg_size _ _ _ _ h1 x hx).1
        rw [if_neg hxn] at hs1
        have := Except.ok.inj hs1
        subst this
        simp only [free_list]
        have hfr : ∀ y, (y < a + 8 ∨ a + 16 ≤ y) →
            (L1 = [] ∨ y < last_addr NULL L1 + 8 ∨ last_addr NULL L1 + 16 ≤ y) →
            write64 (write64 (write64 s.mem (size_at a) sz) (next_at a) q)
              (next_at (last_addr NULL L1)) a y = write64 s.mem (size_at a) sz y := by
          intro y g1 g2
          have g3 : y < last_addr NULL L1 + 8 ∨ last_addr NULL L1 + 16 ≤ y := by
            rcases g2 with g | g
            · exact absurd g hne
            · exact g
          simp only [next_at]
          rw [write64_apply_ne _ _ _ _ (by omega), write64_apply_ne _ _ _ _ (by omega)]
        have hqw : q < WORD := by
          have := hf2b (q, sb) (by simp); simp only at this; omega
        have hc := splice_chain _ _ L1 ((q, sb) :: R) s.head q a sz q h1 h2' ha hf1 hf2c
          hpw1 (fun y g1 g2 => hfr y (by have := hfld y g1; omega) g2)
          (Eq.trans (read64_congr _ _ _ (fun y g1 g2 => hfr y (by omega)
            (Or.inr (by rw [e]; omega)))) hsza)
          (by
            simp only [next_at]
            rw [read64_write64_ne _ _ _ _ (by rw [e]; omega)]
            exact read64_write64_same_lt _ _ _ hqw)
          (fun _ => by
            simp only [next_at]
            exact read64_write64_same_lt _ _ _ (by omega))
        simp only [hne, if_false] at hc
        exact hfin _ _ hc (hq2 _ (fun y g1 g2 => hfr y (Or.inr g1) g2))

/-! ## What `free_block_update` leaves -/

/-- What `free_block_update_copy` leaves when it carves `e` bytes off the
front of a node of size `S ≥ e`: the node `updated` has the size `S - e`, and
its `next` field is the old `next` when that is not null and is left as it
was otherwise. -/
theorem free_block_update_copy_spec (m : Mem) (a e S : Nat)
    (hS : read64 m (size_at a) = S) (he : 8 ≤ e) (heS : e ≤ S) (haw : a + S < WORD) :
    read64 (free_block_update_copy m a a e) (a + e) = S - e
    ∧ read64 (free_block_update_copy m a a e) (a + e + 8)
        = (if read64 m (next_at a) ≠ NULL then read64 m (next_at a)
            else read64 m (a + e + 8)) := by
  have hW := WORD_eq
  have hu : (a + e) % WORD = a + e := Nat.mod_eq_of_lt (by omega)
  have hnx := read64_lt m (next_at a)
  have hSW : S % WORD = S := Nat.mod_eq_of_lt (by omega)
  have hsub : (S + (WORD - e)) % WORD = S - e := by
    rw [show S + (WORD - e) = (S - e) + WORD by omega, Nat.add_mod_right]
    exact Nat.mod_eq_of_lt (by omega)
  unfold free_block_update_copy
  simp only [hu, size_at, next_at] at hS hnx ⊢
  by_cases hn : read64 m (a + 8) = NULL
  · simp only [hn, ne_eq, not_true_eq_false, if_false]
    rw [hS]
    constructor
    · rw [read64_write64_same, read64_write64_same, hSW, hsub]
      exact Nat.mod_eq_of_lt (by omega)
    · rw [read64_write64_ne _ _ _ _ (by omega), read64_write64_ne _ _ _ _ (by omega)]
  · simp only [hn, ne_eq, not_false_eq_true, if_true]
    rw [read64_write64_ne _ a _ _ (by omega), hS]
    constructor
    · rw [read64_write64_same, read64_write64_same, hSW, hsub]
      exact Nat.mod_eq_of_lt (by omega)
    · rw [read64_write64_ne _ _ _ _ (by omega), read64_write64_ne _ _ _ _ (by omega),
        read64_write64_same]
      exact Nat.mod_eq_of_lt hnx

/-- What `free_block_update_found` leaves when it carves `e` bytes off the
front of a node of size `S > e`: the predecessor, or `head`, points to the
node `updated`. -/
theorem free_block_update_found_spec (m : Mem) (head a prev e S : Nat)
    (hS : read64 m (size_at a) = S) (he : 8 ≤ e) (heS : e < S) (haw : a + S < WORD)
    (hprev : prev = NULL ∨ prev + 16 ≤ a) :
    read64 (free_block_update_found m head a prev a e).1 (a + e) = S - e
    ∧ read64 (free_block_update_found m head a prev a e).1 (a + e + 8)
        = (if read64 m (next_at a) ≠ NULL then read64 m (next_at a)
            else read64 m (a + e + 8))
    ∧ (prev ≠ NULL → read64 (free_block_update_found m head a prev a e).1 (prev + 8) = a + e
        ∧ (free_block_update_found m head a prev a e).2 = head)
    ∧ (prev = NULL → (free_block_update_found m head a prev a e).2 = a + e) := by
  have hW := WORD_eq
  have hu : (a + e) % WORD = a + e := Nat.mod_eq_of_lt (by omega)
  obtain ⟨c1, c2⟩ := free_block_update_copy_spec m a e S hS he (by omega) haw
  have hne : read64 (free_block_update_copy m a a e) (a + e) ≠ 0 := by rw [c1]; omega
  unfold free_block_update_found
  simp only [hu, size_at, next_at]
  by_cases hp : prev = NULL
  · have n1 : ¬ (prev ≠ NULL ∧ read64 (free_block_update_copy m a a e) (a + e) ≠ 0) :=
      fun h => h.1 hp
    rw [if_neg n1, if_neg (not_not.2 hp), if_pos hne]
    exact ⟨c1, c2, fun h => absurd hp h, fun _ => rfl⟩
  · have hp16 : prev + 16 ≤ a := by
      rcases hprev with h | h
      · exact absurd h hp
      · exact h
    rw [if_pos ⟨hp, hne⟩]
    simp only
    refine ⟨?_, ?_, fun _ => ⟨read64_write64_same_lt _ _ _ (by omega), trivial⟩,
      fun h => absurd h hp⟩
    · rw [read64_write64_ne _ _ _ _ (by omega)]; exact c1
    · rw [read64_write64_ne _ _ _ _ (by omega)]; exact c2

/-- Unfolding of `hmalloc` when the walk over the nodes `pre`, none of which
fits, reaches a node `a` that fits. -/
theorem hmalloc_found_prefix (s : State) (size loc fuel a : Nat) (pre : List (Nat × Nat))
    (h1 : lseg s.mem pre s.head a) (h3 : a ≠ NULL)
    (hne : ∀ x ∈ pre, x.1 ≠ a)
    (hpre : ∀ x ∈ pre, x.2 < (size + SIZEOF_SIZE_T) % WORD)
    (hfit : (size + SIZEOF_SIZE_T) % WORD ≤ read64 s.mem (size_at a))
    (hfuel : pre.length < fuel) :
    hmalloc fuel s size loc = .ok ((a + SIZEOF_SIZE_T) % WORD,
      { mem := write64 (free_block_update_found s.mem s.head a (last_addr NULL pre) a
                ((size + SIZEOF_SIZE_T) % WORD)).1 a ((size + SIZEOF_SIZE_T) % WORD),
        head := (free_block_update_found s.mem s.head a (last_addr NULL pre) a
                ((size + SIZEOF_SIZE_T) % WORD)).2,
        stats := { s.stats with chunks_allocated := s.stats.chunks_allocated + 1 },
        calls := s.calls }) := by
  obtain ⟨k, hk⟩ : ∃ k, fuel = pre.length + (k + 1) := ⟨fuel - pre.length - 1, by omega⟩
  unfold hmalloc
  simp only
  have h1s : lseg ({ s with stats := { s.stats with
      chunks_allocated := s.stats.chunks_allocated + 1 } } : State).mem pre s.head a := h1
  rw [hk, hmalloc_loop_skip _ _ _ _ pre _ _ _ h1s hpre]
  simp only [hmalloc_loop, h3, ne_eq, not_false_eq_true, if_true, hfit, free_block_update]
  rw [free_block_update_loop_skip _ _ _ _ pre _ _ _ _ h1 hne]
  simp only [free_block_update_loop, h3, ne_eq, not_false_eq_true, if_true]

theorem last_addr_prev (L : List (Nat × Nat)) (a : Nat) (h : ∀ x ∈ L, x.1 + 16 ≤ a) :
    last_addr NULL L = NULL ∨ last_addr NULL L + 16 ≤ a := by
  by_cases hne : L = []
  · left; subst hne; rfl
  · right
    obtain ⟨x, hx, e⟩ := last_addr_mem L hne
    rw [e]; exact h x hx

theorem last_addr_ne_null (m : Mem) (L : List (Nat × Nat)) (p q : Nat) (h : lseg m L p q)
    (hne : L ≠ []) : last_addr NULL L ≠ NULL := by
  obtain ⟨x, hx, e⟩ := last_addr_mem L hne
  rw [e]; exact (lseg_size _ _ _ _ h x hx).1

/-- The free list after `hmalloc(n)` has carved `n + 8` bytes off the front of
the first fitting node `(a, S)`, when the remainder can hold a node. -/
theorem hmalloc_found_chain (s : State) (n loc fuel a S : Nat) (pre post : List (Nat × Nat))
    (hlist : free_list s (pre ++ (a, S) :: post))
    (hwf : well_formed (pre ++ (a, S) :: post))
    (hpre : ∀ x ∈ pre, x.2 < n + 8)
    (hrem : n + 8 + 16 ≤ S)
    (hstale : post = [] → read64 s.mem (a + (n + 8) + 8) = 0)
    (hfuel : pre.length < fuel) :
    ∃ s1, hmalloc fuel s n loc = .ok (a + 8, s1)
      ∧ free_list s1 (pre ++ (a + (n + 8), S - (n + 8)) :: post)
      ∧ read64 s1.mem a = n + 8 := by
  obtain ⟨wpre, wS, waS, wpost⟩ := well_formed_mid pre post a S hwf
  have hW := WORD_eq
  have he : (n + SIZEOF_SIZE_T) % WORD = n + 8 := by
    simp only [SIZEOF_SIZE_T]; exact Nat.mod_eq_of_lt (by omega)
  have ha : (a + SIZEOF_SIZE_T) % WORD = a + 8 := by
    simp only [SIZEOF_SIZE_T]; exact Nat.mod_eq_of_lt (by omega)
  have hne : ∀ x ∈ pre, x.1 ≠ a := fun x hx => by have := wpre x hx; omega
  obtain ⟨r, h1, h2, h3, h4, h5⟩ := (lseg_append _ _ _ _ _).1 hlist
  simp only at h2 h4
  subst h2
  have hfound := hmalloc_found_prefix s n loc fuel r pre h1 h3 hne
    (by rw [he]; exact hpre) (by rw [he, h4]; omega) hfuel
  rw [he, ha] at hfound
  have hf1 : ∀ x ∈ pre, x.1 + 16 ≤ r := fun x hx => by have := wpre x hx; omega
  obtain ⟨u1, u2, u3, u4⟩ := free_block_update_found_spec s.mem s.head r
    (last_addr NULL pre) (n + 8) S h4 (by omega) (by omega) waS (last_addr_prev pre r hf1)
  have hu : (r + (n + 8)) % WORD = r + (n + 8) := Nat.mod_eq_of_lt (by omega)
  -- the pointer that follows the node `updated`
  have hq : lseg s.mem post (if read64 s.mem (next_at r) ≠ NULL then read64 s.mem (next_at r)
      else read64 s.mem (r + (n + 8) + 8)) NULL := by
    by_cases hn : read64 s.mem (next_at r) = NULL
    · rw [if_neg (not_not.2 hn)]
      cases post with
      | nil => rw [hstale rfl]; rfl
      | cons b R => rw [hn] at h5; exact absurd h5.1.symm (by rw [← h5.1]; exact h5.2.1)
    · rw [if_pos hn]; exact h5
  have hframe : ∀ y, (∃ x ∈ pre ++ post, x.1 ≤ y ∧ y < x.1 + 16) →
      (pre = [] ∨ y < last_addr NULL pre + 8 ∨ last_addr NULL pre + 16 ≤ y) →
      write64 (free_block_update_found s.mem s.head r (last_addr NULL pre) r (n + 8)).1
        r (n + 8) y = s.mem y := by
    rintro y ⟨x, hx, g1, g2⟩ g3
    have hy : y < r ∨ r + S ≤ y := by
      rcases List.mem_append.1 hx with h | h
      · left; have := hf1 x h; omega
      · right; have := wpost x h; omega
    rw [write64_apply_ne _ _ _ _ (by omega)]
    refine free_block_update_found_frame _ _ _ _ _ _ _ (by rw [hu]; omega) ?_
    rcases g3 with g | g
    · left; subst g; rfl
    · right; exact g
  have hc := splice_chain s.mem _ pre post s.head r (r + (n + 8)) (S - (n + 8)) _ h1 hq
    (by simp only [NULL]; omega) (fun x hx => by have := hf1 x hx; omega)
    (fun y hy => by have := wpost y hy; omega)
    (well_formed_fields _ (well_formed_prefix_pairwise _ _ hwf)) hframe
    (by rw [read64_write64_ne _ _ _ _ (by omega)]; exact u1)
    (by rw [read64_write64_ne _ _ _ _ (by omega)]; exact u2)
    (fun hne1 => by
      have := last_addr_prev pre r hf1
      have hnn := last_addr_ne_null _ _ _ _ h1 hne1
      rw [read64_write64_ne _ _ _ _ (by omega)]
      exact (u3 hnn).1)
  refine ⟨_, hfound, ?_, read64_write64_same_lt _ _ _ (by omega)⟩
  simp only [free_list]
  by_cases hne1 : pre = []
  · rw [if_pos hne1] at hc
    rw [u4 (by subst hne1; rfl)]
    exact hc
  · rw [if_neg hne1] at hc
    rw [(u3 (last_addr_ne_null _ _ _ _ h1 hne1)).2]
    exact hc

/-! ## Release followed by allocation -/

/-- Unfolding of `hfree` when the header it reads fits in one page. -/
theorem hfree_single_page (s : State) (p fuel : Nat) (L : List (Nat × Nat))
    (hlist : free_list s L) (hfuel : L.length < fuel)
    (hp : 8 ≤ p) (hp2 : p < WORD)
    (hsz : read64 s.mem (p - 8) ≤ 4096) :
    hfree fuel s p = free_block_insert fuel
      { s with stats := { s.stats with
          free_length := L.length, chunks_freed := s.stats.chunks_freed + 1 } }
      (p - 8) (read64 s.mem (p - 8)) := by
  have hW := WORD_eq
  have hi : (p + (WORD - SIZEOF_SIZE_T)) % WORD = p - 8 := by
    simp only [SIZEOF_SIZE_T]
    rw [show p + (WORD - 8) = (p - 8) + WORD by omega, Nat.add_mod_right]
    exact Nat.mod_eq_of_lt (by omega)
  have hd : ¬ (div_up (read64 s.mem (p - 8)) PAGE_SIZE > 1) := by
    rw [div_up_page _ (read64_lt _ _)]; omega
  unfold hfree
  rw [free_list_length_ok s fuel L hlist hfuel]
  simp only [hi, hd, if_false]

/-- First-fit reuse: in a state whose well-formed free list has the node
`(a + e, t)` right behind the live block `[a, a + e)`, all earlier nodes being
too small for `e` and none of them ending at `a`, `hfree(a + 8)` followed by
`hmalloc(e - 8)` hands out `a + 8` again. -/
theorem free_then_malloc (s : State) (n loc fuel a t : Nat) (L1 R : List (Nat × Nat))
    (hlist : free_list s (L1 ++ (a + (n + 8), t) :: R))
    (hwf : well_formed (L1 ++ (a + (n + 8), t) :: R))
    (hhdr : read64 s.mem a = n + 8)
    (hn : 8 ≤ n) (hn2 : n + 8 ≤ 4096) (ha : a ≠ NULL)
    (hL1 : ∀ x ∈ L1, x.2 < n + 8 ∧ x.1 + x.2 < a)
    (hfuel : (L1 ++ (a + (n + 8), t) :: R).length < fuel) :
    ∃ s2 s3, hfree fuel s (a + 8) = .ok s2
      ∧ hmalloc fuel s2 n loc = .ok (a + 8, s3) := by
  have hW := WORD_eq
  obtain ⟨wpre, wt, wat, wR⟩ := well_formed_mid L1 R (a + (n + 8)) t hwf
  have hfree := hfree_single_page s (a + 8) fuel _ hlist hfuel (by omega) (by omega)
    (by rw [Nat.add_sub_cancel, hhdr]; exact hn2)
  rw [Nat.add_sub_cancel, hhdr] at hfree
  obtain ⟨s2, hs2, _, _, hl2, _⟩ := free_block_insert_spec
    { s with stats := { s.stats with
        free_length := (L1 ++ (a + (n + 8), t) :: R).length,
        chunks_freed := s.stats.chunks_freed + 1 } }
    a (n + 8) fuel L1 ((a + (n + 8), t) :: R) hlist hwf ha (by omega) (by omega)
    (fun x hx => (hL1 x hx).2)
    (fun y hy => by
      rcases List.mem_cons.1 hy with rfl | h
      · exact le_refl _
      · have := wR y h; omega)
    hfuel
  rw [hs2] at hfree
  simp only [insert_merge, if_true] at hl2
  obtain ⟨r, g1, g2, g3, g4, g5⟩ := (lseg_append _ _ _ _ _).1 hl2
  simp only at g2 g4
  subst g2
  have he : (n + SIZEOF_SIZE_T) % WORD = n + 8 := by
    simp only [SIZEOF_SIZE_T]; exact Nat.mod_eq_of_lt (by omega)
  have hap : (r + SIZEOF_SIZE_T) % WORD = r + 8 := by
    simp only [SIZEOF_SIZE_T]; exact Nat.mod_eq_of_lt (by omega)
  have hfound := hmalloc_found_prefix s2 n loc fuel r L1 g1 g3
    (fun x hx => by have := hL1 x hx; omega)
    (by rw [he]; exact fun x hx => (hL1 x hx).1)
    (by rw [he, g4]; omega)
    (by simp at hfuel; omega)
  rw [he, hap] at hfound
  exact ⟨s2, _, hfree, hfound⟩

/-! ## The single-page path of `hmalloc` -/

theorem well_formed_insert (a t : Nat) (L1 R : List (Nat × Nat))
    (h1 : well_formed (L1 ++ R)) (ht : 16 ≤ t) (hat : a + t < WORD)
    (hL1 : ∀ x ∈ L1, x.1 + x.2 < a) (hR : ∀ y ∈ R, a + t < y.1) :
    well_formed (L1 ++ (a, t) :: R) := by
  obtain ⟨hp, hs⟩ := h1
  rw [List.pairwise_append] at hp
  refine ⟨?_, ?_⟩
  · rw [List.pairwise_append, List.pairwise_cons]
    refine ⟨hp.1, ⟨fun y hy => hR y hy, hp.2.1⟩, ?_⟩
    intro x hx y hy
    rcases List.mem_cons.1 hy with rfl | h
    · exact hL1 x hx
    · exact hp.2.2 x hx y h
  · intro x hx
    rcases List.mem_append.1 hx with h | h
    · exact hs x (by simp [h])
    · rcases List.mem_cons.1 h with rfl | h
      · exact ⟨ht, hat⟩
      · exact hs x (by simp [h])

/-- The nodes `insert_merge` produces start with a node at `a`, and the list
stays well-formed. -/
theorem insert_merge_form (a sz : Nat) (L1 L2 : List (Nat × Nat))
    (hwf : well_formed (L1 ++ L2)) (hsz : 16 ≤ sz) (haw : a + sz < WORD)
    (hL1 : ∀ x ∈ L1, x.1 + x.2 < a) (hL2 : ∀ y ∈ L2, a + sz ≤ y.1) :
    ∃ t R, insert_merge a sz L2 = (a, t) :: R ∧ sz ≤ t ∧ R.length ≤ L2.length
      ∧ well_formed (L1 ++ (a, t) :: R) := by
  cases L2 with
  | nil => exact ⟨sz, [], rfl, le_refl _, le_refl _, well_formed_insert a sz L1 [] hwf hsz haw hL1 (by simp)⟩
  | cons bb R0 =>
    obtain ⟨b, sb⟩ := bb
    obtain ⟨w1, w2⟩ := well_formed_append _ _ hwf
    have hb := w2.2 (b, sb) (by simp)
    simp only at hb
    have hpw := w2.1
    rw [List.pairwise_cons] at hpw
    have hab := hL2 (b, sb) (by simp)
    simp only at hab
    simp only [insert_merge]
    by_cases hm : a + sz = b
    · rw [if_pos hm]
      refine ⟨sz + sb, R0, rfl, by omega, by simp, ?_⟩
      refine well_formed_insert a (sz + sb) L1 R0 ?_ (by omega) (by omega) hL1 ?_
      · obtain ⟨hp, hs⟩ := hwf
        rw [List.pairwise_append] at hp
        refine ⟨?_, fun x hx => hs x ?_⟩
        · rw [List.pairwise_append]
          exact ⟨hp.1, hpw.2, fun x hx y hy => hp.2.2 x hx y (List.mem_cons_of_mem _ hy)⟩
        · rcases List.mem_append.1 hx with h | h
          · simp [h]
          · simp [h]
      · intro y hy
        have := hpw.1 y hy
        simp only at this
        omega
    · rw [if_neg hm]
      refine ⟨sz, (b, sb) :: R0, rfl, le_refl _, le_refl _, ?_⟩
      refine well_formed_insert a sz L1 ((b, sb) :: R0) hwf hsz haw hL1 ?_
      intro y hy
      rcases List.mem_cons.1 hy with rfl | h
      · simp only; omega
      · have := hpw.1 y h
        simp only at this
        omega

/-- The free list after `hmalloc(n)` has mapped one fresh page at `loc` that
lies above the blocks of `L1` and below the nodes of `L2`, when the tail of
the page can hold a node. -/
theorem hmalloc_fresh_chain (s : State) (n loc fuel : Nat) (L1 L2 : List (Nat × Nat))
    (hlist : free_list s (L1 ++ L2))
    (hwf : well_formed (L1 ++ L2))
    (hnofit : ∀ x ∈ L1 ++ L2, x.2 < n + 8)
    (hn2 : n + 8 + 16 ≤ 4096)
    (hloc : loc + 4096 < WORD)
    (hL1 : ∀ x ∈ L1, x.1 + x.2 ≤ loc) (hL2 : ∀ y ∈ L2, loc + 4096 ≤ y.1)
    (hfuel : (L1 ++ L2).length < fuel) :
    ∃ s1, hmalloc fuel s n loc = .ok (loc + 8, s1)
      ∧ free_list s1 (L1 ++ insert_merge (loc + (n + 8)) (4096 - (n + 8)) L2)
      ∧ read64 s1.mem loc = n + 8
      ∧ s1.stats.pages_mapped = s.stats.pages_mapped + 1 := by
  have hW := WORD_eq
  obtain ⟨w1, w2⟩ := well_formed_append _ _ hwf
  have he : (n + SIZEOF_SIZE_T) % WORD = n + 8 := by
    simp only [SIZEOF_SIZE_T]; exact Nat.mod_eq_of_lt (by omega)
  have hl : (loc + SIZEOF_SIZE_T) % WORD = loc + 8 := by
    simp only [SIZEOF_SIZE_T]; exact Nat.mod_eq_of_lt (by omega)
  have hmf : loc ≠ MAP_FAILED := by simp only [MAP_FAILED]; omega
  have hk : (n + 8 + 4095) / 4096 = 1 := by omega
  have hss : 1 * PAGE_SIZE % WORD = 4096 := by simp [PAGE_SIZE, WORD]
  have hlocn : (loc + (n + 8)) % WORD = loc + (n + 8) := Nat.mod_eq_of_lt (by omega)
  have hsz : (4096 + (WORD - (n + 8))) % WORD = 4096 - (n + 8) := by
    rw [show 4096 + (WORD - (n + 8)) = (4096 - (n + 8)) + WORD by omega, Nat.add_mod_right]
    exact Nat.mod_eq_of_lt (by omega)
  have hfresh : ∀ x ∈ L1 ++ L2, x.1 + 16 ≤ loc ∨ loc + 4096 ≤ x.1 := by
    intro x hx
    rcases List.mem_append.1 hx with h | h
    · left; have := hL1 x h; have := (w1.2 x h).1; omega
    · right; exact hL2 x h
  rw [hmalloc_nofit s n loc fuel _ hlist (by rw [he]; exact hnofit) hfuel, he]
  simp only [hmalloc_fresh, div_up_page _ (show n + 8 < WORD by omega), hk, hmf, if_false,
    hl, mmap, hss, if_true, hlocn, hsz]
  have hl1 : free_list
      { mem := write64 (zero_fill s.mem loc 4096) loc (n + 8),
        head := s.head,
        stats := { s.stats with
          chunks_allocated := s.stats.chunks_allocated + 1,
          pages_mapped := s.stats.pages_mapped + ((1 : Nat) : Int) },
        calls := SysCall.mmap 4096 loc :: s.calls }
      (L1 ++ L2) :=
    (free_list_fresh _ _ _ _ loc 4096 _ _ (le_refl _) (by omega) hfresh).2 hlist
  obtain ⟨s4, h4, hst, _, hl4, hframe⟩ := free_block_insert_spec _ (loc + (n + 8))
    (4096 - (n + 8)) fuel L1 L2 hl1 hwf (by simp only [NULL]; omega) (by omega) (by omega)
    (fun x hx => by have := hL1 x hx; omega)
    (fun y hy => by have := hL2 y hy; omega) hfuel
  rw [h4]
  refine ⟨s4, rfl, hl4, ?_, ?_⟩
  · rw [read64_congr _ _ loc (fun y g1 g2 => hframe y (by omega)
      (fun x hx => by have := hfresh x hx; omega))]
    exact read64_write64_same_lt _ _ _ (by omega)
  · rw [hst]; simp

/-! ## Round trip -/

theorem well_formed_shrink (pre post : List (Nat × Nat)) (a S e : Nat)
    (h : well_formed (pre ++ (a, S) :: post)) (he : e + 16 ≤ S) :
    well_formed (pre ++ (a + e, S - e) :: post) := by
  obtain ⟨wpre, wS, waS, wpost⟩ := well_formed_mid pre post a S h
  obtain ⟨hp, hs⟩ := h
  rw [List.pairwise_append, List.pairwise_cons] at hp
  refine ⟨?_, ?_⟩
  · rw [List.pairwise_append, List.pairwise_cons]
    refine ⟨hp.1, ⟨fun y hy => ?_, hp.2.1.2⟩, ?_⟩
    · have := wpost y hy
      simp only
      omega
    · intro x hx y hy
      rcases List.mem_cons.1 hy with rfl | h
      · have := wpre x hx
        simp only
        omega
      · exact hp.2.2 x hx y (List.mem_cons_of_mem _ h)
  · intro x hx
    rcases List.mem_append.1 hx with h | h
    · exact hs x (by simp [h])
    · rcases List.mem_cons.1 h with rfl | h
      · simp only; omega
      · exact hs x (by simp [h])

/-- A well-formed list none of whose nodes meets the region `[loc, loc + len)`
splits into the nodes below the region and the nodes above it. -/
theorem split_at_region (loc len : Nat) (L : List (Nat × Nat)) (hwf : well_formed L)
    (h : ∀ x ∈ L, x.1 + x.2 < loc ∨ loc + len ≤ x.1) :
    ∃ L1 L2, L = L1 ++ L2 ∧ (∀ x ∈ L1, x.1 + x.2 < loc) ∧ (∀ y ∈ L2, loc + len ≤ y.1) := by
  induction L with
  | nil => exact ⟨[], [], rfl, by simp, by simp⟩
  | cons x L ih =>
    obtain ⟨hp, hs⟩ := hwf
    rw [List.pairwise_cons] at hp
    by_cases hx : loc + len ≤ x.1
    · refine ⟨[], x :: L, rfl, by simp, ?_⟩
      intro y hy
      rcases List.mem_cons.1 hy with rfl | hy
      · exact hx
      · have := hp.1 y hy; omega
    · obtain ⟨L1, L2, e, g1, g2⟩ := ih ⟨hp.2, fun z hz => hs z (List.mem_cons_of_mem _ hz)⟩
        (fun z hz => h z (List.mem_cons_of_mem _ hz))
      refine ⟨x :: L1, L2, by rw [e]; rfl, ?_, g2⟩
      intro z hz
      rcases List.mem_cons.1 hz with rfl | hz
      · have := h z (List.mem_cons_self _ _); omega
      · exact g1 z hz

/-- C3 (amended). Round trip.  In a state with a well-formed free list `L`,
for a request `n ≥ 8` whose block fits in one page, suppose `p = hmalloc(n)` is
served either (A) from the first fitting node `(a, S)` of `L`, whose remainder
`S - (n + 8)` can hold a node (when that node is the last one, the bytes that
become the `next` field of the remainder are zero), or (B) from one fresh page
at `loc` that meets no block of `L`, is not touched from below by a node of
`L`, and whose tail `4096 - (n + 8)` can hold a node.  Then `hfree(p)`
followed by `hmalloc(n)` returns `p` again. -/
theorem C3_round_trip (s : State) (n loc loc2 fuel : Nat) (L : List (Nat × Nat))
    (hlist : free_list s L) (hwf : well_formed L) (hn : 8 ≤ n) (hn2 : n + 8 ≤ 4096)
    (hcase :
      (∃ pre a S post, L = pre ++ (a, S) :: post ∧ (∀ x ∈ pre, x.2 < n + 8)
        ∧ n + 8 + 16 ≤ S ∧ (post = [] → read64 s.mem (a + (n + 8) + 8) = 0))
      ∨ ((∀ x ∈ L, x.2 < n + 8) ∧ n + 8 + 16 ≤ 4096 ∧ loc ≠ NULL ∧ loc + 4096 < WORD
        ∧ ∀ x ∈ L, x.1 + x.2 < loc ∨ loc + 4096 ≤ x.1))
    (hfuel : L.length + 1 < fuel) :
    ∃ p s1 s2 s3, hmalloc fuel s n loc = .ok (p, s1)
      ∧ hfree fuel s1 p = .ok s2
      ∧ hmalloc fuel s2 n loc2 = .ok (p, s3) := by
  rcases hcase with ⟨pre, a, S, post, hL, hpre, hrem, hstale⟩ | ⟨hno, htail, hloc0, hloc, hreg⟩
  · subst hL
    obtain ⟨wpre, wS, waS, wpost⟩ := well_formed_mid pre post a S hwf
    obtain ⟨s1, h1, hl1, hh1⟩ := hmalloc_found_chain s n loc fuel a S pre post hlist hwf hpre
      hrem hstale (by simp at hfuel; omega)
    have ha : a ≠ NULL := ((lseg_size _ _ _ _ hlist) (a, S) (by simp)).1
    obtain ⟨s2, s3, h2, h3⟩ := free_then_malloc s1 n loc2 fuel a (S - (n + 8)) pre post hl1
      (well_formed_shrink pre post a S (n + 8) hwf hrem) hh1 hn hn2 ha
      (fun x hx => ⟨hpre x hx, (wpre x hx).2⟩) (by simp at hfuel ⊢; omega)
    exact ⟨a + 8, s1, s2, s3, h1, h2, h3⟩
  · obtain ⟨L1, L2, hL, g1, g2⟩ := split_at_region loc 4096 L hwf hreg
    subst hL
    obtain ⟨s1, h1, hl1, hh1, _⟩ := hmalloc_fresh_chain s n loc fuel L1 L2 hlist hwf hno htail
      hloc (fun x hx => by have := g1 x hx; omega) g2 (by omega)
    have hW := WORD_eq
    obtain ⟨t, R, hm, _, hlen, hwf2⟩ := insert_merge_form (loc + (n + 8)) (4096 - (n + 8))
      L1 L2 hwf (by omega) (by omega) (fun x hx => by have := g1 x hx; omega)
      (fun y hy => by have := g2 y hy; omega)
    rw [hm] at hl1
    obtain ⟨s2, s3, h2, h3⟩ := free_then_malloc s1 n loc2 fuel loc t L1 R hl1 hwf2 hh1 hn hn2
      hloc0 (fun x hx => ⟨hno x (by simp [hx]), g1 x hx⟩) (by simp at hfuel ⊢; omega)
    exact ⟨loc + 8, s1, s2, s3, h1, h2, h3⟩

/-! ## The code at concrete inputs -/

/-- Following `next` from the head of a finite chain yields the chain. -/
theorem walk_of_lseg (m : Mem) (k : Nat) :
    ∀ (L : List (Nat × Nat)) (p : Nat), lseg m L p NULL → walk m k p = L.take k := by
  induction k with
  | zero => intro L p _; simp [walk]
  | succ k ih =>
    intro L p h
    cases L with
    | nil =>
      have hp : p = NULL := h
      simp [walk, hp]
    | cons x L =>
      obtain ⟨h1, h2, h3, h4⟩ := h
      simp only [walk, h2, if_false, List.take_succ_cons]
      rw [ih L _ h4, h3, h1]

/-- C1 (code evaluated at the failing input). Three blocks of 24 bytes are
allocated from one page, released, and allocated again.  Every `hfree`
released a live pointer and the page provider was asked once.  After the ninth
call the node at `0x10060` is its own successor, so the state has no free list
that is a strictly ascending sequence of nodes. -/
theorem C1_free_list_cycle :
    valid_use 20 stale_next_ops ⟨empty zero_mem, [], []⟩ = true
    ∧ final_calls (run_empty 20 stale_next_ops zero_mem) = some [SysCall.mmap 4096 0x10000]
    ∧ final_walk 2 (run_empty 20 stale_next_ops zero_mem)
        = some [(0x10060, 4000), (0x10060, 4000)]
    ∧ final_ok (fun s => ¬ ∃ L, free_list s L ∧ ascending L)
        (run_empty 20 stale_next_ops zero_mem) := by
  have hw : final_walk 2 (run_empty 20 stale_next_ops zero_mem)
      = some [(0x10060, 4000), (0x10060, 4000)] := by decide
  refine ⟨by decide, by decide, hw, ?_⟩
  revert hw
  generalize run_empty 20 stale_next_ops zero_mem = r
  intro hw
  cases r with
  | error e => simp [final_walk] at hw
  | ok r =>
    simp only [final_walk, Option.some.injEq] at hw
    show ¬ ∃ L, free_list r.st L ∧ ascending L
    rintro ⟨L, hL, hasc⟩
    have h2 := walk_of_lseg _ 2 L _ hL
    rw [hw] at h2
    match L, h2, hasc with
    | x :: y :: L1, h2, hasc =>
      simp only [List.take_succ_cons, List.take_zero, List.cons.injEq, and_true] at h2
      obtain ⟨e1, e2⟩ := h2
      subst e1 e2
      simp [ascending] at hasc
    | [_], h2, _ => simp at h2
    | [], h2, _ => simp at h2

/-- C2 (code evaluated at the failing input). After the seventh call of the
same run the free list is exactly the two nodes `(0x10020, 4064)` and
`(0x10060, 4000)`, whose byte ranges overlap. -/
theorem C2_overlapping_free_nodes :
    valid_use 20 (stale_next_ops.take 7) ⟨empty zero_mem, [], []⟩ = true
    ∧ final_ok (fun s => free_list s [(0x10020, 4064), (0x10060, 4000)])
        (run_empty 20 (stale_next_ops.take 7) zero_mem)
    ∧ overlap (0x10020, 4064) (0x10060, 4000) := by
  refine ⟨by decide, by decide, ?_⟩
  simp [overlap]

/-- C3 (counterexample). A page at `0x1000` holds a block of 3008 bytes and a
free tail that ends at `0x2000`.  `p = hmalloc(2000)` maps the adjacent page
`0x2000` and returns `0x2008`; `hfree(p)` merges the block with the tail of the
first page; the next `hmalloc(2000)` returns `0x1bc8`, not `p`.  Every `hfree`
released a live pointer and the two pages are aligned and disjoint. -/
theorem C3_counterexample :
    valid_use 20 [.malloc 3000 0x1000, .malloc 2000 0x2000, .free 0x2008, .malloc 2000 0x3000]
      ⟨empty zero_mem, [], []⟩ = true
    ∧ final_rets (run_empty 20
        [.malloc 3000 0x1000, .malloc 2000 0x2000, .free 0x2008, .malloc 2000 0x3000] zero_mem)
        = some [0x1bc8, 0x2008, 0x1008]
    ∧ final_calls (run_empty 20
        [.malloc 3000 0x1000, .malloc 2000 0x2000, .free 0x2008, .malloc 2000 0x3000] zero_mem)
        = some [SysCall.mmap 4096 0x2000, SysCall.mmap 4096 0x1000]
    ∧ provider_ok [SysCall.mmap 4096 0x2000, SysCall.mmap 4096 0x1000] = true
    ∧ (0x1bc8 : Nat) ≠ 0x2008 := by
  refine ⟨by decide, by decide, by decide, by decide, by decide⟩

/-- C4 (counterexample). For `n = 2^64 - 1` the effective size wraps to 7:
`hmalloc(n)` maps one page at `0x10000`, returns `0x10008`, and the header word
at `0x10000` ends up as `0xf900000000000007` (the tail node written at
`0x10007` overlaps it).  That is neither `n + 8` nor `(n + 8) mod 2^64`, and
the header minus 8 is below `n`. -/
theorem C4_counterexample :
    final_rets (run_empty 20 [.malloc (2 ^ 64 - 1) 0x10000] zero_mem) = some [0x10008]
    ∧ final_read 0x10000 (run_empty 20 [.malloc (2 ^ 64 - 1) 0x10000] zero_mem)
        = some 0xf900000000000007
    ∧ (0xf900000000000007 : Nat) ≠ (2 ^ 64 - 1 + 8) % 2 ^ 64
    ∧ (0xf900000000000007 : Nat) - 8 < 2 ^ 64 - 1 := by
  refine ⟨by decide, by decide, by decide, by decide⟩

/-- C6 (code evaluated at the failing input). With `a = 0`, `b = 200`,
`c = 100` the blocks `A = 0x10008` and `B = 0x10010` are carved from one page
and `c + 8 ≤ (a + 8) + (b + 8)`.  `hfree(A)` writes the `next` field of its
node over the header of `B`, `hfree(B)` then takes `B` for a multi-page block
and calls `munmap`, and `C = hmalloc(c)` is `0x100e0`, not `A`. -/
theorem C6_tiny_block_not_reused :
    valid_use 20 [.malloc 0 0x10000, .malloc 200 0, .free 0x10008, .free 0x10010, .malloc 100 0]
      ⟨empty zero_mem, [], []⟩ = true
    ∧ final_rets (run_empty 20
        [.malloc 0 0x10000, .malloc 200 0, .free 0x10008, .free 0x10010, .malloc 100 0]
        zero_mem) = some [0x100e0, 0x10010, 0x10008]
    ∧ final_calls (run_empty 20
        [.malloc 0 0x10000, .malloc 200 0, .free 0x10008, .free 0x10010, .malloc 100 0]
        zero_mem) = some [SysCall.munmap 0x10008 0x100d8, SysCall.mmap 4096 0x10000]
    ∧ (0x100e0 : Nat) ≠ 0x10008 := by
  refine ⟨by decide, by decide, by decide, by decide⟩

/-- C7 (counterexample). For `n = 2^64 - 1` the page count
`ceil((n + 8) / 4096)` is at least 2 and the empty free list has no node of
size `≥ n + 8`, yet `hmalloc(n)` adds 1 to `pages_mapped` and the free list,
empty before, becomes the node `(0x10007, 4089)`. -/
theorem C7_counterexample :
    2 ≤ (2 ^ 64 - 1 + 8 + 4095) / 4096
    ∧ free_list (empty zero_mem) []
    ∧ final_stats (run_empty 20 [.malloc (2 ^ 64 - 1) 0x10000] zero_mem)
        = some ⟨1, 0, 1, 0, 0⟩
    ∧ final_ok (fun s => free_list s [(0x10007, 4089)])
        (run_empty 20 [.malloc (2 ^ 64 - 1) 0x10000] zero_mem) := by
  refine ⟨by decide, by decide, by decide, by decide⟩

/-- C8 (code evaluated at the failing input). On the empty allocator
`hmalloc(4096 - 8)` maps one page at `0x10000` and then calls
`free_block_insert(0x11000, 0)`: the free list, empty before, afterwards is
one node of size 0 at the first byte past the page. -/
theorem C8_zero_size_node :
    free_list (empty zero_mem) []
    ∧ final_ok (fun s => free_list s [(0x11000, 0)])
        (run_empty 20 [.malloc (4096 - 8) 0x10000] zero_mem)
    ∧ final_calls (run_empty 20 [.malloc (4096 - 8) 0x10000] zero_mem)
        = some [SysCall.mmap 4096 0x10000] := by
  refine ⟨by decide, by decide, by decide⟩

/-- C9 (code evaluated at the failing input). One request `n_1 = 0` served
from a fresh page at `0x10000` and released: `chunks_allocated = chunks_freed
= 1`, but the free list is the single node `(0x10000, 0x10010)`, not
`(0x10000, 4096)`: the `next` field of the 8-byte block was written over the
size of the tail node before the two were merged. -/
theorem C9_tiny_block_corrupts_size :
    valid_use 20 [.malloc 0 0x10000, .free 0x10008] ⟨empty zero_mem, [], []⟩ = true
    ∧ final_stats (run_empty 20 [.malloc 0 0x10000, .free 0x10008] zero_mem)
        = some ⟨1, 0, 1, 1, 1⟩
    ∧ final_ok (fun s => free_list s [(0x10000, 0x10010)])
        (run_empty 20 [.malloc 0 0x10000, .free 0x10008] zero_mem)
    ∧ ¬ final_ok (fun s => free_list s [(0x10000, 4096)])
        (run_empty 20 [.malloc 0 0x10000, .free 0x10008] zero_mem) := by
  refine ⟨by decide, by decide, by decide, by decide⟩

/-- C10 (counterexample). `hmalloc(5000)` maps two pages: `mmap` is asked for
8192 bytes and answers `0x10000`.  The following `hfree` calls
`munmap(0x10000, 5008)`: the address is the one `mmap` returned, the byte count
is the header value, not 8192. -/
theorem C10_counterexample :
    final_calls (run_empty 20 [.malloc 5000 0x10000, .free 0x10008] zero_mem)
        = some [SysCall.munmap 0x10000 5008, SysCall.mmap 8192 0x10000]
    ∧ (5008 : Nat) ≠ 2 * 4096 := by
  refine ⟨by decide, by decide⟩

/-- C11 (code evaluated at the failing input). The page provider hands out the
adjacent pages `0x1000` and `0x2000`.  After the third call the free list is
the single node `(0x1bc0, 5184)`, which spans both pages.  `hmalloc(5000)`,
effective size 5008, is carved out of that node: it returns `0x1bc8` and
`mmap` is not called.  The following `hfree` hands `munmap` the address
`0x1bc0`, which no `mmap` call returned. -/
theorem C11_multi_page_block_from_free_list :
    valid_use 20 cross_page_ops ⟨empty zero_mem, [], []⟩ = true
    ∧ final_ok (fun s => free_list s [(0x1bc0, 5184)])
        (run_empty 20 (cross_page_ops.take 3) zero_mem)
    ∧ final_rets (run_empty 20 (cross_page_ops.take 4) zero_mem)
        = some [0x1bc8, 0x2008, 0x1008]
    ∧ final_calls (run_empty 20 (cross_page_ops.take 4) zero_mem)
        = some [SysCall.mmap 4096 0x2000, SysCall.mmap 4096 0x1000]
    ∧ final_calls (run_empty 20 cross_page_ops zero_mem)
        = some [SysCall.munmap 0x1bc0 5008, SysCall.mmap 4096 0x2000, SysCall.mmap 4096 0x1000]
    ∧ provider_ok [SysCall.mmap 4096 0x2000, SysCall.mmap 4096 0x1000] = true := by
  refine ⟨by decide, by decide, by decide, by decide, by decide, by decide⟩

/-- C13 (code evaluated at the failing input). After the first six calls of
the run `stale_next_ops` the free list is the single node `(0x10000, 4096)`
with no successor.  `free_block_update(0x10000, 32)` leaves the node
`(0x10020, 4064)` followed by a node at `0x10060`: the `next` field of the
replacement node is not the old successor (none) but the bytes that lay at
`0x10028` before the call. -/
theorem C13_stale_successor :
    final_ok (fun s => free_list s [(0x10000, 4096)])
      (run_empty 20 (stale_next_ops.take 6) zero_mem)
    ∧ final_read 0x10028 (run_empty 20 (stale_next_ops.take 6) zero_mem) = some 0x10060
    ∧ final_ok (fun s => result_ok (fun s1 => free_list s1 [(0x10020, 4064), (0x10060, 4000)])
        (free_block_update 20 s 0x10000 32))
      (run_empty 20 (stale_next_ops.take 6) zero_mem)
    ∧ ¬ final_ok (fun s => result_ok (fun s1 => free_list s1 [(0x10020, 4064)])
        (free_block_update 20 s 0x10000 32))
      (run_empty 20 (stale_next_ops.take 6) zero_mem) := by
  refine ⟨by decide, by decide, by decide, by decide⟩

/-- C14 (counterexample). After `hmalloc(0)` on the empty allocator the free
list is the single node `(0x10008, 4088)`, well-formed, and the block
`[0x10000, 0x10008)` is disjoint from it.  `free_block_insert(0x10000, 8)`
leaves the single node `(0x10000, 0x10010)`: the sum of the node sizes grew
from 4088 to 65552, not by 8. -/
theorem C14_counterexample :
    final_ok (fun s => free_list s [(0x10008, 4088)])
      (run_empty 20 [.malloc 0 0x10000] zero_mem)
    ∧ final_ok (fun s => result_ok (fun s1 => free_list s1 [(0x10000, 0x10010)])
        (free_block_insert 20 s 0x10000 8))
      (run_empty 20 [.malloc 0 0x10000] zero_mem)
    ∧ (0x10010 : Nat) ≠ 4088 + 8 := by
  refine ⟨by decide, by decide, by decide⟩

/-- C17 (code evaluated at the failing input). Two runs in which a call
changes the header of a live block it was not given.  (a) `A = hmalloc(0)`,
`B = hmalloc(200)`: the header of `B` at `0x10008` holds 208; `hfree(A)`, an
8-byte block, leaves `0x100d8` there while `B` is still live.  (b) Three
blocks of 24 bytes, the middle one released: `hmalloc(24)` consumes the
32-byte free node exactly, and the header at `0x10040` of the live third block
goes from 32 to 0. -/
theorem C17_live_header_overwritten :
    final_read 0x10008 (run_empty 20 [.malloc 0 0x10000, .malloc 200 0] zero_mem) = some 208
    ∧ final_read 0x10008 (run_empty 20 [.malloc 0 0x10000, .malloc 200 0, .free 0x10008] zero_mem)
        = some 0x100d8
    ∧ final_live (run_empty 20 [.malloc 0 0x10000, .malloc 200 0, .free 0x10008] zero_mem)
        = some [0x10010]
    ∧ final_read 0x10040 (run_empty 20
        [.malloc 24 0x10000, .malloc 24 0, .malloc 24 0, .free 0x10028] zero_mem) = some 32
    ∧ final_ok (fun s => free_list s [(0x10020, 32), (0x10060, 4000)]) (run_empty 20
        [.malloc 24 0x10000, .malloc 24 0, .malloc 24 0, .free 0x10028] zero_mem)
    ∧ final_read 0x10040 (run_empty 20
        [.malloc 24 0x10000, .malloc 24 0, .malloc 24 0, .free 0x10028, .malloc 24 0] zero_mem)
        = some 0
    ∧ final_live (run_empty 20
        [.malloc 24 0x10000, .malloc 24 0, .malloc 24 0, .free 0x10028, .malloc 24 0] zero_mem)
        = some [0x10028, 0x10048, 0x10008] := by
  refine ⟨by decide, by decide, by decide, by decide, by decide, by decide, by decide⟩

/-- C18 (code evaluated at the failing input). `hmalloc(4080)` on the empty
allocator maps one page at `0x10000` and puts its 8-byte tail on the free
list: the node `(0x10ff8, 8)` is smaller than the 16 bytes of its own fields,
and its `next` field lies past the end of the page. -/
theorem C18_node_smaller_than_its_fields :
    final_ok (fun s => free_list s [(0x10ff8, 8)])
      (run_empty 20 [.malloc 4080 0x10000] zero_mem)
    ∧ final_calls (run_empty 20 [.malloc 4080 0x10000] zero_mem)
        = some [SysCall.mmap 4096 0x10000]
    ∧ (8 : Nat) < 16 ∧ 0x10000 + 4096 ≤ next_at 0x10ff8 := by
  refine ⟨by decide, by decide, by decide, by decide⟩

/-! ## When `free_block_update` fails -/

/-- A list splits at the first node that starts at `addr`, if there is one. -/
theorem first_at_split (addr : Nat) (L : List (Nat × Nat)) :
    (∀ x ∈ L, x.1 ≠ addr) ∨
    ∃ pre S post, L = pre ++ (addr, S) :: post ∧ ∀ x ∈ pre, x.1 ≠ addr := by
  induction L with
  | nil => left; simp
  | cons x L ih =>
    by_cases hx : x.1 = addr
    · right
      exact ⟨[], x.2, L, by rw [← hx]; rfl, by simp⟩
    · rcases ih with h | ⟨pre, S, post, h1, h2⟩
      · left
        intro z hz
        rcases List.mem_cons.1 hz with rfl | hz
        · exact hx
        · exact h z hz
      · right
        refine ⟨x :: pre, S, post, by rw [h1]; rfl, ?_⟩
        intro z hz
        rcases List.mem_cons.1 hz with rfl | hz
        · exact hx
        · exact h2 z hz

/-- C12. On a finite free list `L`, `free_block_update(addr, c)` ends in the
fatal error exactly when no node of `L` starts at `addr`.  In that case the
loop has walked the whole list and reaches the exit with the memory and the
`head` it started with (nothing was stored).  Whenever a node starts at
`addr`, the call returns. -/
theorem C12_update_fatal_iff (s : State) (addr c fuel : Nat) (L : List (Nat × Nat))
    (hlist : free_list s L) (hfuel : L.length < fuel) :
    (free_block_update fuel s addr c = .error .exit_failure ↔ ∀ x ∈ L, x.1 ≠ addr)
    ∧ ((∀ x ∈ L, x.1 ≠ addr) →
        free_block_update_loop addr c fuel s.mem s.head s.head NULL
          = free_block_update_loop addr c (fuel - L.length) s.mem s.head NULL
              (last_addr NULL L))
    ∧ ((∃ x ∈ L, x.1 = addr) → ∃ s1, free_block_update fuel s addr c = .ok s1) := by
  obtain ⟨k, hk⟩ : ∃ k, fuel = L.length + (k + 1) := ⟨fuel - L.length - 1, by omega⟩
  have hskip : (∀ x ∈ L, x.1 ≠ addr) →
      free_block_update_loop addr c fuel s.mem s.head s.head NULL
        = free_block_update_loop addr c (k + 1) s.mem s.head NULL (last_addr NULL L) := by
    intro h
    rw [hk]
    exact free_block_update_loop_skip addr c s.mem s.head L s.head NULL (k + 1) NULL hlist h
  have herr : (∀ x ∈ L, x.1 ≠ addr) → free_block_update fuel s addr c = .error .exit_failure := by
    intro h
    unfold free_block_update
    rw [hskip h]
    simp [free_block_update_loop]
  have hok : (∃ x ∈ L, x.1 = addr) → ∃ s1, free_block_update fuel s addr c = .ok s1 := by
    rintro ⟨x, hx, hxa⟩
    rcases first_at_split addr L with h | ⟨pre, S, post, hL, hpre⟩
    · exact absurd hxa (h x hx)
    · subst hL
      obtain ⟨r, h1, h2, h3, _, _⟩ := (lseg_append _ _ _ _ _).1 hlist
      simp only at h2
      subst h2
      obtain ⟨j, hj⟩ : ∃ j, fuel = pre.length + (j + 1) :=
        ⟨fuel - pre.length - 1, by simp at hfuel; omega⟩
      unfold free_block_update
      rw [hj, free_block_update_loop_skip r c s.mem s.head pre s.head r (j + 1) NULL h1 hpre]
      simp only [free_block_update_loop, h3, ne_eq, not_false_eq_true, if_true]
      exact ⟨_, rfl⟩
  refine ⟨⟨?_, herr⟩, ?_, hok⟩
  · intro he x hx hxa
    obtain ⟨s1, hs1⟩ := hok ⟨x, hx, hxa⟩
    rw [hs1] at he
    exact absurd he (by simp)
  · intro h
    rw [hskip h]
    congr 1
    omega

/-! ## Rounding up -/

/-- C16. For all 64-bit values `x` and `y` with `y > 0`, `div_up x y` is the
ceiling of `x / y`: it is the least `z` with `z * y ≥ x`.  The intermediate
product `zz * yy` is at most `x`, so it is not reduced modulo `2^64`, and
neither is the result.  Consequently the page count `hmalloc` computes for an
effective size `e` is the page count `hfree` computes from the header word
that `hmalloc` stored. -/
theorem C16_div_up_ceiling (x y : Nat) (hx : x < WORD) (hy0 : 0 < y) :
    x ≤ div_up x y * y
    ∧ (∀ z, x ≤ z * y → div_up x y ≤ z)
    ∧ x / y * y ≤ x
    ∧ x / y * y % WORD = x / y * y
    ∧ div_up x y < WORD
    ∧ ∀ (m : Mem) (loc : Nat),
        div_up (read64 (write64 m loc x) loc) PAGE_SIZE = div_up x PAGE_SIZE := by
  have hW := WORD_eq
  have hle : x / y * y ≤ x := Nat.div_mul_le_self x y
  have hmod : x / y * y % WORD = x / y * y := Nat.mod_eq_of_lt (by omega)
  have hlt : x < (x / y + 1) * y := by
    have := Nat.lt_succ_self (x / y)
    exact (Nat.div_lt_iff_lt_mul hy0).1 this
  have hzz : x / y ≤ x := Nat.div_le_self x y
  have hval : div_up x y = if x / y * y = x then x / y else x / y + 1 := by
    unfold div_up
    simp only [hmod]
    split_ifs with h
    · rfl
    · apply Nat.mod_eq_of_lt
      rcases Nat.lt_or_ge (x / y + 1) WORD with h1 | h1
      · exact h1
      · exfalso
        have hxy : x / y = x := by omega
        have hy1 : y = 1 := by
          rcases Nat.lt_or_ge 1 y with h2 | h2
          · have : x / y * 2 ≤ x / y * y := Nat.mul_le_mul_left _ h2
            have hx0 : 0 < x := by
              rcases Nat.eq_zero_or_pos x with h0 | h0
              · rw [h0] at h; simp at h
              · exact h0
            omega
          · omega
        rw [hy1] at h
        simp at h
  refine ⟨?_, ?_, hle, hmod, ?_, ?_⟩
  · rw [hval]
    split_ifs with h
    · omega
    · omega
  · intro z hz
    rw [hval]
    split_ifs with h
    · -- x / y ≤ z
      exact (Nat.div_le_iff_le_mul_add_pred hy0).2 (by
        have : z * y ≤ y * z + (y - 1) := by rw [Nat.mul_comm]; omega
        omega)
    · have hne : x / y * y < x := lt_of_le_of_ne hle h
      by_contra hcon
      have hz2 : z ≤ x / y := by omega
      have : z * y ≤ x / y * y := Nat.mul_le_mul_right _ hz2
      omega
  · rw [hval]
    split_ifs with h
    · omega
    · have hne : x / y * y < x := lt_of_le_of_ne hle h
      have hy : 1 ≤ y := hy0
      have : x / y * 1 ≤ x / y * y := Nat.mul_le_mul_left _ hy
      omega
  · intro m loc
    rw [read64_write64_same_lt _ _ _ hx]

/-! ## Coalescing against its reference definition -/

theorem write64_congr_mod (m : Mem) (a v w : Nat) (h : v % WORD = w % WORD) :
    write64 m a v = write64 m a w := by
  funext x
  unfold write64
  split_ifs with c
  · obtain ⟨i, hi⟩ : ∃ i, x - a = i := ⟨_, rfl⟩
    have hi8 : i < 8 := by omega
    rw [hi]
    have hW := WORD_eq
    rw [hW] at h
    interval_cases i <;> omega
  · rfl

theorem write64_mod (m : Mem) (a v : Nat) : write64 m a (v % WORD) = write64 m a v :=
  write64_congr_mod m a _ _ (Nat.mod_mod _ _)

theorem write64_write64_same (m : Mem) (a v w : Nat) :
    write64 (write64 m a v) a w = write64 m a w := by
  funext x
  unfold write64
  split_ifs <;> rfl

theorem readBytes_congr_mod (m m' : Mem) (a k : Nat)
    (h : ∀ x, a ≤ x → x < a + k → m' x % 256 = m x % 256) :
    readBytes m' a k = readBytes m a k := by
  induction k generalizing a with
  | zero => rfl
  | succ k ih =>
    simp only [readBytes]
    rw [h a (le_refl _) (by omega), ih (a + 1) (fun x h1 h2 => h x (by omega) (by omega))]

theorem readBytes_byte (m : Mem) (k : Nat) :
    ∀ (a i : Nat), i < k → readBytes m a k / 256 ^ i % 256 = m (a + i) % 256 := by
  induction k with
  | zero => intro a i hi; omega
  | succ k ih =>
    intro a i hi
    simp only [readBytes]
    have hb : m a % 256 < 256 := Nat.mod_lt _ (by norm_num)
    cases i with
    | zero => simp [Nat.add_mul_mod_self_left]
    | succ j =>
      have hdiv : (m a % 256 + 256 * readBytes m (a + 1) k) / 256 = readBytes m (a + 1) k := by
        omega
      rw [pow_succ', ← Nat.div_div_eq_div_mul, hdiv, ih (a + 1) j (by omega)]
      rw [show a + 1 + j = a + (j + 1) by omega]

/-- The byte `i` of a loaded word is the byte at offset `i`. -/
theorem read64_byte (m : Mem) (a i : Nat) (hi : i < 8) :
    read64 m a / 256 ^ i % 256 = m (a + i) % 256 :=
  readBytes_byte m 8 a i hi

/-- Storing back the word that was loaded changes no load. -/
theorem read64_write_back (m : Mem) (a b : Nat) :
    read64 (write64 m a (read64 m a)) b = read64 m b := by
  apply readBytes_congr_mod
  intro x _ _
  unfold write64
  split_ifs with c
  · rw [Nat.mod_mod, read64_byte m a (x - a) (by omega)]
    rw [show a + (x - a) = x by omega]
  · rfl






/-- The function `coalesce` computes the three-case reference definition,
provided the blocks of `prev` and `new` end inside the address space. -/
theorem coalesce_eq_ref (m : Mem) (prev new next : Nat)
    (hp : prev = NULL ∨ prev + read64 m (size_at prev) < WORD)
    (hn : next = NULL ∨ new + read64 m (size_at new) < WORD) :
    coalesce m prev new next = coalesce_ref m prev new next := by
  have hW := WORD_eq
  have eR : next ≠ NULL →
      (new + read64 m (size_at new)) % WORD = new + read64 m (size_at new) := by
    intro h
    rcases hn with h0 | h0
    · exact absurd h0 h
    · exact Nat.mod_eq_of_lt h0
  have eL : prev ≠ NULL →
      (prev + read64 m (size_at prev)) % WORD = prev + read64 m (size_at prev) := by
    intro h
    rcases hp with h0 | h0
    · exact absurd h0 h
    · exact Nat.mod_eq_of_lt h0
  by_cases hL : prev ≠ NULL ∧ prev + read64 m (size_at prev) = new
  · have hLm : (prev + read64 m (size_at prev)) % WORD = new := by rw [eL hL.1]; exact hL.2
    have c1 : ¬ ((prev = NULL ∨ (prev + read64 m (size_at prev)) % WORD ≠ new)
        ∧ next ≠ NULL ∧ (new + read64 m (size_at new)) % WORD = next) := by
      rintro ⟨h | h, _⟩
      · exact hL.1 h
      · exact h hLm
    by_cases hR : next ≠ NULL ∧ new + read64 m (size_at new) = next
    · -- both
      have c2 : ¬ ((next = NULL ∨ (new + read64 m (size_at new)) % WORD ≠ next)
          ∧ prev ≠ NULL ∧ (prev + read64 m (size_at prev)) % WORD = new) := by
        rintro ⟨h | h, _⟩
        · exact hR.1 h
        · rw [eR hR.1] at h; exact h hR.2
      have c3 : next ≠ NULL ∧ prev ≠ NULL
          ∧ (prev + read64 m (size_at prev)) % WORD = new
          ∧ (new + read64 m (size_at new)) % WORD = next :=
        ⟨hR.1, hL.1, hLm, by rw [eR hR.1]; exact hR.2⟩
      have r1 : ¬ (¬ (prev ≠ NULL ∧ prev + read64 m (size_at prev) = new)
          ∧ (next ≠ NULL ∧ new + read64 m (size_at new) = next)) := fun h => h.1 hL
      have r2 : ¬ ((prev ≠ NULL ∧ prev + read64 m (size_at prev) = new)
          ∧ ¬ (next ≠ NULL ∧ new + read64 m (size_at new) = next)) := fun h => h.2 hR
      unfold coalesce coalesce_ref
      rw [if_neg c1, if_neg c2, if_pos c3, if_neg r1, if_neg r2, if_pos ⟨hL, hR⟩]
      have hn1 : new + read64 m (size_at new) < WORD := by
        rcases hn with h0 | h0
        · exact absurd h0 hR.1
        · exact h0
      simp only [size_at, next_at] at hL hR hn1 ⊢
      -- the second `+=` reads the size of `next` after the first store
      have hnext : read64 (write64 m prev ((read64 m prev + read64 m new) % WORD)) next
          = read64 m next := by
        rcases Nat.lt_or_ge (read64 m prev + read64 m new) 8 with hs | hs
        · -- the size fields overlap: then `new` has size 0 and the store changes nothing
          have hns : read64 m new = 0 := by
            rcases Nat.eq_zero_or_pos (read64 m prev) with h0 | h0
            · have : new = prev := by omega
              rw [this]; exact h0
            · have hb := read64_byte m prev (read64 m prev) (by omega)
              have hb0 := read64_byte m new 0 (by omega)
              rw [hL.2, pow_zero, Nat.div_one, Nat.add_zero] at *
              have hsmall : read64 m prev / 256 ^ read64 m prev = 0 := by
                apply Nat.div_eq_of_lt
                calc read64 m prev < 256 := by omega
                  _ = 256 ^ 1 := by norm_num
                  _ ≤ 256 ^ read64 m prev := Nat.pow_le_pow_right (by norm_num) h0
              rw [hsmall] at hb
              omega
          rw [hns, Nat.add_zero, Nat.mod_eq_of_lt (read64_lt _ _)]
          exact read64_write_back m prev next
        · exact read64_write64_ne _ _ _ _ (by omega)
      rw [read64_write64_same, hnext, write64_write64_same]
      rw [read64_write64_ne _ _ _ _ (by omega)]
      rw [write64_congr_mod m prev _ (read64 m prev + read64 m new + read64 m next)
        (by rw [Nat.mod_mod, Nat.mod_mod, Nat.add_mod, Nat.mod_mod, ← Nat.add_mod])]
    · -- backward only
      have c2 : (next = NULL ∨ (new + read64 m (size_at new)) % WORD ≠ next)
          ∧ prev ≠ NULL ∧ (prev + read64 m (size_at prev)) % WORD = new := by
        refine ⟨?_, hL.1, hLm⟩
        by_cases h0 : next = NULL
        · exact Or.inl h0
        · right; rw [eR h0]; exact fun h => hR ⟨h0, h⟩
      have r1 : ¬ (¬ (prev ≠ NULL ∧ prev + read64 m (size_at prev) = new)
          ∧ (next ≠ NULL ∧ new + read64 m (size_at new) = next)) := fun h => h.1 hL
      unfold coalesce coalesce_ref
      rw [if_neg c1, if_pos c2, if_neg r1, if_pos ⟨hL, hR⟩]
      simp only
      rw [write64_mod]
  · have r2 : ¬ ((prev ≠ NULL ∧ prev + read64 m (size_at prev) = new)
        ∧ ¬ (next ≠ NULL ∧ new + read64 m (size_at new) = next)) := fun h => hL h.1
    have r3 : ¬ ((prev ≠ NULL ∧ prev + read64 m (size_at prev) = new)
        ∧ (next ≠ NULL ∧ new + read64 m (size_at new) = next)) := fun h => hL h.1
    have hLm : prev = NULL ∨ (prev + read64 m (size_at prev)) % WORD ≠ new := by
      by_cases h0 : prev = NULL
      · exact Or.inl h0
      · right; rw [eL h0]; exact fun h => hL ⟨h0, h⟩
    have c2 : ¬ ((next = NULL ∨ (new + read64 m (size_at new)) % WORD ≠ next)
        ∧ prev ≠ NULL ∧ (prev + read64 m (size_at prev)) % WORD = new) := by
      rintro ⟨_, h1, h2⟩
      rcases hLm with h | h
      · exact h1 h
      · exact h h2
    have c3 : ¬ (next ≠ NULL ∧ prev ≠ NULL
        ∧ (prev + read64 m (size_at prev)) % WORD = new
        ∧ (new + read64 m (size_at new)) % WORD = next) := by
      rintro ⟨_, h1, h2, _⟩
      rcases hLm with h | h
      · exact h1 h
      · exact h h2
    by_cases hR : next ≠ NULL ∧ new + read64 m (size_at new) = next
    · -- forward only
      have c1 : (prev = NULL ∨ (prev + read64 m (size_at prev)) % WORD ≠ new)
          ∧ next ≠ NULL ∧ (new + read64 m (size_at new)) % WORD = next :=
        ⟨hLm, hR.1, by rw [eR hR.1]; exact hR.2⟩
      unfold coalesce coalesce_ref
      rw [if_pos c1, if_pos ⟨hL, hR⟩]
      simp only [size_at, next_at] at hR ⊢
      rw [read64_write64_ne _ _ _ _ (by omega), write64_mod]
    · have c1 : ¬ ((prev = NULL ∨ (prev + read64 m (size_at prev)) % WORD ≠ new)
          ∧ next ≠ NULL ∧ (new + read64 m (size_at new)) % WORD = next) := by
        rintro ⟨_, h1, h2⟩
        rw [eR h1] at h2
        exact hR ⟨h1, h2⟩
      have r1 : ¬ (¬ (prev ≠ NULL ∧ prev + read64 m (size_at prev) = new)
          ∧ (next ≠ NULL ∧ new + read64 m (size_at new) = next)) := fun h => hR h.2
      unfold coalesce coalesce_ref
      rw [if_neg c1, if_neg c2, if_neg c3, if_neg r1, if_neg r2, if_neg r3]

/-- The three tests of `coalesce` are the three cases of the reference, and
no two of them hold together. -/
theorem coalesce_tests (m : Mem) (prev new next : Nat)
    (hp : prev = NULL ∨ prev + read64 m (size_at prev) < WORD)
    (hn : next = NULL ∨ new + read64 m (size_at new) < WORD) :
    (coalesce_forwards m prev new next ↔
        ¬ (prev ≠ NULL ∧ prev + read64 m (size_at prev) = new)
          ∧ (next ≠ NULL ∧ new + read64 m (size_at new) = next))
      ∧ (coalesce_backwards m prev new next ↔
        (prev ≠ NULL ∧ prev + read64 m (size_at prev) = new)
          ∧ ¬ (next ≠ NULL ∧ new + read64 m (size_at new) = next))
      ∧ (coalesce_all_three m prev new next ↔
        (prev ≠ NULL ∧ prev + read64 m (size_at prev) = new)
          ∧ (next ≠ NULL ∧ new + read64 m (size_at new) = next)) := by
  have key : ∀ (a b A Am B Bm : Prop), (¬ a → (Am ↔ A)) → (¬ b → (Bm ↔ B)) →
      (((a ∨ ¬ Am) ∧ ¬ b ∧ Bm) ↔ (¬ (¬ a ∧ A) ∧ (¬ b ∧ B)))
        ∧ (((b ∨ ¬ Bm) ∧ ¬ a ∧ Am) ↔ ((¬ a ∧ A) ∧ ¬ (¬ b ∧ B)))
        ∧ ((¬ b ∧ ¬ a ∧ Am ∧ Bm) ↔ ((¬ a ∧ A) ∧ (¬ b ∧ B))) := by
    intro a b A Am B Bm h1 h2
    by_cases ha : a <;> by_cases hb : b
    · simp [ha, hb]
    · simp [ha, hb, h2 hb]
    · simp [ha, hb, h1 ha]
    · simp [ha, hb, h1 ha, h2 hb, and_comm]
  unfold coalesce_forwards coalesce_backwards coalesce_all_three
  refine key (prev = NULL) (next = NULL) (prev + read64 m (size_at prev) = new)
    ((prev + read64 m (size_at prev)) % WORD = new)
    (new + read64 m (size_at new) = next)
    ((new + read64 m (size_at new)) % WORD = next) ?_ ?_
  · intro h
    rcases hp with h0 | h0
    · exact absurd h0 h
    · rw [Nat.mod_eq_of_lt h0]
  · intro h
    rcases hn with h0 | h0
    · exact absurd h0 h
    · rw [Nat.mod_eq_of_lt h0]

/-- C15. `coalesce(prev, new, next)` equals the three-case reference
definition `coalesce_ref`, whenever the pointer sums that the code forms do not
run past the end of the address space (the block of `prev`, when `prev` is
present, and the block of `new`, when `next` is present, end below `2^64`).
With `L` = "`prev` present and `prev + prev.size = new`" and `R` = "`next`
present and `new + new.size = next`": not `L` and `R` adds the size of `next`
to `new` and gives `new` the `next` of `next`; `L` and not `R` adds the size of
`new` to `prev` and makes `next` the `next` of `prev`; `L` and `R` adds both
sizes to `prev` and gives it the `next` of `next`; otherwise nothing is
written.  The function is the `if`/`else if` chain over its three tests, each
test is the corresponding case of the reference, and no two tests hold
together, so at most one merge is applied. -/
theorem C15_coalesce_three_cases (m : Mem) (prev new next : Nat)
    (hp : prev = NULL ∨ prev + read64 m (size_at prev) < WORD)
    (hn : next = NULL ∨ new + read64 m (size_at new) < WORD) :
    coalesce m prev new next = coalesce_ref m prev new next
      ∧ (coalesce m prev new next =
          if coalesce_forwards m prev new next then
            write64 (write64 m (size_at new)
                ((read64 m (size_at new) + read64 m (size_at next)) % WORD))
              (next_at new)
              (read64 (write64 m (size_at new)
                ((read64 m (size_at new) + read64 m (size_at next)) % WORD)) (next_at next))
          else if coalesce_backwards m prev new next then
            write64 (write64 m (size_at prev)
                ((read64 m (size_at prev) + read64 m (size_at new)) % WORD))
              (next_at prev) next
          else if coalesce_all_three m prev new next then
            coalesce_ref m prev new next
          else m)
      ∧ (coalesce_forwards m prev new next ↔
          ¬ (prev ≠ NULL ∧ prev + read64 m (size_at prev) = new)
            ∧ (next ≠ NULL ∧ new + read64 m (size_at new) = next))
      ∧ (coalesce_backwards m prev new next ↔
          (prev ≠ NULL ∧ prev + read64 m (size_at prev) = new)
            ∧ ¬ (next ≠ NULL ∧ new + read64 m (size_at new) = next))
      ∧ (coalesce_all_three m prev new next ↔
          (prev ≠ NULL ∧ prev + read64 m (size_at prev) = new)
            ∧ (next ≠ NULL ∧ new + read64 m (size_at new) = next))
      ∧ ¬ (coalesce_forwards m prev new next ∧ coalesce_backwards m prev new next)
      ∧ ¬ (coalesce_forwards m prev new next ∧ coalesce_all_three m prev new next)
      ∧ ¬ (coalesce_backwards m prev new next ∧ coalesce_all_three m prev new next) := by
  have heq := coalesce_eq_ref m prev new next hp hn
  obtain ⟨t1, t2, t3⟩ := coalesce_tests m prev new next hp hn
  refine ⟨heq, ?_, t1, t2, t3, ?_, ?_, ?_⟩
  · by_cases c1 : coalesce_forwards m prev new next
    · rw [if_pos c1]
      unfold coalesce
      unfold coalesce_forwards at c1
      rw [if_pos c1]
    · by_cases c2 : coalesce_backwards m prev new next
      · rw [if_neg c1, if_pos c2]
        unfold coalesce
        unfold coalesce_forwards at c1
        unfold coalesce_backwards at c2
        rw [if_neg c1, if_pos c2]
      · by_cases c3 : coalesce_all_three m prev new next
        · rw [if_neg c1, if_neg c2, if_pos c3]
          exact heq
        · rw [if_neg c1, if_neg c2, if_neg c3]
          unfold coalesce
          unfold coalesce_forwards at c1
          unfold coalesce_backwards at c2
          unfold coalesce_all_three at c3
          rw [if_neg c1, if_neg c2, if_neg c3]
  · unfold coalesce_forwards coalesce_backwards
    rintro ⟨⟨_, h1, h2⟩, ⟨h3 | h3, _⟩⟩
    · exact h1 h3
    · exact h3 h2
  · unfold coalesce_forwards coalesce_all_three
    rintro ⟨⟨h1 | h1, _⟩, ⟨_, h2, h3, _⟩⟩
    · exact h2 h1
    · exact h1 h3
  · unfold coalesce_backwards coalesce_all_three
    rintro ⟨⟨h1 | h1, _⟩, ⟨h2, _, _, h3⟩⟩
    · exact h2 h1
    · exact h1 h3

/-! ## Insertion of a block into a well-formed list -/

/-- Writing the two fields of the node `p` that follows the chain `L1` gives
the chain `L1`, then `p` with the size written, then the chain `T` that the
written `next` points to. -/
theorem lseg_set_node (mm : Mem) (L1 T : List (Nat × Nat)) (head p S t : Nat)
    (h1 : lseg mm L1 head p) (hp : p ≠ NULL) (hT : lseg mm T t NULL)
    (hS : S < WORD) (ht : t < WORD)
    (hL1 : ∀ x ∈ L1, x.1 + 16 ≤ p) (hT2 : ∀ y ∈ T, p + 16 ≤ y.1) :
    lseg (write64 (write64 mm (size_at p) S) (next_at p) t) (L1 ++ (p, S) :: T) head NULL := by
  rw [lseg_append]
  simp only [size_at, next_at]
  refine ⟨p, ?_, rfl, hp, ?_, ?_⟩
  · rw [lseg_write64 _ _ _ _ _ _ (fun x hx => by have := hL1 x hx; omega),
      lseg_write64 _ _ _ _ _ _ (fun x hx => by have := hL1 x hx; omega)]
    exact h1
  · simp only [size_at]
    rw [read64_write64_ne _ _ _ _ (by omega)]
    exact read64_write64_same_lt _ _ _ hS
  · simp only [next_at]
    rw [read64_write64_same_lt _ _ _ ht]
    rw [lseg_write64 _ _ _ _ _ _ (fun x hx => by have := hT2 x hx; omega),
      lseg_write64 _ _ _ _ _ _ (fun x hx => by have := hT2 x hx; omega)]
    exact hT

/-- The state in which `free_block_insert` calls `coalesce`, when the list has
nodes below the new block `[a, a + sz)`: the new node is linked between the
nodes `L1` that end at or below `a` and the nodes `L2` that start at or above
`a + sz`. -/
theorem free_block_insert_linked (s : State) (a sz fuel : Nat) (L1 L2 : List (Nat × Nat))
    (hlist : free_list s (L1 ++ L2))
    (hwf : well_formed (L1 ++ L2))
    (ha : a ≠ NULL) (hsz : 16 ≤ sz) (haw : a + sz < WORD)
    (hL1 : ∀ x ∈ L1, x.1 + x.2 ≤ a)
    (hL2 : ∀ y ∈ L2, a + sz ≤ y.1)
    (hfuel : (L1 ++ L2).length < fuel) (hne : L1 ≠ []) :
    ∃ mm q s1, free_block_insert fuel s a sz = .ok s1
      ∧ s1.mem = coalesce mm (last_addr NULL L1) a q ∧ s1.head = s.head
      ∧ s1.stats = s.stats ∧ s1.calls = s.calls
      ∧ lseg mm (L1 ++ (a, sz) :: L2) s.head NULL ∧ lseg mm L2 q NULL := by
  have hW := WORD_eq
  obtain ⟨w1, w2⟩ := well_formed_append _ _ hwf
  have hf1 : ∀ x ∈ L1, x.1 + 16 ≤ a := fun x hx => by
    have := hL1 x hx; have := (w1.2 x hx).1; omega
  have hf2 : ∀ y ∈ L2, a + 16 ≤ y.1 := fun y hy => by have := hL2 y hy; omega
  obtain ⟨s1, hs1, hst, hca, -⟩ := free_block_insert_frame s a sz fuel (L1 ++ L2)
    hlist hfuel (fun x hx => by
      rcases List.mem_append.1 hx with h | h
      · left; exact hf1 x h
      · right; have := hf2 x h; omega)
  have hs0 := hs1
  have hm1 : lseg (write64 s.mem (size_at a) sz) (L1 ++ L2) s.head NULL := by
    refine (lseg_write64 _ _ _ _ _ _ ?_).2 hlist
    intro x hx
    simp only [size_at]
    rcases List.mem_append.1 hx with h | h
    · left; exact hf1 x h
    · right; have := hf2 x h; omega
  obtain ⟨q, h1, h2⟩ := (lseg_append _ _ _ _ _).1 hm1
  have hsza : read64 (write64 s.mem (size_at a) sz) a = sz :=
    read64_write64_same_lt _ _ _ (by omega)
  have hh : s.head ≠ NULL := by
    cases L1 with
    | nil => exact absurd rfl hne
    | cons x L => exact h1.2.1
  unfold free_block_insert at hs1
  rw [if_neg hh] at hs1
  dsimp only at hs1
  obtain ⟨k, hk⟩ : ∃ k, fuel = L1.length + (k + 1) :=
    ⟨fuel - L1.length - 1, by simp at hfuel; omega⟩
  rw [hk, free_block_insert_loop_skip _ _ _ L1 _ _ _ _ h1
    (fun x hx => by have := hf1 x hx; omega)] at hs1
  have hpw1 := well_formed_fields _ w1
  have hq2 : ∀ mm : Mem, (∀ y, a + 16 ≤ y →
      (L1 = [] ∨ y < last_addr NULL L1 + 8 ∨ last_addr NULL L1 + 16 ≤ y) →
      mm y = write64 s.mem (size_at a) sz y) → lseg mm L2 q NULL := by
    intro mm hfr
    refine (lseg_congr _ mm L2 _ _ ?_).2 h2
    intro z hz y hy1 hy2
    have := hf2 z hz
    refine hfr y (by omega) ?_
    obtain ⟨x, hx, e⟩ := last_addr_mem L1 hne
    have := hf1 x hx
    exact Or.inr (by rw [e]; omega)
  have hfld : ∀ y, (∃ x ∈ L1 ++ L2, x.1 ≤ y ∧ y < x.1 + 16) → (y < a ∨ a + 16 ≤ y) := by
    rintro y ⟨x, hx, g1, g2⟩
    rcases List.mem_append.1 hx with h | h
    · left; have := hf1 x h; omega
    · right; have := hf2 x h; omega
  have hf2c : ∀ y ∈ L2, a ≤ y.1 := fun y hy => by have := hf2 y hy; omega
  obtain ⟨x, hx, e⟩ := last_addr_mem L1 hne
  have hxa := hf1 x hx
  cases hL2 : L2 with
  | nil =>
    subst hL2
    have hqn : q = NULL := h2
    subst hqn
    simp only [free_block_insert_loop, ne_eq, not_true_eq_false, if_false,
      free_block_insert_tail] at hs1
    have := Except.ok.inj hs1
    subst this
    have hfr : ∀ y, (y < a + 8 ∨ a + 16 ≤ y) →
        (L1 = [] ∨ y < last_addr NULL L1 + 8 ∨ last_addr NULL L1 + 16 ≤ y) →
        write64 (write64 (write64 s.mem (size_at a) sz) (next_at (last_addr NULL L1)) a)
          (next_at a) NULL y = write64 s.mem (size_at a) sz y := by
      intro y g1 g2
      have g3 : y < last_addr NULL L1 + 8 ∨ last_addr NULL L1 + 16 ≤ y := by
        rcases g2 with g | g
        · exact absurd g hne
        · exact g
      simp only [next_at]
      rw [write64_apply_ne _ _ _ _ (by omega), write64_apply_ne _ _ _ _ (by omega)]
    have hc := splice_chain _ _ L1 [] s.head NULL a sz NULL h1 h2 ha hf1 hf2c hpw1
      (fun y g1 g2 => hfr y (by have := hfld y g1; omega) g2)
      (Eq.trans (read64_congr _ _ _ (fun y g1 g2 => hfr y (by omega)
        (Or.inr (by rw [e]; omega)))) hsza)
      (by simp only [next_at]; exact read64_write64_same_lt _ _ _ (by simp [NULL, WORD]))
      (fun _ => by
        simp only [next_at]
        rw [read64_write64_ne _ _ _ _ (by rw [e]; omega)]
        exact read64_write64_same_lt _ _ _ (by omega))
    simp only [hne, if_false] at hc
    exact ⟨_, NULL, _, hs0, rfl, rfl, rfl, rfl, hc,
      hq2 _ (fun y g1 g2 => hfr y (Or.inr g1) g2)⟩
  | cons bb R =>
    obtain ⟨b, sb⟩ := bb
    subst hL2
    obtain ⟨q1, q2, q3, q4⟩ := h2
    simp only at q1
    subst q1
    have hb := hf2 (q, sb) (by simp)
    simp only at hb
    have hlt : a < q := by omega
    have h2' : lseg (write64 s.mem (size_at a) sz) ((q, sb) :: R) q NULL := ⟨rfl, q2, q3, q4⟩
    simp only [free_block_insert_loop, q2, ne_eq, not_false_eq_true, if_true, hlt,
      free_block_insert_splice] at hs1
    have hxn : last_addr NULL L1 ≠ NULL := by
      rw [e]; exact (lseg_size _ _ _ _ h1 x hx).1
    rw [if_neg hxn] at hs1
    have := Except.ok.inj hs1
    subst this
    have hfr : ∀ y, (y < a + 8 ∨ a + 16 ≤ y) →
        (L1 = [] ∨ y < last_addr NULL L1 + 8 ∨ last_addr NULL L1 + 16 ≤ y) →
        write64 (write64 (write64 s.mem (size_at a) sz) (next_at a) q)
          (next_at (last_addr NULL L1)) a y = write64 s.mem (size_at a) sz y := by
      intro y g1 g2
      have g3 : y < last_addr NULL L1 + 8 ∨ last_addr NULL L1 + 16 ≤ y := by
        rcases g2 with g | g
        · exact absurd g hne
        · exact g
      simp only [next_at]
      rw [write64_apply_ne _ _ _ _ (by omega), write64_apply_ne _ _ _ _ (by omega)]
    have hqw : q < WORD := by
      have := (w2.2 (q, sb) (by simp)).2; simp only at this; omega
    have hc := splice_chain _ _ L1 ((q, sb) :: R) s.head q a sz q h1 h2' ha hf1 hf2c
      hpw1 (fun y g1 g2 => hfr y (by have := hfld y g1; omega) g2)
      (Eq.trans (read64_congr _ _ _ (fun y g1 g2 => hfr y (by omega)
        (Or.inr (by rw [e]; omega)))) hsza)
      (by
        simp only [next_at]
        rw [read64_write64_ne _ _ _ _ (by rw [e]; omega)]
        exact read64_write64_same_lt _ _ _ hqw)
      (fun _ => by
        simp only [next_at]
        exact read64_write64_same_lt _ _ _ (by omega))
    simp only [hne, if_false] at hc
    exact ⟨_, q, _, hs0, rfl, rfl, rfl, rfl, hc,
      hq2 _ (fun y g1 g2 => hfr y (Or.inr g1) g2)⟩




theorem coalesce_ref_backward (m : Mem) (prev new next : Nat)
    (hL : prev ≠ NULL ∧ prev + read64 m (size_at prev) = new)
    (hR : ¬ (next ≠ NULL ∧ new + read64 m (size_at new) = next)) :
    coalesce_ref m prev new next
      = write64 (write64 m (size_at prev) (read64 m (size_at prev) + read64 m (size_at new)))
          (next_at prev) next := by
  unfold coalesce_ref
  split_ifs with h1 h2 h3
  · exact absurd hL h1.1
  · rfl
  · exact absurd h3.2 hR
  · exact absurd ⟨hL, hR⟩ h2

theorem coalesce_ref_both (m : Mem) (prev new next : Nat)
    (hL : prev ≠ NULL ∧ prev + read64 m (size_at prev) = new)
    (hR : next ≠ NULL ∧ new + read64 m (size_at new) = next) :
    coalesce_ref m prev new next
      = write64 (write64 m (size_at prev)
            (read64 m (size_at prev) + read64 m (size_at new) + read64 m (size_at next)))
          (next_at prev) (read64 m (next_at next)) := by
  unfold coalesce_ref
  split_ifs with h1 h2 h3
  · exact absurd hL h1.1
  · exact absurd hR h2.2
  · rfl
  · exact absurd ⟨hL, hR⟩ h3

/-- The chain after `coalesce`, when the predecessor `(p, ps)` ends exactly
where the new node starts: the predecessor absorbs the new node, and the first
node of `L2` as well when the new node touches it. -/
theorem coalesce_chain_backward (mm : Mem) (L0 L2 : List (Nat × Nat))
    (head p ps a sz q : Nat)
    (hc : lseg mm (L0 ++ (p, ps) :: (a, sz) :: L2) head NULL)
    (hq : lseg mm L2 q NULL)
    (hpa : p + ps = a) (hps : 16 ≤ ps) (haw : a + sz < WORD)
    (hL0 : ∀ x ∈ L0, x.1 + 16 ≤ p)
    (hL2 : ∀ y ∈ L2, a + sz ≤ y.1 ∧ 16 ≤ y.2 ∧ y.1 + y.2 < WORD)
    (hpw2 : L2.Pairwise (fun x y => x.1 + 16 ≤ y.1)) :
    lseg (coalesce mm p a q) (L0 ++ insert_merge p (ps + sz) L2) head NULL := by
  have hW := WORD_eq
  obtain ⟨r, c1, c2, c3, c4, c5⟩ := (lseg_append _ _ _ _ _).1 hc
  simp only at c2 c4
  subst c2
  obtain ⟨d1, d2, d3, d4⟩ := c5
  simp only at d1 d3
  rw [d1] at d3
  have hLt : r ≠ NULL ∧ r + read64 mm (size_at r) = a := ⟨c3, by rw [c4]; exact hpa⟩
  rw [coalesce_eq_ref mm r a q (Or.inr (by rw [c4]; omega)) (Or.inr (by rw [d3]; exact haw))]
  cases L2 with
  | nil =>
    have hqn : q = NULL := hq
    subst hqn
    rw [coalesce_ref_backward mm r a NULL hLt (fun h => h.1 rfl), c4, d3]
    simp only [insert_merge]
    exact lseg_set_node mm L0 [] head r (ps + sz) NULL c1 c3 rfl (by omega)
      (by simp [NULL, WORD]) hL0 (by simp)
  | cons bb R =>
    obtain ⟨b, sb⟩ := bb
    obtain ⟨q1, q2, q3, q4⟩ := hq
    simp only at q1 q3
    subst q1
    have hb := hL2 (q, sb) (by simp)
    simp only at hb
    rw [List.pairwise_cons] at hpw2
    simp only [insert_merge]
    by_cases hm : a + sz = q
    · have hm2 : r + (ps + sz) = q := by omega
      rw [if_pos hm2, coalesce_ref_both mm r a q hLt ⟨q2, by rw [d3]; exact hm⟩, c4, d3, q3]
      refine lseg_set_node mm L0 R head r (ps + sz + sb) _ c1 c3 q4 (by omega)
        (read64_lt _ _) hL0 ?_
      intro y hy
      have := hpw2.1 y hy
      simp only at this
      omega
    · have hm2 : ¬ r + (ps + sz) = q := by omega
      rw [if_neg hm2, coalesce_ref_backward mm r a q hLt
        (fun h => hm (by rw [← d3]; exact h.2)), c4, d3]
      refine lseg_set_node mm L0 ((q, sb) :: R) head r (ps + sz) q c1 c3 ⟨rfl, q2, q3, q4⟩
        (by omega) (by omega) hL0 ?_
      intro y hy
      have := (hL2 y hy).1
      omega

theorem covered_append (L1 L2 : List (Nat × Nat)) (y : Nat) :
    covered (L1 ++ L2) y ↔ covered L1 y ∨ covered L2 y := by
  unfold covered
  constructor
  · rintro ⟨x, hx, h⟩
    rcases List.mem_append.1 hx with g | g
    · exact Or.inl ⟨x, g, h⟩
    · exact Or.inr ⟨x, g, h⟩
  · rintro (⟨x, hx, h⟩ | ⟨x, hx, h⟩)
    · exact ⟨x, List.mem_append.2 (Or.inl hx), h⟩
    · exact ⟨x, List.mem_append.2 (Or.inr hx), h⟩

theorem covered_cons (x : Nat × Nat) (L : List (Nat × Nat)) (y : Nat) :
    covered (x :: L) y ↔ (x.1 ≤ y ∧ y < x.1 + x.2) ∨ covered L y := by
  unfold covered
  constructor
  · rintro ⟨z, hz, h⟩
    rcases List.mem_cons.1 hz with rfl | g
    · exact Or.inl h
    · exact Or.inr ⟨z, g, h⟩
  · rintro (h | ⟨z, hz, h⟩)
    · exact ⟨x, List.mem_cons_self _ _, h⟩
    · exact ⟨z, List.mem_cons_of_mem _ hz, h⟩

theorem covered_nil (y : Nat) : ¬ covered [] y := by
  unfold covered
  simp

theorem covered_insert_merge (a sz : Nat) (L2 : List (Nat × Nat)) (y : Nat) :
    covered (insert_merge a sz L2) y ↔ (a ≤ y ∧ y < a + sz) ∨ covered L2 y := by
  cases L2 with
  | nil => simp only [insert_merge]; rw [covered_cons]
  | cons bb R =>
    obtain ⟨b, sb⟩ := bb
    simp only [insert_merge]
    by_cases hm : a + sz = b
    · rw [if_pos hm, covered_cons, covered_cons]
      simp only
      constructor
      · rintro (h | h)
        · by_cases hy : y < a + sz
          · exact Or.inl ⟨h.1, hy⟩
          · exact Or.inr (Or.inl (by omega))
        · exact Or.inr (Or.inr h)
      · rintro (h | h | h)
        · exact Or.inl (by omega)
        · exact Or.inl (by omega)
        · exact Or.inr h
    · rw [if_neg hm, covered_cons]

theorem total_size_append (L1 L2 : List (Nat × Nat)) :
    total_size (L1 ++ L2) = total_size L1 + total_size L2 := by
  simp [total_size]

theorem total_size_cons (x : Nat × Nat) (L : List (Nat × Nat)) :
    total_size (x :: L) = x.2 + total_size L := by
  simp [total_size]

theorem total_size_insert_merge (a sz : Nat) (L2 : List (Nat × Nat)) :
    total_size (insert_merge a sz L2) = sz + total_size L2 := by
  cases L2 with
  | nil => simp [insert_merge, total_size]
  | cons bb R =>
    obtain ⟨b, sb⟩ := bb
    simp only [insert_merge]
    split_ifs
    · simp only [total_size_cons]; omega
    · simp only [total_size_cons]

/-- A well-formed list splits around a block that is disjoint from its
nodes: the nodes that end at or below the block, then those that start at or
above its end. -/
theorem split_at_block (loc len : Nat) (L : List (Nat × Nat)) (hwf : well_formed L)
    (h : ∀ x ∈ L, x.1 + x.2 ≤ loc ∨ loc + len ≤ x.1) :
    ∃ L1 L2, L = L1 ++ L2 ∧ (∀ x ∈ L1, x.1 + x.2 ≤ loc) ∧ (∀ y ∈ L2, loc + len ≤ y.1) := by
  induction L with
  | nil => exact ⟨[], [], rfl, by simp, by simp⟩
  | cons x L ih =>
    obtain ⟨hp, hs⟩ := hwf
    rw [List.pairwise_cons] at hp
    by_cases hx : loc + len ≤ x.1
    · refine ⟨[], x :: L, rfl, by simp, ?_⟩
      intro y hy
      rcases List.mem_cons.1 hy with rfl | hy
      · exact hx
      · have := hp.1 y hy; omega
    · obtain ⟨L1, L2, e, g1, g2⟩ := ih ⟨hp.2, fun z hz => hs z (List.mem_cons_of_mem _ hz)⟩
        (fun z hz => h z (List.mem_cons_of_mem _ hz))
      refine ⟨x :: L1, L2, by rw [e]; rfl, ?_, g2⟩
      intro z hz
      rcases List.mem_cons.1 hz with rfl | hz
      · have := h z (List.mem_cons_self _ _); omega
      · exact g1 z hz

theorem well_formed_drop (pre post : List (Nat × Nat)) (x : Nat × Nat)
    (h : well_formed (pre ++ x :: post)) : well_formed (pre ++ post) := by
  have hsub : List.Sublist (pre ++ post) (pre ++ x :: post) :=
    (List.sublist_cons_self x post).append_left pre
  exact ⟨h.1.sublist hsub, fun z hz => h.2 z (hsub.subset hz)⟩

/-- C14 (amended). In a state whose free list `L` is well-formed (strictly
address-ordered, no two nodes overlapping or touching, every node at least 16
bytes, none running past the end of the address space), for every block
`[a, a + sz)` of at least 16 bytes, not at the null address, ending inside the
address space and disjoint from every node of `L`: `free_block_insert(a, sz)`
returns, the free list it leaves is a well-formed list again, its nodes cover
exactly the bytes covered before together with the bytes of `[a, a + sz)`, and
the sum of the node sizes has grown by exactly `sz`.  The statistics and the
log of page-provider calls are unchanged. -/
theorem C14_insert_well_formed (s : State) (a sz fuel : Nat) (L : List (Nat × Nat))
    (hlist : free_list s L) (hwf : well_formed L)
    (ha : a ≠ NULL) (hsz : 16 ≤ sz) (haw : a + sz < WORD)
    (hdis : ∀ x ∈ L, x.1 + x.2 ≤ a ∨ a + sz ≤ x.1)
    (hfuel : L.length < fuel) :
    ∃ s1 L', free_block_insert fuel s a sz = .ok s1
      ∧ free_list s1 L' ∧ well_formed L'
      ∧ (∀ y, covered L' y ↔ covered L y ∨ (a ≤ y ∧ y < a + sz))
      ∧ total_size L' = total_size L + sz
      ∧ s1.stats = s.stats ∧ s1.calls = s.calls := by
  have hW := WORD_eq
  obtain ⟨L1, L2, e, hL1, hL2⟩ := split_at_block a sz L hwf hdis
  subst e
  by_cases hstrict : ∀ x ∈ L1, x.1 + x.2 < a
  · -- no node ends at `a`
    obtain ⟨s1, hs1, hst, hca, hfl, -⟩ :=
      free_block_insert_spec s a sz fuel L1 L2 hlist hwf ha hsz haw hstrict hL2 hfuel
    obtain ⟨t, R, hform, -, -, hwf2⟩ := insert_merge_form a sz L1 L2 hwf hsz haw hstrict hL2
    refine ⟨s1, L1 ++ insert_merge a sz L2, hs1, hfl, by rw [hform]; exact hwf2, ?_, ?_,
      hst, hca⟩
    · intro y
      rw [covered_append, covered_insert_merge, covered_append]
      tauto
    · rw [total_size_append, total_size_insert_merge, total_size_append]
      omega
  · -- the last node of `L1` ends at `a`
    have hne : L1 ≠ [] := by
      rintro rfl
      exact hstrict (by simp)
    rcases List.eq_nil_or_concat L1 with h | ⟨L0, x, h⟩
    · exact absurd h hne
    · rw [List.concat_eq_append] at h
      subst h
      obtain ⟨p, ps⟩ := x
      have hwf1 : well_formed (L0 ++ (p, ps) :: L2) := by
        rw [List.append_assoc] at hwf
        exact hwf
      obtain ⟨m1, m2, m3, m4⟩ := well_formed_mid L0 L2 p ps hwf1
      have hple : p + ps ≤ a := hL1 (p, ps) (by simp)
      have hpa : p + ps = a := by
        by_contra hcon
        apply hstrict
        intro z hz
        rcases List.mem_append.1 hz with g | g
        · have := (m1 z g).2; omega
        · have : z = (p, ps) := by simpa using g
          subst this
          simp only
          omega
      obtain ⟨mm, q, s1, hs1, hmem, hhead, hst, hca, hc, hq⟩ :=
        free_block_insert_linked s a sz fuel (L0 ++ [(p, ps)]) L2 hlist hwf ha hsz haw
          hL1 hL2 hfuel hne
      rw [last_addr_concat] at hmem
      simp only at hmem
      have hc2 : lseg mm (L0 ++ (p, ps) :: (a, sz) :: L2) s.head NULL := by
        rw [List.append_assoc] at hc
        exact hc
      obtain ⟨-, w2⟩ := well_formed_append _ _ hwf
      have hchain := coalesce_chain_backward mm L0 L2 s.head p ps a sz q hc2 hq hpa m2 haw
        (fun z hz => by have := m1 z hz; omega)
        (fun z hz => ⟨hL2 z hz, (w2.2 z hz).1, (w2.2 z hz).2⟩)
        (well_formed_fields _ w2)
      obtain ⟨t, R, hform, -, -, hwf2⟩ := insert_merge_form p (ps + sz) L0 L2
        (well_formed_drop L0 L2 (p, ps) hwf1) (by omega) (by omega)
        (fun z hz => (m1 z hz).2) (fun z hz => by have := hL2 z hz; omega)
      refine ⟨s1, L0 ++ insert_merge p (ps + sz) L2, hs1, ?_, by rw [hform]; exact hwf2,
        ?_, ?_, hst, hca⟩
      · unfold free_list
        rw [hmem, hhead]
        exact hchain
      · intro y
        rw [covered_append, covered_insert_merge, covered_append, covered_append,
          covered_cons]
        simp only [covered_nil, or_false]
        constructor
        · rintro (h | h | h)
          · exact Or.inl (Or.inl (Or.inl h))
          · by_cases hy : y < a
            · exact Or.inl (Or.inl (Or.inr ⟨h.1, by omega⟩))
            · exact Or.inr (by omega)
          · exact Or.inl (Or.inr h)
        · rintro (((h | h) | h) | h)
          · exact Or.inl h
          · exact Or.inr (Or.inl (by omega))
          · exact Or.inr (Or.inr h)
          · exact Or.inr (Or.inl (by omega))
      · rw [total_size_append, total_size_insert_merge, total_size_append,
          total_size_append, total_size_cons]
        simp only [total_size, List.map_nil, List.sum_nil]
        omega




/-- The three cases of merging at concrete inputs, on the two-node state:
a block touching both neighbours, a block touching only the node below it, and
a block touching only the node above it. -/
theorem insert_merge_examples :
    result_ok (fun s1 => free_list s1 [(0x10000, 0x11000)])
      (free_block_insert 5 two_node_state 0x10020 0xffe0)
    ∧ result_ok (fun s1 => free_list s1 [(0x10000, 64), (0x20000, 4096)])
      (free_block_insert 5 two_node_state 0x10020 32)
    ∧ result_ok (fun s1 => free_list s1 [(0x10000, 32), (0x1ffe0, 4128)])
      (free_block_insert 5 two_node_state 0x1ffe0 32) := by
  refine ⟨by decide, by decide, by decide⟩

/-! ## Witnesses -/

theorem two_node_state_free_list :
    free_list two_node_state [(0x10000, 32), (0x20000, 4096)] := by
  unfold free_list; decide

theorem two_node_state_well_formed : well_formed [(0x10000, 32), (0x20000, 4096)] := by
  unfold well_formed; simp [WORD]

/-- Witness of C5: a request of 100 bytes on the two-node state skips the
32-byte node and is served from the node at `0x20000`. -/
theorem C5_first_fit_witness :
    free_list two_node_state ([(0x10000, 32)] ++ (0x20000, 4096) :: [])
    ∧ well_formed ([(0x10000, 32)] ++ (0x20000, 4096) :: [])
    ∧ ∃ s1 q, hmalloc 5 two_node_state 100 0 = .ok (0x20000 + 8, s1)
      ∧ read64 s1.mem 0x20000 = 100 + 8
      ∧ s1.stats.pages_mapped = two_node_state.stats.pages_mapped
      ∧ s1.calls = two_node_state.calls
      ∧ lseg s1.mem [(0x10000, 32)] s1.head q :=
  ⟨two_node_state_free_list, two_node_state_well_formed,
    C5_first_fit two_node_state 100 0 5 0x20000 4096 [(0x10000, 32)] []
      two_node_state_free_list two_node_state_well_formed (by simp) (by decide) (by decide)⟩

/-- Witness of C3: on the two-node state a request of 100 bytes is served from
the node at `0x20000`, released, and served from there again. -/
theorem C3_round_trip_witness :
    ∃ p s1 s2 s3, hmalloc 5 two_node_state 100 0 = .ok (p, s1)
      ∧ hfree 5 s1 p = .ok s2
      ∧ hmalloc 5 s2 100 0 = .ok (p, s3) :=
  C3_round_trip two_node_state 100 0 0 5 [(0x10000, 32), (0x20000, 4096)]
    two_node_state_free_list two_node_state_well_formed (by decide) (by decide)
    (Or.inl ⟨[(0x10000, 32)], 0x20000, 4096, [], rfl, by simp, by decide,
      fun _ => by decide⟩)
    (by decide)

/-- Witness of C4: a request of 100 bytes on the two-node state. -/
theorem C4_header_stamp_witness :
    ∃ p s1, hmalloc 5 two_node_state 100 0x30000 = .ok (p, s1) ∧ 8 ≤ p
      ∧ read64 s1.mem (p - 8) = 100 + 8
      ∧ 100 ≤ read64 s1.mem (p - 8) - 8 :=
  C4_header_stamp two_node_state 100 0x30000 5 [(0x10000, 32), (0x20000, 4096)]
    two_node_state_free_list (by simp [WORD]) (by simp [WORD]) (by simp [WORD])
    (by simp) (by decide)

/-- Witness of C7: a request of 10000 bytes (3 pages) on the two-node state. -/
theorem C7_multi_page_bypass_witness :
    ∃ s1 s2, hmalloc 5 two_node_state 10000 0x40000 = .ok (0x40000 + 8, s1)
      ∧ s1.stats.pages_mapped
          = two_node_state.stats.pages_mapped + ((((10000 + 8) % WORD + 4095) / 4096 : Nat) : Int)
      ∧ s1.head = two_node_state.head
      ∧ free_list s1 [(0x10000, 32), (0x20000, 4096)]
      ∧ hfree 5 s1 (0x40000 + 8) = .ok s2
      ∧ s2.stats.pages_unmapped
          = s1.stats.pages_unmapped + ((((10000 + 8) % WORD + 4095) / 4096 : Nat) : Int)
      ∧ s2.head = two_node_state.head
      ∧ free_list s2 [(0x10000, 32), (0x20000, 4096)] :=
  C7_multi_page_bypass two_node_state 10000 0x40000 5 [(0x10000, 32), (0x20000, 4096)]
    two_node_state_free_list (by simp [WORD]) (by simp [WORD]) (by simp [WORD])
    (by simp [WORD]) (by decide)

/-- Witness of C10: a request of 5000 bytes (2 pages) on the empty allocator. -/
theorem C10_unmap_arguments_witness :
    ∃ s1, hmalloc 5 (empty zero_mem) 5000 0x10000 = .ok (0x10000 + 8, s1)
      ∧ s1.calls = SysCall.mmap (((5000 + 8) % WORD + 4095) / 4096 * 4096) 0x10000
          :: (empty zero_mem).calls
      ∧ read64 s1.mem 0x10000 = (5000 + 8) % WORD
      ∧ (((5000 + 8) % WORD + 4095) / 4096 - 1) * 4096 < (5000 + 8) % WORD
      ∧ (5000 + 8) % WORD ≤ ((5000 + 8) % WORD + 4095) / 4096 * 4096
      ∧ ∀ (t : State) (Lt : List (Nat × Nat)) (fuel1 : Nat),
          free_list t Lt → Lt.length < fuel1 → read64 t.mem 0x10000 = (5000 + 8) % WORD →
          ∃ t1, hfree fuel1 t (0x10000 + 8) = .ok t1
            ∧ t1.calls = SysCall.munmap 0x10000 ((5000 + 8) % WORD) :: t.calls :=
  C10_unmap_arguments (empty zero_mem) 5000 0x10000 5 [] rfl (by simp) (by simp [WORD])
    (by decide) (by simp [WORD]) (by decide)

/-- Witness of C12: on the two-node state the node at `0x20000` is found. -/
theorem C12_update_fatal_iff_witness :
    (free_block_update 5 two_node_state 0x20000 100 = .error .exit_failure
        ↔ ∀ x ∈ ([(0x10000, 32), (0x20000, 4096)] : List (Nat × Nat)), x.1 ≠ 0x20000)
    ∧ ((∀ x ∈ ([(0x10000, 32), (0x20000, 4096)] : List (Nat × Nat)), x.1 ≠ 0x20000) →
        free_block_update_loop 0x20000 100 5 two_node_state.mem two_node_state.head
            two_node_state.head NULL
          = free_block_update_loop 0x20000 100
              (5 - ([(0x10000, 32), (0x20000, 4096)] : List (Nat × Nat)).length)
              two_node_state.mem two_node_state.head NULL
              (last_addr NULL [(0x10000, 32), (0x20000, 4096)]))
    ∧ ((∃ x ∈ ([(0x10000, 32), (0x20000, 4096)] : List (Nat × Nat)), x.1 = 0x20000) →
        ∃ s1, free_block_update 5 two_node_state 0x20000 100 = .ok s1) :=
  C12_update_fatal_iff two_node_state 0x20000 100 5 [(0x10000, 32), (0x20000, 4096)]
    two_node_state_free_list (by decide)

/-- Witness of C15: three adjacent nodes at `0x1000`, `0x1020` and `0x1040`. -/
theorem C15_coalesce_three_cases_witness :
    coalesce (write64 (write64 (write64 zero_mem 0x1000 32) 0x1020 32) 0x1040 64)
        0x1000 0x1020 0x1040
      = coalesce_ref (write64 (write64 (write64 zero_mem 0x1000 32) 0x1020 32) 0x1040 64)
        0x1000 0x1020 0x1040 :=
  (C15_coalesce_three_cases
    (write64 (write64 (write64 zero_mem 0x1000 32) 0x1020 32) 0x1040 64)
    0x1000 0x1020 0x1040 (Or.inr (by decide)) (Or.inr (by decide))).1

/-- Witness of C16: an effective size of 5008 bytes takes two pages. -/
theorem C16_div_up_ceiling_witness :
    5008 ≤ div_up 5008 4096 * 4096
    ∧ (∀ z, 5008 ≤ z * 4096 → div_up 5008 4096 ≤ z)
    ∧ 5008 / 4096 * 4096 ≤ 5008
    ∧ 5008 / 4096 * 4096 % WORD = 5008 / 4096 * 4096
    ∧ div_up 5008 4096 < WORD
    ∧ ∀ (m : Mem) (loc : Nat),
        div_up (read64 (write64 m loc 5008) loc) PAGE_SIZE = div_up 5008 PAGE_SIZE :=
  C16_div_up_ceiling 5008 4096 (by decide) (by decide)

/-- Witness of C14: on the two-node state the block `[0x10020, 0x20000)` touches
the node below it and the node above it, so all three are merged. -/
theorem C14_insert_well_formed_witness :
    ∃ s1 L', free_block_insert 5 two_node_state 0x10020 0xffe0 = .ok s1
      ∧ free_list s1 L' ∧ well_formed L'
      ∧ (∀ y, covered L' y ↔ covered [(0x10000, 32), (0x20000, 4096)] y
          ∨ (0x10020 ≤ y ∧ y < 0x10020 + 0xffe0))
      ∧ total_size L' = total_size [(0x10000, 32), (0x20000, 4096)] + 0xffe0
      ∧ s1.stats = two_node_state.stats ∧ s1.calls = two_node_state.calls :=
  C14_insert_well_formed two_node_state 0x10020 0xffe0 5 [(0x10000, 32), (0x20000, 4096)]
    two_node_state_free_list two_node_state_well_formed (by decide) (by decide) (by decide)
    (by decide) (by decide)

end HMalloc
